import Mathlib

/-!
# INI configuration parser (`src/iniparser.c`): a shallow embedding

A C string (`const char*`) is the list of the characters that precede its
terminating NUL, so the test `*p` of the source is the test "the list is not
empty".  A singly linked list reached through `pNext` is a Lean list, except in
the two deletion routines, whose pointer updates are modelled on an explicit
memory of cells.  The allocator (`ini_cfg_alloc`, `ini_cfg_alloc_string`,
`ini_cfg_alloc_string_len`) is outside `iniparser.c`; it is taken to succeed and
to hand back zeroed memory, which the source relies on when it never
initialises `pNext` or `pKeyValue`.
-/

namespace IniParser

/-! ## Error codes (`errno.h`, Linux values) -/

/-- ENOENT. -/
def ENOENT : Nat := 2
/-- EEXIST. -/
def EEXIST : Nat := 17
/-- EINVAL. -/
def EINVAL : Nat := 22
/-- EBADMSG. -/
def EBADMSG : Nat := 74
/-- ENOMEM. -/
def ENOMEM : Nat := 12

/-! ## Character classes (`ctype.h`, "C" locale) -/

/-- The `isspace` of the C locale: space, `\t`, `\n`, `\v`, `\f`, `\r`. -/
def isspace (c : Char) : Bool :=
  c.toNat == 32 || (9 ≤ c.toNat && c.toNat ≤ 13)

/-- The `isalpha` of the C locale: `a`-`z` and `A`-`Z`. -/
def isalpha (c : Char) : Bool :=
  (65 ≤ c.toNat && c.toNat ≤ 90) || (97 ≤ c.toNat && c.toNat ≤ 122)

/-- The `isdigit` of C: `0`-`9`. -/
def isdigit (c : Char) : Bool :=
  48 ≤ c.toNat && c.toNat ≤ 57

/-- The loop condition of the key scan: `isalpha(c) || isdigit(c)`. -/
def isalnum (c : Char) : Bool :=
  isalpha c || isdigit c

/-- The loop condition of the value scan: `!isspace(c)`. -/
def isgraphic (c : Char) : Bool :=
  !isspace c

/-! ## Line grammar -/

/-- `ini_cfg_parse_section_name` of the source: the cursor is the remaining
suffix of the buffer, every `while (*p && isspace(*p)) p++` is a `dropWhile`,
and the name is the `len` characters copied from `pszNameMarker`. -/
def ini_cfg_parse_section_name (pszBuffer : List Char) : Except Nat (List Char) :=
  -- skip leading whitespace
  match pszBuffer.dropWhile isspace with
  | [] => .error EBADMSG
  | c :: afterOpen =>
    -- check prefix
    if c ≠ '[' then .error EBADMSG
    else
      -- skip prefix, skip whitespace
      let pszNameMarker := afterOpen.dropWhile isspace
      if pszNameMarker = [] then .error EBADMSG
      else
        let len := (pszNameMarker.takeWhile isalpha).length
        let afterName := pszNameMarker.dropWhile isalpha
        -- skip whitespace
        match afterName.dropWhile isspace with
        | [] => .error EBADMSG
        | d :: afterClose =>
          -- check suffix
          if d ≠ ']' then .error EBADMSG
          else
            -- skip suffix, skip whitespace; expect end of line and a non-empty name
            if afterClose.dropWhile isspace ≠ [] ∨ len = 0 then .error EBADMSG
            else .ok (pszNameMarker.take len)

/-- `ini_cfg_parse_key_value` of the source. -/
def ini_cfg_parse_key_value (pszBuffer : List Char) :
    Except Nat (List Char × List Char) :=
  -- skip leading whitespace
  let pszKeyMarker := pszBuffer.dropWhile isspace
  if pszKeyMarker = [] then .error EBADMSG
  else
    let len_key := (pszKeyMarker.takeWhile isalnum).length
    let afterKey := pszKeyMarker.dropWhile isalnum
    -- skip whitespace
    match afterKey.dropWhile isspace with
    | [] => .error EBADMSG
    | c :: afterEq =>
      -- check operator
      if c ≠ '=' then .error EBADMSG
      else
        -- skip operator, skip whitespace
        let pszValueMarker := afterEq.dropWhile isspace
        if pszValueMarker = [] then .error EBADMSG
        else
          let len_value := (pszValueMarker.takeWhile isgraphic).length
          let afterValue := pszValueMarker.dropWhile isgraphic
          -- skip whitespace
          if afterValue.dropWhile isspace ≠ [] ∨ len_key = 0 ∨ len_value = 0 then
            .error EBADMSG
          else .ok (pszKeyMarker.take len_key, pszValueMarker.take len_value)

/-! ## Document model

`CONFIG_INI`, `SECTION_INI` and `KEYVALUE_INI` of the source, each chain of
`pNext` pointers read as the list of its cells. -/

/-- One `key=value` entry. -/
structure KEYVALUE_INI where
  pszKey : List Char
  pszValue : List Char
deriving DecidableEq, Repr

/-- One section: its name and its chain of entries. -/
structure SECTION_INI where
  pszName : List Char
  pKeyValue : List KEYVALUE_INI
deriving DecidableEq, Repr

/-- The document: the path it was read from and its chain of sections. -/
structure CONFIG_INI where
  pszPath : List Char
  pSection : List SECTION_INI
deriving DecidableEq, Repr

/-! ## Mutation API -/

/-- The tail walk shared by `ini_cfg_add_section` and `ini_cfg_add_key`:
`while (pCursor && pCursor->pNext != NULL) pCursor = pCursor->pNext;`, then the
new cell is stored in the head pointer when the chain is empty and in the
`pNext` of the last cell otherwise. -/
def link_at_tail {α : Type} : List α → α → List α
  | [], pNew => [pNew]
  | pCursor :: rest, pNew => pCursor :: link_at_tail rest pNew

/-- `ini_cfg_add_section`: error code, the document afterwards, and the pointer
stored in `*ppSection`, a section being addressed by its position in the
chain. -/
def ini_cfg_add_section (pConfig : CONFIG_INI) (pszName : List Char) :
    Nat × CONFIG_INI × Option Nat :=
  if pszName = [] then (EINVAL, pConfig, none)
  else
    (0,
     { pConfig with
       pSection := link_at_tail pConfig.pSection { pszName := pszName, pKeyValue := [] } },
     some pConfig.pSection.length)

/-- The scan of `ini_cfg_find_key`: it stops at the first cell whose key
compares equal. -/
def find_key_scan (pszKey : List Char) : List KEYVALUE_INI → Option KEYVALUE_INI
  | [] => none
  | pCursor :: rest =>
    if pCursor.pszKey = pszKey then some pCursor else find_key_scan pszKey rest

/-- `ini_cfg_find_key`: the entry found, `none` for a null result. -/
def ini_cfg_find_key (pSection : SECTION_INI) (pszKey : List Char) :
    Option KEYVALUE_INI :=
  if pszKey = [] then none else find_key_scan pszKey pSection.pKeyValue

/-- `ini_cfg_add_key`: error code and the section afterwards. -/
def ini_cfg_add_key (pSection : SECTION_INI) (pszKey pszValue : List Char) :
    Nat × SECTION_INI :=
  if pszKey = [] ∨ pszValue = [] then (EINVAL, pSection)
  else if (ini_cfg_find_key pSection pszKey).isSome then (EEXIST, pSection)
  else
    (0,
     { pSection with
       pKeyValue :=
         link_at_tail pSection.pKeyValue { pszKey := pszKey, pszValue := pszValue } })

/-- The scan of `ini_cfg_find_key` followed by `pCandidate->pszValue =
pszNewValue`: the new value is stored in the cell at which the scan stops, the
first one whose key compares equal. -/
def store_value_scan (pszKey pszNewValue : List Char) : List KEYVALUE_INI → List KEYVALUE_INI
  | [] => []
  | pCursor :: rest =>
    if pCursor.pszKey = pszKey then { pCursor with pszValue := pszNewValue } :: rest
    else pCursor :: store_value_scan pszKey pszNewValue rest

/-- `ini_cfg_set_value`: error code and the section afterwards. -/
def ini_cfg_set_value (pSection : SECTION_INI) (pszKey pszValue : List Char) :
    Nat × SECTION_INI :=
  if pszKey = [] ∨ pszValue = [] then (EINVAL, pSection)
  else if (ini_cfg_find_key pSection pszKey).isNone then (ENOENT, pSection)
  else
    (0, { pSection with
          pKeyValue := store_value_scan pszKey pszValue pSection.pKeyValue })

/-- First loop of `ini_cfg_find_sections`: the number of cells whose name
compares equal. -/
def count_sections (pszName : List Char) : List SECTION_INI → Nat
  | [] => 0
  | pCursor :: rest =>
    if pCursor.pszName = pszName then count_sections pszName rest + 1
    else count_sections pszName rest

/-- Second loop of `ini_cfg_find_sections`: the pointers stored in
`ppSections`, in the order they are stored; `addr` is the position of the
first cell of the chain still to be visited. -/
def collect_sections (pszName : List Char) : List SECTION_INI → Nat → List Nat
  | [], _ => []
  | pCursor :: rest, addr =>
    if pCursor.pszName = pszName then addr :: collect_sections pszName rest (addr + 1)
    else collect_sections pszName rest (addr + 1)

/-- `ini_cfg_find_sections`.  `ppSections0` and `dwNumSections0` are what the
caller's two output variables hold before the call; the result is the error
code and what the two variables hold after it.  `nSections` is a `uint32_t`.
With no match the source leaves through `cleanup` before either variable is
assigned. -/
def ini_cfg_find_sections (pConfig : CONFIG_INI) (pszName : List Char)
    (ppSections0 : Option (List Nat)) (dwNumSections0 : Nat) :
    Nat × Option (List Nat) × Nat :=
  if pszName = [] then (EINVAL, none, 0)
  else
    let nSections := count_sections pszName pConfig.pSection % 4294967296
    if nSections = 0 then (0, ppSections0, dwNumSections0)
    else (0, some (collect_sections pszName pConfig.pSection 0), nSections)

/-! ## The mutation API with an allocator that may fail

`alloc i` is the code the `i`-th allocation request of a call returns, 0 when
the request is served.  The source passes a non-zero code on through `error`,
where it releases what the call allocated so far. -/

/-- `ini_cfg_add_section` with its two requests: the cell (`ini_cfg_alloc`)
and the copy of the name (`ini_cfg_alloc_string`). -/
def ini_cfg_add_section_alloc (alloc : Nat → Nat) (pConfig : CONFIG_INI)
    (pszName : List Char) : Nat × CONFIG_INI × Option Nat :=
  if pszName = [] then (EINVAL, pConfig, none)
  else if alloc 0 ≠ 0 then (alloc 0, pConfig, none)
  else if alloc 1 ≠ 0 then (alloc 1, pConfig, none)
  else
    (0,
     { pConfig with
       pSection := link_at_tail pConfig.pSection { pszName := pszName, pKeyValue := [] } },
     some pConfig.pSection.length)

/-- `ini_cfg_add_key` with its three requests: the cell, the copy of the key
and the copy of the value. -/
def ini_cfg_add_key_alloc (alloc : Nat → Nat) (pSection : SECTION_INI)
    (pszKey pszValue : List Char) : Nat × SECTION_INI :=
  if pszKey = [] ∨ pszValue = [] then (EINVAL, pSection)
  else if (ini_cfg_find_key pSection pszKey).isSome then (EEXIST, pSection)
  else if alloc 0 ≠ 0 then (alloc 0, pSection)
  else if alloc 1 ≠ 0 then (alloc 1, pSection)
  else if alloc 2 ≠ 0 then (alloc 2, pSection)
  else
    (0,
     { pSection with
       pKeyValue :=
         link_at_tail pSection.pKeyValue { pszKey := pszKey, pszValue := pszValue } })

/-- `ini_cfg_set_value` with its one request, the copy of the new value, made
before the old value is released. -/
def ini_cfg_set_value_alloc (alloc : Nat → Nat) (pSection : SECTION_INI)
    (pszKey pszValue : List Char) : Nat × SECTION_INI :=
  if pszKey = [] ∨ pszValue = [] then (EINVAL, pSection)
  else if (ini_cfg_find_key pSection pszKey).isNone then (ENOENT, pSection)
  else if alloc 0 ≠ 0 then (alloc 0, pSection)
  else
    (0, { pSection with
          pKeyValue := store_value_scan pszKey pszValue pSection.pKeyValue })

/-! ## Deletion, on an explicit memory

The deletion loops assign `pNext` fields and release cells, so they are
modelled on a memory: a cell is addressed by its index, a pointer is
`Option Nat` (`none` is `NULL`), and a released cell is flagged. -/

/-- A `SECTION_INI` cell in memory. -/
structure SECTION_CELL where
  pszName : List Char
  pKeyValue : List KEYVALUE_INI
  pNext : Option Nat
  released : Bool
deriving DecidableEq, Repr

/-- A `CONFIG_INI` in memory: its head pointer and the section cells. -/
structure CONFIG_MEM where
  pSection : Option Nat
  cells : List SECTION_CELL
deriving DecidableEq, Repr

/-- The pointer to a chain laid out from address `addr` on: `NULL` for the
empty chain. -/
def chain_head {α : Type} : List α → Nat → Option Nat
  | [], _ => none
  | _ :: _, addr => some addr

/-- The cells of a chain of sections laid out from address `addr` on, each
linked to the next address and the last one to `NULL`. -/
def section_cells : List SECTION_INI → Nat → List SECTION_CELL
  | [], _ => []
  | s :: rest, addr =>
    { pszName := s.pszName, pKeyValue := s.pKeyValue, pNext := chain_head rest (addr + 1),
      released := false } :: section_cells rest (addr + 1)

/-- The memory that holds a document's chain of sections. -/
def config_mem (sections : List SECTION_INI) : CONFIG_MEM :=
  { pSection := chain_head sections 0, cells := section_cells sections 0 }

/-- Following `pNext` from `p` for at most `fuel` cells: the sections met, or
`none` when the walk reads a released cell, an address outside the memory, or
does not end within `fuel` cells. -/
def walk_sections (cells : List SECTION_CELL) : Nat → Option Nat → Option (List SECTION_INI)
  | _, none => some []
  | 0, some _ => none
  | fuel + 1, some p =>
    match cells[p]? with
    | none => none
    | some cell =>
      if cell.released then none
      else
        match walk_sections cells fuel cell.pNext with
        | none => none
        | some rest => some ({ pszName := cell.pszName, pKeyValue := cell.pKeyValue } :: rest)

/-- The chain of sections a document in memory holds, when every cell reached
from the head pointer is live. -/
def sections_of_mem (m : CONFIG_MEM) : Option (List SECTION_INI) :=
  walk_sections m.cells m.cells.length m.pSection

/-- `pCandidate->pNext = NULL; ini_cfg_free_section(pCandidate);`. -/
def release_section (cells : List SECTION_CELL) (p : Nat) : List SECTION_CELL :=
  cells.modify (fun cell => { cell with pNext := none, released := true }) p

/-- The `while (pCursor)` loop of `ini_cfg_delete_sections`; `fuel` bounds the
number of iterations. -/
def delete_sections_loop (pszName : List Char) : Nat → CONFIG_MEM → Option Nat → CONFIG_MEM
  | 0, m, _ => m
  | _ + 1, m, none => m
  | fuel + 1, m, some pCursor =>
    match m.cells[pCursor]? with
    | none => m
    | some cell =>
      let isCandidate : Bool := cell.pszName = pszName
      -- if (pCursor == pConfig->pSection) pConfig->pSection = pCursor->pNext;
      let m1 : CONFIG_MEM :=
        if isCandidate ∧ m.pSection = some pCursor then { m with pSection := cell.pNext } else m
      -- pCursor = pCursor->pNext;
      let pNextCursor := cell.pNext
      let m2 : CONFIG_MEM :=
        if isCandidate then { m1 with cells := release_section m1.cells pCursor } else m1
      delete_sections_loop pszName fuel m2 pNextCursor

/-- `ini_cfg_delete_sections`: error code and the memory afterwards. -/
def ini_cfg_delete_sections (pConfig : CONFIG_MEM) (pszName : List Char) :
    Nat × CONFIG_MEM :=
  if pszName = [] then (EINVAL, pConfig)
  else (0, delete_sections_loop pszName pConfig.cells.length pConfig pConfig.pSection)

/-- A `KEYVALUE_INI` cell in memory. -/
structure KEYVALUE_CELL where
  pszKey : List Char
  pszValue : List Char
  pNext : Option Nat
  released : Bool
deriving DecidableEq, Repr

/-- A `SECTION_INI` in memory: its name, the head pointer of its entries and
the entry cells. -/
structure SECTION_MEM where
  pszName : List Char
  pKeyValue : Option Nat
  cells : List KEYVALUE_CELL
deriving DecidableEq, Repr

/-- The cells of a chain of entries laid out from address `addr` on, each
linked to the next address and the last one to `NULL`. -/
def keyvalue_cells : List KEYVALUE_INI → Nat → List KEYVALUE_CELL
  | [], _ => []
  | kv :: rest, addr =>
    { pszKey := kv.pszKey, pszValue := kv.pszValue, pNext := chain_head rest (addr + 1),
      released := false } :: keyvalue_cells rest (addr + 1)

/-- The memory that holds a section. -/
def section_mem (s : SECTION_INI) : SECTION_MEM :=
  { pszName := s.pszName,
    pKeyValue := chain_head s.pKeyValue 0,
    cells := keyvalue_cells s.pKeyValue 0 }

/-- Following `pNext` from `p` for at most `fuel` cells: the entries met, or
`none` when the walk reads a released cell, an address outside the memory, or
does not end within `fuel` cells. -/
def walk_keyvalues (cells : List KEYVALUE_CELL) : Nat → Option Nat → Option (List KEYVALUE_INI)
  | _, none => some []
  | 0, some _ => none
  | fuel + 1, some p =>
    match cells[p]? with
    | none => none
    | some cell =>
      if cell.released then none
      else
        match walk_keyvalues cells fuel cell.pNext with
        | none => none
        | some rest => some ({ pszKey := cell.pszKey, pszValue := cell.pszValue } :: rest)

/-- The chain of entries a section in memory holds, when every cell reached
from the head pointer is live. -/
def keyvalues_of_mem (m : SECTION_MEM) : Option (List KEYVALUE_INI) :=
  walk_keyvalues m.cells m.cells.length m.pKeyValue

/-- `pCandidate->pNext = NULL; ini_cfg_free_keyvalue(pCandidate);`. -/
def release_keyvalue (cells : List KEYVALUE_CELL) (p : Nat) : List KEYVALUE_CELL :=
  cells.modify (fun cell => { cell with pNext := none, released := true }) p

/-- The `while (pCursor)` loop of `ini_cfg_delete_key`; `fuel` bounds the
number of iterations. -/
def delete_key_loop (pszKey : List Char) : Nat → SECTION_MEM → Option Nat → SECTION_MEM
  | 0, m, _ => m
  | _ + 1, m, none => m
  | fuel + 1, m, some pCursor =>
    match m.cells[pCursor]? with
    | none => m
    | some cell =>
      let isCandidate : Bool := cell.pszKey = pszKey
      -- if (pCursor == pSection->pKeyValue) pSection->pKeyValue = pCursor->pNext;
      let m1 : SECTION_MEM :=
        if isCandidate ∧ m.pKeyValue = some pCursor then { m with pKeyValue := cell.pNext } else m
      -- pCursor = pCursor->pNext;
      let pNextCursor := cell.pNext
      let m2 : SECTION_MEM :=
        if isCandidate then { m1 with cells := release_keyvalue m1.cells pCursor } else m1
      delete_key_loop pszKey fuel m2 pNextCursor

/-- `ini_cfg_delete_key`: error code and the memory afterwards. -/
def ini_cfg_delete_key (pSection : SECTION_MEM) (pszKey : List Char) :
    Nat × SECTION_MEM :=
  if pszKey = [] then (EINVAL, pSection)
  else (0, delete_key_loop pszKey pSection.cells.length pSection pSection.pKeyValue)

/-! ## File driver -/

/-- The inner loop of `ini_cfg_save`: one `fprintf(fp, "%s=%s\n", ...)` for
each entry. -/
def save_keyvalues : List KEYVALUE_INI → List Char
  | [] => []
  | pKeyValue :: rest =>
    pKeyValue.pszKey ++ '=' :: pKeyValue.pszValue ++ '\n' :: save_keyvalues rest

/-- The outer loop of `ini_cfg_save`: `fprintf(fp, "\n[%s]\n", ...)` and then
the entries, for each section. -/
def save_sections : List SECTION_INI → List Char
  | [] => []
  | pSection :: rest =>
    '\n' :: '[' :: pSection.pszName ++ ']' :: '\n' ::
      (save_keyvalues pSection.pKeyValue ++ save_sections rest)

/-- `ini_cfg_save`, the temporary file being opened, written, closed and
renamed without an I/O error: the error code and the content `pszPath` has
afterwards (`none`: the file is not touched). -/
def ini_cfg_save (pszPath : List Char) (pConfig : CONFIG_INI) :
    Nat × Option (List Char) :=
  if pszPath = [] then (EINVAL, none)
  else (0, some (save_sections pConfig.pSection))

/-- What `fgets` does with room for `room` more characters on the unread part
of the stream: the characters stored, the part left unread, and whether the
end of the file was met.  It stops after a newline, or when the room is used
up; it meets the end of the file only when it needs a character and none is
left. -/
def fgets_scan : Nat → List Char → List Char × List Char × Bool
  | 0, unread => ([], unread, false)
  | _ + 1, [] => ([], [], true)
  | room + 1, c :: unread =>
    if c = '\n' then ([c], unread, false)
    else
      let r := fgets_scan room unread
      (c :: r.1, r.2.1, r.2.2)

/-- `fgets(buffer, size, fp)` on a stream without read errors: the buffer
(`none` for a null result, given when the end of the file is met before any
character is stored), the part of the stream left unread, and the stream's
end-of-file indicator. -/
def fgets (size : Nat) (unread : List Char) : Option (List Char) × List Char × Bool :=
  let r := fgets_scan (size - 1) unread
  if r.1 = [] then (none, r.2.1, r.2.2) else (some r.1, r.2.1, r.2.2)

/-- The C string a buffer holds: its characters up to the first NUL. -/
def c_string (buffer : List Char) : List Char :=
  buffer.takeWhile (fun c => c.toNat ≠ 0)

/-- The `while (!feof(fp))` loop of `ini_cfg_read` and what follows it.
`errno` is the value `errno` holds when `fgets` gives a null result (`fgets`
does not assign it at the end of the file); `unread` and `eof` are the stream;
`pSection` addresses the section added last.  The result is the error code and
`*ppConfig`; the outer `none` stands for a run the model does not cover (`fuel`
used up, or `pSection` outside the chain). -/
def read_lines (errno : Nat) :
    Nat → List Char → Bool → CONFIG_INI → Option Nat → Option (Nat × Option CONFIG_INI)
  | 0, _, _, _, _ => none
  | fuel + 1, unread, eof, pConfig, pSection =>
    if eof then some (0, some pConfig)
    else
      match fgets 1024 unread with
      | (none, _, _) => some (errno, none)
      | (some buffer, unread1, eof1) =>
        -- skip leading whitespace
        match (c_string buffer).dropWhile isspace with
        | [] => read_lines errno fuel unread1 eof1 pConfig pSection
        | c :: rest =>
          -- skip empty lines and comments
          if c = '#' then read_lines errno fuel unread1 eof1 pConfig pSection
          else if c = '[' then
            match ini_cfg_parse_section_name (c :: rest) with
            | .error err => some (err, none)
            | .ok pszName =>
              match ini_cfg_add_section pConfig pszName with
              | (err, pConfig1, pSection1) =>
                if err ≠ 0 then some (err, none)
                else read_lines errno fuel unread1 eof1 pConfig1 pSection1
          else
            match pSection with
            | none => some (EBADMSG, none)
            | some p =>
              match ini_cfg_parse_key_value (c :: rest) with
              | .error err => some (err, none)
              | .ok (pszKey, pszValue) =>
                match pConfig.pSection[p]? with
                | none => none
                | some section1 =>
                  match ini_cfg_add_key section1 pszKey pszValue with
                  | (err, section2) =>
                    if err ≠ 0 then some (err, none)
                    else
                      read_lines errno fuel unread1 eof1
                        { pConfig with pSection := pConfig.pSection.set p section2 } pSection

/-- `ini_cfg_read`.  `file` is the content of the file at `pszPath`, `none`
when `fopen` fails; `errno` is the value `errno` holds when the source reads
it.  Every iteration of the loop takes at least one character off the stream,
so the fuel given is never used up (`ini_cfg_read_returns`). -/
def ini_cfg_read (errno : Nat) (pszPath : List Char) (file : Option (List Char)) :
    Option (Nat × Option CONFIG_INI) :=
  if pszPath = [] then some (EINVAL, none)
  else
    match file with
    | none => some (errno, none)
    | some content =>
      read_lines errno (content.length + 1) content false
        { pszPath := pszPath, pSection := [] } none

/-! ## The file driver with an allocator that may fail -/

/-- The loop of `ini_cfg_read` with an allocator that may fail.  `n` counts
the allocation requests made since the call began; a header costs the copy of
the name the recognizer makes and the two requests of `ini_cfg_add_section`, a
key-value line the two copies the recognizer makes and the three requests of
`ini_cfg_add_key`.  The rest is `read_lines`. -/
def read_lines_alloc (errno : Nat) (alloc : Nat → Nat) :
    Nat → Nat → List Char → Bool → CONFIG_INI → Option Nat →
      Option (Nat × Option CONFIG_INI)
  | 0, _, _, _, _, _ => none
  | fuel + 1, n, unread, eof, pConfig, pSection =>
    if eof then some (0, some pConfig)
    else
      match fgets 1024 unread with
      | (none, _, _) => some (errno, none)
      | (some buffer, unread1, eof1) =>
        match (c_string buffer).dropWhile isspace with
        | [] => read_lines_alloc errno alloc fuel n unread1 eof1 pConfig pSection
        | c :: rest =>
          if c = '#' then read_lines_alloc errno alloc fuel n unread1 eof1 pConfig pSection
          else if c = '[' then
            match ini_cfg_parse_section_name (c :: rest) with
            | .error err => some (err, none)
            | .ok pszName =>
              if alloc n ≠ 0 then some (alloc n, none)
              else
                match ini_cfg_add_section_alloc (fun i => alloc (n + 1 + i)) pConfig pszName with
                | (err, pConfig1, pSection1) =>
                  if err ≠ 0 then some (err, none)
                  else read_lines_alloc errno alloc fuel (n + 3) unread1 eof1 pConfig1 pSection1
          else
            match pSection with
            | none => some (EBADMSG, none)
            | some p =>
              match ini_cfg_parse_key_value (c :: rest) with
              | .error err => some (err, none)
              | .ok (pszKey, pszValue) =>
                if alloc n ≠ 0 then some (alloc n, none)
                else if alloc (n + 1) ≠ 0 then some (alloc (n + 1), none)
                else
                  match pConfig.pSection[p]? with
                  | none => none
                  | some section1 =>
                    match ini_cfg_add_key_alloc (fun i => alloc (n + 2 + i)) section1
                        pszKey pszValue with
                    | (err, section2) =>
                      if err ≠ 0 then some (err, none)
                      else
                        read_lines_alloc errno alloc fuel (n + 5) unread1 eof1
                          { pConfig with pSection := pConfig.pSection.set p section2 }
                          pSection

/-- `ini_cfg_read` with an allocator that may fail: after `fopen` the document
(`ini_cfg_alloc`) and the copy of the path (`ini_cfg_alloc_string`) are
requested, then the loop runs. -/
def ini_cfg_read_alloc (errno : Nat) (alloc : Nat → Nat) (pszPath : List Char)
    (file : Option (List Char)) : Option (Nat × Option CONFIG_INI) :=
  if pszPath = [] then some (EINVAL, none)
  else
    match file with
    | none => some (errno, none)
    | some content =>
      if alloc 0 ≠ 0 then some (alloc 0, none)
      else if alloc 1 ≠ 0 then some (alloc 1, none)
      else
        read_lines_alloc errno alloc (content.length + 1) 2 content false
          { pszPath := pszPath, pSection := [] } none

/-! ## The memory after a deletion -/

/-- The cells `section_cells` lays out, once the deletion loop has passed over
them: a section named `name` is released with a null `pNext`, the others are as
laid out. -/
def swept_section_cells (name : List Char) : List SECTION_INI → Nat → List SECTION_CELL
  | [], _ => []
  | s :: rest, addr =>
    { pszName := s.pszName, pKeyValue := s.pKeyValue,
      pNext := if s.pszName = name then none else chain_head rest (addr + 1),
      released := decide (s.pszName = name) } :: swept_section_cells name rest (addr + 1)

/-- The cells `keyvalue_cells` lays out, once the deletion loop has passed over
them: an entry whose key is `name` is released with a null `pNext`, the others
are as laid out. -/
def swept_keyvalue_cells (name : List Char) : List KEYVALUE_INI → Nat → List KEYVALUE_CELL
  | [], _ => []
  | s :: rest, addr =>
    { pszKey := s.pszKey, pszValue := s.pszValue,
      pNext := if s.pszKey = name then none else chain_head rest (addr + 1),
      released := decide (s.pszKey = name) } :: swept_keyvalue_cells name rest (addr + 1)

/-! ## The line grammar as the specification words it -/

/-- The header grammar `WS* '[' WS* NAME WS* ']' WS* END`, `NAME` being one or
more alphabetic characters: `line` has that form with `NAME = name`. -/
def IsSectionHeader (line name : List Char) : Prop :=
  ∃ w1 w2 w3 w4 : List Char,
    (∀ c ∈ w1, isspace c = true) ∧ (∀ c ∈ w2, isspace c = true) ∧
    (∀ c ∈ w3, isspace c = true) ∧ (∀ c ∈ w4, isspace c = true) ∧
    name ≠ [] ∧ (∀ c ∈ name, isalpha c = true) ∧
    line = w1 ++ ['['] ++ w2 ++ name ++ w3 ++ [']'] ++ w4

/-- The key-value grammar `WS* KEY WS* '=' WS* VALUE WS* END`, `KEY` being one
or more alphanumeric characters and `VALUE` one or more non-whitespace
characters: `line` has that form with `KEY = key` and `VALUE = value`. -/
def IsKeyValueLine (line key value : List Char) : Prop :=
  ∃ w1 w2 w3 w4 : List Char,
    (∀ c ∈ w1, isspace c = true) ∧ (∀ c ∈ w2, isspace c = true) ∧
    (∀ c ∈ w3, isspace c = true) ∧ (∀ c ∈ w4, isspace c = true) ∧
    key ≠ [] ∧ (∀ c ∈ key, isalnum c = true) ∧
    value ≠ [] ∧ (∀ c ∈ value, isspace c = false) ∧
    line = w1 ++ key ++ w2 ++ ['='] ++ w3 ++ value ++ w4

/-- The bytes the specification gives for a saved document: for each section
in order `\n[name]\n`, then `key=value\n` for each of its entries in order. -/
def saved_bytes (sections : List SECTION_INI) : List Char :=
  (sections.map (fun s =>
    "\n[".toList ++ s.pszName ++ "]\n".toList ++
      (s.pKeyValue.map (fun kv =>
        kv.pszKey ++ "=".toList ++ kv.pszValue ++ "\n".toList)).flatten)).flatten

/-- The content is empty or its last character is a newline. -/
def EndsWithNewline (s : List Char) : Prop :=
  s = [] ∨ ∃ t, s = t ++ ['\n']

/-! ## The data model's invariant -/

/-- An entry as the data model wants it: a non-empty alphanumeric key and a
non-empty value without whitespace. -/
def ValidEntry (kv : KEYVALUE_INI) : Prop :=
  kv.pszKey ≠ [] ∧ (∀ c ∈ kv.pszKey, isalnum c = true) ∧
  kv.pszValue ≠ [] ∧ (∀ c ∈ kv.pszValue, isspace c = false)

/-- A section as the data model wants it: a non-empty alphabetic name, valid
entries, and no key twice. -/
def ValidSection (s : SECTION_INI) : Prop :=
  s.pszName ≠ [] ∧ (∀ c ∈ s.pszName, isalpha c = true) ∧
  (∀ kv ∈ s.pKeyValue, ValidEntry kv) ∧
  (s.pKeyValue.map KEYVALUE_INI.pszKey).Nodup

/-! ## A file as the specification reads it, line by line -/

/-- A line the loop skips: only whitespace, or `#` as its first character that
is not whitespace. -/
def IsBlankOrComment (line : List Char) : Prop :=
  (∀ c ∈ line, isspace c = true) ∨
  ∃ w rest, (∀ c ∈ w, isspace c = true) ∧ line = w ++ '#' :: rest

/-- The content of the file whose lines are `lines`, each ended by a newline,
followed by a last line `last` without one. -/
def file_of_lines : List (List Char) → List Char → List Char
  | [], last => last
  | line :: rest, last => line ++ '\n' :: file_of_lines rest last

/-- One line of a file as the specification reads it: a blank line or a
comment leaves the sections loaded so far as they are, a header appends a
section without entries, and a key-value line appends its pair to the section
loaded last, which must not hold the key yet. -/
inductive LoadsLine : List SECTION_INI → List Char → List SECTION_INI → Prop
  | blank (secs : List SECTION_INI) (line : List Char) :
      (∀ c ∈ line, isspace c = true) → LoadsLine secs line secs
  | comment (secs : List SECTION_INI) (w rest : List Char) :
      (∀ c ∈ w, isspace c = true) → LoadsLine secs (w ++ '#' :: rest) secs
  | header (secs : List SECTION_INI) (line name : List Char) :
      IsSectionHeader line name →
      LoadsLine secs line (secs ++ [{ pszName := name, pKeyValue := [] }])
  | entry (init : List SECTION_INI) (S : SECTION_INI) (line key value : List Char) :
      IsKeyValueLine line key value → (∀ kv ∈ S.pKeyValue, kv.pszKey ≠ key) →
      LoadsLine (init ++ [S]) line
        (init ++ [{ pszName := S.pszName,
                    pKeyValue := S.pKeyValue ++ [{ pszKey := key, pszValue := value }] }])

/-- The lines of a file read in order, from the sections loaded so far to the
sections loaded at the end. -/
inductive LoadsLines : List SECTION_INI → List (List Char) → List SECTION_INI → Prop
  | done (secs : List SECTION_INI) : LoadsLines secs [] secs
  | step (secs secs1 secs2 : List SECTION_INI) (line : List Char) (rest : List (List Char)) :
      LoadsLine secs line secs1 → LoadsLines secs1 rest secs2 →
      LoadsLines secs (line :: rest) secs2

/-- The pointer `ini_cfg_read` keeps in `pSection`: null before the first
header, the section added last afterwards. -/
def last_section : List SECTION_INI → Option Nat
  | [] => none
  | _ :: rest => some rest.length

/-- A line that fits the line buffer with its newline and holds neither a
newline nor a NUL. -/
def FitsBuffer (line : List Char) : Prop :=
  line.length ≤ 1022 ∧ (∀ c ∈ line, c ≠ '\n') ∧ (∀ c ∈ line, c.toNat ≠ 0)

/-! ## Scanning lemmas -/

theorem takeWhile_append_stop {p : Char → Bool} {l r : List Char}
    (hl : ∀ c ∈ l, p c = true) (hr : ∀ c ∈ r.head?, p c = false) :
    (l ++ r).takeWhile p = l := by
  rw [List.takeWhile_append_of_pos hl]
  cases r with
  | nil => simp
  | cons a t =>
    have : p a = false := hr a (by simp)
    simp [List.takeWhile_cons, this]

theorem dropWhile_append_stop {p : Char → Bool} {l r : List Char}
    (hl : ∀ c ∈ l, p c = true) (hr : ∀ c ∈ r.head?, p c = false) :
    (l ++ r).dropWhile p = r := by
  rw [List.dropWhile_append_of_pos hl]
  cases r with
  | nil => simp
  | cons a t =>
    have : p a = false := hr a (by simp)
    simp [List.dropWhile_cons, this]

theorem take_length_takeWhile (p : Char → Bool) (l : List Char) :
    l.take (l.takeWhile p).length = l.takeWhile p := by
  induction l with
  | nil => simp
  | cons a t ih =>
    by_cases h : p a = true
    · simp [List.takeWhile_cons, h, ih]
    · simp [List.takeWhile_cons, h]

theorem dropWhile_eq_nil_all {p : Char → Bool} {l : List Char}
    (h : l.dropWhile p = []) : ∀ c ∈ l, p c = true := by
  simpa [List.dropWhile_eq_nil_iff] using h

theorem isalpha_not_isspace {c : Char} (h : isalpha c = true) : isspace c = false := by
  unfold isalpha at h
  unfold isspace
  generalize c.toNat = n at *
  simp only [Bool.or_eq_true, Bool.and_eq_true, decide_eq_true_eq, beq_eq_false_iff_ne, ne_eq,
    Bool.or_eq_false_iff, Bool.and_eq_false_iff, decide_eq_false_iff_not] at *
  omega

theorem isalnum_not_isspace {c : Char} (h : isalnum c = true) : isspace c = false := by
  unfold isalnum isalpha isdigit at h
  unfold isspace
  generalize c.toNat = n at *
  simp only [Bool.or_eq_true, Bool.and_eq_true, decide_eq_true_eq, beq_eq_false_iff_ne, ne_eq,
    Bool.or_eq_false_iff, Bool.and_eq_false_iff, decide_eq_false_iff_not] at *
  omega

theorem isspace_not_isalnum {c : Char} (h : isspace c = true) : isalnum c = false := by
  by_contra hcon
  have := isalnum_not_isspace (Bool.eq_true_of_not_eq_false hcon)
  rw [h] at this
  cases this

theorem head_stop_of_all {p : Char → Bool} {l : List Char}
    (h : ∀ c ∈ l, p c = false) : ∀ c ∈ l.head?, p c = false := by
  intro c hc
  cases l with
  | nil => simp at hc
  | cons a t => simp at hc; subst hc; exact h _ (by simp)

theorem head_stop_append {p : Char → Bool} {w r : List Char}
    (hw : ∀ c ∈ w, p c = false) (hr : ∀ c ∈ r.head?, p c = false) :
    ∀ c ∈ (w ++ r).head?, p c = false := by
  intro c hc
  cases w with
  | nil => exact hr c (by simpa using hc)
  | cons a t => simp at hc; subst hc; exact hw _ (by simp)

theorem head_ws_or_char_not {p : Char → Bool} {w r : List Char} {d : Char}
    (hw : ∀ c ∈ w, p c = false) (hd : p d = false) :
    ∀ c ∈ (w ++ d :: r).head?, p c = false := by
  intro c hc
  cases w with
  | nil => simp at hc; subst hc; exact hd
  | cons a t => simp at hc; subst hc; exact hw _ (by simp)

/-! ## The section-header recognizer -/

theorem section_name_sound {line name : List Char}
    (h : ini_cfg_parse_section_name line = .ok name) : IsSectionHeader line name := by
  unfold ini_cfg_parse_section_name at h
  split at h
  · cases h
  · rename_i c afterOpen h1
    split at h
    · cases h
    · rename_i hc
      simp only [ne_eq, Decidable.not_not] at hc
      subst hc
      simp only at h
      split at h
      · cases h
      · rename_i hmarker
        split at h
        · cases h
        · rename_i d afterClose h2
          split at h
          · cases h
          · rename_i hd
            simp only [ne_eq, Decidable.not_not] at hd
            subst hd
            split at h
            · cases h
            · rename_i hend
              simp only [not_or, ne_eq, Decidable.not_not] at hend
              obtain ⟨hw4, hlen⟩ := hend
              simp only [Except.ok.injEq] at h
              rw [take_length_takeWhile] at h
              subst h
              refine ⟨line.takeWhile isspace, afterOpen.takeWhile isspace,
                ((afterOpen.dropWhile isspace).dropWhile isalpha).takeWhile isspace, afterClose,
                fun c hc => List.mem_takeWhile_imp hc, fun c hc => List.mem_takeWhile_imp hc,
                fun c hc => List.mem_takeWhile_imp hc, dropWhile_eq_nil_all hw4, ?_,
                fun c hc => List.mem_takeWhile_imp hc, ?_⟩
              · intro hnil
                exact hlen (by simp [hnil])
              · have e1 := List.takeWhile_append_dropWhile isspace line
                have e2 := List.takeWhile_append_dropWhile isspace afterOpen
                have e3 := List.takeWhile_append_dropWhile isalpha (afterOpen.dropWhile isspace)
                have e4 := List.takeWhile_append_dropWhile isspace
                  ((afterOpen.dropWhile isspace).dropWhile isalpha)
                rw [h2] at e4
                rw [h1] at e1
                calc line = line.takeWhile isspace ++ '[' :: afterOpen := e1.symm
                  _ = _ := by
                    conv_lhs => rw [← e2, ← e3, ← e4]
                    simp [List.append_assoc]

theorem section_name_complete {line name : List Char}
    (h : IsSectionHeader line name) : ini_cfg_parse_section_name line = .ok name := by
  obtain ⟨w1, w2, w3, w4, h1, h2, h3, h4, hne, halpha, rfl⟩ := h
  have hopen : isspace '[' = false := by decide
  have hclose : isspace ']' = false := by decide
  have hclose2 : isalpha ']' = false := by decide
  have s1 : (w1 ++ ['['] ++ w2 ++ name ++ w3 ++ [']'] ++ w4).dropWhile isspace
      = '[' :: (w2 ++ (name ++ (w3 ++ ']' :: w4))) := by
    have : w1 ++ ['['] ++ w2 ++ name ++ w3 ++ [']'] ++ w4
        = w1 ++ ('[' :: (w2 ++ (name ++ (w3 ++ ']' :: w4)))) := by simp
    rw [this]
    exact dropWhile_append_stop h1 (by simp [hopen])
  have s2 : (w2 ++ (name ++ (w3 ++ ']' :: w4))).dropWhile isspace
      = name ++ (w3 ++ ']' :: w4) := by
    apply dropWhile_append_stop h2
    intro c hc
    cases name with
    | nil => exact absurd rfl hne
    | cons a t =>
      simp at hc; subst hc
      exact isalpha_not_isspace (halpha _ (by simp))
  have hstop : ∀ c ∈ (w3 ++ ']' :: w4).head?, isalpha c = false := by
    apply head_ws_or_char_not _ hclose2
    intro c hc
    by_contra hcon
    have := isalpha_not_isspace (Bool.eq_true_of_not_eq_false hcon)
    rw [h3 c hc] at this
    cases this
  have s3 : (name ++ (w3 ++ ']' :: w4)).takeWhile isalpha = name :=
    takeWhile_append_stop halpha hstop
  have s4 : (name ++ (w3 ++ ']' :: w4)).dropWhile isalpha = w3 ++ ']' :: w4 :=
    dropWhile_append_stop halpha hstop
  have s5 : (w3 ++ ']' :: w4).dropWhile isspace = ']' :: w4 :=
    dropWhile_append_stop h3 (by simp [hclose])
  have s6 : w4.dropWhile isspace = [] := by
    simpa [List.dropWhile_eq_nil_iff] using h4
  have hlen : name.length ≠ 0 := by
    intro h0; exact hne (List.length_eq_zero.mp h0)
  unfold ini_cfg_parse_section_name
  rw [s1]
  simp only [ne_eq, not_true_eq_false, if_false, s2, s3, s4, s5, s6]
  have hne2 : name ++ (w3 ++ ']' :: w4) ≠ [] := by simp [hne]
  simp [hne2, hlen]

theorem section_name_error_code {line : List Char} {err : Nat}
    (h : ini_cfg_parse_section_name line = .error err) : err = EBADMSG := by
  have inj : ∀ {e : Nat}, (Except.error EBADMSG : Except Nat (List Char)) = .error e →
      e = EBADMSG := by
    intro e he; cases he; rfl
  unfold ini_cfg_parse_section_name at h
  split at h
  · exact inj h
  · split at h
    · exact inj h
    · simp only at h
      split at h
      · exact inj h
      · split at h
        · exact inj h
        · split at h
          · exact inj h
          · split at h
            · exact inj h
            · cases h

/-! ## The key-value recognizer -/

theorem key_value_sound {line key value : List Char}
    (h : ini_cfg_parse_key_value line = .ok (key, value)) : IsKeyValueLine line key value := by
  unfold ini_cfg_parse_key_value at h
  simp only at h
  split at h
  · cases h
  · rename_i hmarker
    split at h
    · cases h
    · rename_i c afterEq h1
      split at h
      · cases h
      · rename_i hc
        simp only [ne_eq, Decidable.not_not] at hc
        subst hc
        split at h
        · cases h
        · rename_i hvmarker
          split at h
          · cases h
          · rename_i hend
            simp only [not_or, ne_eq, Decidable.not_not] at hend
            obtain ⟨hw4, hlk, hlv⟩ := hend
            simp only [Except.ok.injEq, Prod.mk.injEq] at h
            rw [take_length_takeWhile, take_length_takeWhile] at h
            obtain ⟨hk, hv⟩ := h
            subst hk hv
            refine ⟨line.takeWhile isspace,
              ((line.dropWhile isspace).dropWhile isalnum).takeWhile isspace,
              afterEq.takeWhile isspace,
              (afterEq.dropWhile isspace).dropWhile isgraphic,
              fun c hc => List.mem_takeWhile_imp hc, fun c hc => List.mem_takeWhile_imp hc,
              fun c hc => List.mem_takeWhile_imp hc, dropWhile_eq_nil_all hw4, ?_,
              fun c hc => List.mem_takeWhile_imp hc, ?_, ?_, ?_⟩
            · intro hnil
              exact hlk (by simp [hnil])
            · intro hnil
              exact hlv (by simp [hnil])
            · intro c hc
              have := List.mem_takeWhile_imp hc
              simpa [isgraphic] using this
            · have e1 := List.takeWhile_append_dropWhile isspace line
              have e2 := List.takeWhile_append_dropWhile isalnum (line.dropWhile isspace)
              have e3 := List.takeWhile_append_dropWhile isspace
                ((line.dropWhile isspace).dropWhile isalnum)
              have e4 := List.takeWhile_append_dropWhile isspace afterEq
              have e5 := List.takeWhile_append_dropWhile isgraphic (afterEq.dropWhile isspace)
              rw [h1] at e3
              conv_lhs => rw [← e1, ← e2, ← e3, ← e4, ← e5]
              simp [List.append_assoc]

theorem key_value_complete {line key value : List Char}
    (h : IsKeyValueLine line key value) : ini_cfg_parse_key_value line = .ok (key, value) := by
  obtain ⟨w1, w2, w3, w4, h1, h2, h3, h4, hk, hkey, hv, hvalue, rfl⟩ := h
  have heq1 : isspace '=' = false := by decide
  have heq2 : isalnum '=' = false := by decide
  have hgraph : ∀ c ∈ value, isgraphic c = true := by
    intro c hc; simp [isgraphic, hvalue c hc]
  have hw4 : ∀ c ∈ w4, isgraphic c = false := by
    intro c hc; simp [isgraphic, h4 c hc]
  have hw2 : ∀ c ∈ w2, isalnum c = false := fun c hc => isspace_not_isalnum (h2 c hc)
  have hkey2 : ∀ c ∈ key, isspace c = false := fun c hc => isalnum_not_isspace (hkey c hc)
  have hkeyhd : ∀ (r : List Char), ∀ c ∈ (key ++ r).head?, isspace c = false := by
    intro r c hc
    cases key with
    | nil => exact absurd rfl hk
    | cons a t => simp at hc; subst hc; exact hkey2 _ (by simp)
  have hvalhd : ∀ (r : List Char), ∀ c ∈ (value ++ r).head?, isspace c = false := by
    intro r c hc
    cases value with
    | nil => exact absurd rfl hv
    | cons a t => simp at hc; subst hc; exact hvalue _ (by simp)
  have shape : w1 ++ key ++ w2 ++ ['='] ++ w3 ++ value ++ w4
      = w1 ++ (key ++ (w2 ++ '=' :: (w3 ++ (value ++ w4)))) := by simp
  have s1 : (w1 ++ (key ++ (w2 ++ '=' :: (w3 ++ (value ++ w4))))).dropWhile isspace
      = key ++ (w2 ++ '=' :: (w3 ++ (value ++ w4))) :=
    dropWhile_append_stop h1 (hkeyhd _)
  have hstop2 : ∀ c ∈ (w2 ++ '=' :: (w3 ++ (value ++ w4))).head?, isalnum c = false :=
    head_stop_append hw2 (by simp [heq2])
  have s2 : (key ++ (w2 ++ '=' :: (w3 ++ (value ++ w4)))).takeWhile isalnum = key :=
    takeWhile_append_stop hkey hstop2
  have s3 : (key ++ (w2 ++ '=' :: (w3 ++ (value ++ w4)))).dropWhile isalnum
      = w2 ++ '=' :: (w3 ++ (value ++ w4)) :=
    dropWhile_append_stop hkey hstop2
  have s4 : (w2 ++ '=' :: (w3 ++ (value ++ w4))).dropWhile isspace
      = '=' :: (w3 ++ (value ++ w4)) :=
    dropWhile_append_stop h2 (by simp [heq1])
  have s5 : (w3 ++ (value ++ w4)).dropWhile isspace = value ++ w4 :=
    dropWhile_append_stop h3 (hvalhd _)
  have s6 : (value ++ w4).takeWhile isgraphic = value :=
    takeWhile_append_stop hgraph (head_stop_of_all hw4)
  have s7 : (value ++ w4).dropWhile isgraphic = w4 :=
    dropWhile_append_stop hgraph (head_stop_of_all hw4)
  have s8 : w4.dropWhile isspace = [] := by
    simpa [List.dropWhile_eq_nil_iff] using h4
  have hlk : key.length ≠ 0 := fun h0 => hk (List.length_eq_zero.mp h0)
  have hlv : value.length ≠ 0 := fun h0 => hv (List.length_eq_zero.mp h0)
  have hne1 : key ++ (w2 ++ '=' :: (w3 ++ (value ++ w4))) ≠ [] := by simp [hk]
  have hne2 : value ++ w4 ≠ [] := by simp [hv]
  rw [shape]
  unfold ini_cfg_parse_key_value
  simp only [s1, s2, s3, s4, s5, s6, s7, s8, hne1, hne2, if_false, ne_eq, not_true_eq_false]
  simp [hlk, hlv]

theorem key_value_error_code {line : List Char} {err : Nat}
    (h : ini_cfg_parse_key_value line = .error err) : err = EBADMSG := by
  have inj : ∀ {e : Nat},
      (Except.error EBADMSG : Except Nat (List Char × List Char)) = .error e →
      e = EBADMSG := by
    intro e he; cases he; rfl
  unfold ini_cfg_parse_key_value at h
  simp only at h
  split at h
  · exact inj h
  · split at h
    · exact inj h
    · split at h
      · exact inj h
      · split at h
        · exact inj h
        · split at h
          · exact inj h
          · cases h

/-- C2: `ini_cfg_parse_section_name` returns `name` exactly on the lines of the
form `WS* '[' WS* NAME WS* ']' WS*` with `NAME = name` one or more alphabetic
characters; every line is either of that form or refused with `EBADMSG`; the
lines `[1Section]` and `[Sec]tion]` are refused. -/
theorem C2_parse_section_name_grammar (line : List Char) :
    (∀ name, ini_cfg_parse_section_name line = .ok name ↔ IsSectionHeader line name) ∧
    ((∃ name, IsSectionHeader line name) ∨
      ini_cfg_parse_section_name line = .error EBADMSG) ∧
    ini_cfg_parse_section_name "[1Section]".toList = .error EBADMSG ∧
    ini_cfg_parse_section_name "[Sec]tion]".toList = .error EBADMSG := by
  refine ⟨fun name => ⟨section_name_sound, section_name_complete⟩, ?_, by rfl, by rfl⟩
  cases hres : ini_cfg_parse_section_name line with
  | error err => exact Or.inr (by rw [section_name_error_code hres])
  | ok name => exact Or.inl ⟨name, section_name_sound hres⟩

/-- C3: `ini_cfg_parse_key_value` returns `(key, value)` exactly on the lines
of the form `WS* KEY WS* '=' WS* VALUE WS*` with `KEY = key` one or more
alphanumeric characters and `VALUE = value` one or more non-whitespace
characters; every line is either of that form or refused with `EBADMSG`; the
line `key =value extra` is refused. -/
theorem C3_parse_key_value_grammar (line : List Char) :
    (∀ key value,
      ini_cfg_parse_key_value line = .ok (key, value) ↔ IsKeyValueLine line key value) ∧
    ((∃ key value, IsKeyValueLine line key value) ∨
      ini_cfg_parse_key_value line = .error EBADMSG) ∧
    ini_cfg_parse_key_value "key =value extra".toList = .error EBADMSG := by
  refine ⟨fun key value => ⟨key_value_sound, key_value_complete⟩, ?_, by rfl⟩
  cases hres : ini_cfg_parse_key_value line with
  | error err => exact Or.inr (by rw [key_value_error_code hres])
  | ok kv => exact Or.inl ⟨kv.1, kv.2, key_value_sound hres⟩

/-! ## The mutation API on chains -/

theorem link_at_tail_eq_append {α : Type} (l : List α) (x : α) :
    link_at_tail l x = l ++ [x] := by
  induction l with
  | nil => rfl
  | cons a t ih => simp [link_at_tail, ih]

theorem find_key_scan_none_iff (k : List Char) (l : List KEYVALUE_INI) :
    find_key_scan k l = none ↔ ∀ kv ∈ l, kv.pszKey ≠ k := by
  induction l with
  | nil => simp [find_key_scan]
  | cons a t ih =>
    by_cases h : a.pszKey = k
    · simp [find_key_scan, h]
    · simp [find_key_scan, h, ih]

theorem find_key_scan_append_fresh (k v : List Char) (l : List KEYVALUE_INI)
    (h : find_key_scan k l = none) :
    find_key_scan k (l ++ [{ pszKey := k, pszValue := v }])
      = some { pszKey := k, pszValue := v } := by
  induction l with
  | nil => simp [find_key_scan]
  | cons a t ih =>
    by_cases hk : a.pszKey = k
    · simp [find_key_scan, hk] at h
    · simp only [find_key_scan, hk, if_false] at h
      simp [find_key_scan, hk, ih h]

theorem add_key_success {S : SECTION_INI} {k v : List Char}
    (h : (ini_cfg_add_key S k v).1 = 0) :
    k ≠ [] ∧ v ≠ [] ∧ find_key_scan k S.pKeyValue = none ∧
    (ini_cfg_add_key S k v).2
      = { S with pKeyValue := S.pKeyValue ++ [{ pszKey := k, pszValue := v }] } := by
  unfold ini_cfg_add_key at h ⊢
  split at h
  · simp [EINVAL] at h
  · rename_i hne
    simp only [not_or] at hne
    split at h
    · simp [EEXIST] at h
    · rename_i hfind
      simp only [ini_cfg_find_key, hne.1, if_false, Option.isSome_iff_ne_none, ne_eq,
        Decidable.not_not] at hfind
      refine ⟨hne.1, hne.2, hfind, ?_⟩
      simp [hne.1, hne.2, ini_cfg_find_key, hfind, link_at_tail_eq_append]

/-- C4: once `ini_cfg_add_key(S, k, v)` has succeeded (which already requires
`k` and `v` to be non-empty), a second `ini_cfg_add_key` with the same key and
a non-empty value `v2` fails with `EEXIST` and leaves the section as it was,
and `ini_cfg_find_key` returns the entry `(k, v)`, before and after the refused
call. -/
theorem C4_second_add_key_refused (S : SECTION_INI) (k v v2 : List Char)
    (hv2 : v2 ≠ [])
    (hadd : (ini_cfg_add_key S k v).1 = 0) :
    ini_cfg_add_key (ini_cfg_add_key S k v).2 k v2 = (EEXIST, (ini_cfg_add_key S k v).2) ∧
    ini_cfg_find_key (ini_cfg_add_key S k v).2 k = some { pszKey := k, pszValue := v } ∧
    ini_cfg_find_key (ini_cfg_add_key (ini_cfg_add_key S k v).2 k v2).2 k
      = some { pszKey := k, pszValue := v } := by
  obtain ⟨hk, _, hfresh, hS1⟩ := add_key_success hadd
  have hfind : ini_cfg_find_key (ini_cfg_add_key S k v).2 k
      = some { pszKey := k, pszValue := v } := by
    rw [hS1]
    simp [ini_cfg_find_key, hk, find_key_scan_append_fresh k v _ hfresh]
  have hsecond : ini_cfg_add_key (ini_cfg_add_key S k v).2 k v2
      = (EEXIST, (ini_cfg_add_key S k v).2) := by
    generalize (ini_cfg_add_key S k v).2 = S1 at hfind ⊢
    simp [ini_cfg_add_key, hk, hv2, hfind]
  refine ⟨hsecond, hfind, ?_⟩
  rw [hsecond]
  exact hfind

/-- Witness of C4: the section `Network` without entries, key `host`, values
`localhost` and `example`. -/
theorem C4_second_add_key_refused_witness :
    "example".toList ≠ [] ∧
    (ini_cfg_add_key { pszName := "Network".toList, pKeyValue := [] }
      "host".toList "localhost".toList).1 = 0 ∧
    ini_cfg_add_key
        (ini_cfg_add_key { pszName := "Network".toList, pKeyValue := [] }
          "host".toList "localhost".toList).2 "host".toList "example".toList
      = (EEXIST,
         (ini_cfg_add_key { pszName := "Network".toList, pKeyValue := [] }
           "host".toList "localhost".toList).2) ∧
    ini_cfg_find_key
        (ini_cfg_add_key { pszName := "Network".toList, pKeyValue := [] }
          "host".toList "localhost".toList).2 "host".toList
      = some { pszKey := "host".toList, pszValue := "localhost".toList } :=
  have h := C4_second_add_key_refused { pszName := "Network".toList, pKeyValue := [] }
    "host".toList "localhost".toList "example".toList (by decide) (by decide)
  ⟨by decide, by decide, h.1, h.2.1⟩

/-- C10: `ini_cfg_add_section` with a non-empty name succeeds whatever the
document holds, the chain of sections becomes the old chain followed by one
section of that name without entries, the path is kept, and the pointer handed
back addresses the new section; `ini_cfg_add_key` with a non-empty key that no
entry of the section has and a non-empty value succeeds and the chain of
entries becomes the old chain followed by `(k, v)`, the name being kept. -/
theorem C10_append_semantics (pConfig : CONFIG_INI) (S : SECTION_INI)
    (name k v : List Char) (hname : name ≠ []) (hk : k ≠ []) (hv : v ≠ [])
    (hfresh : ∀ kv ∈ S.pKeyValue, kv.pszKey ≠ k) :
    ini_cfg_add_section pConfig name
      = (0,
         { pszPath := pConfig.pszPath,
           pSection := pConfig.pSection ++ [{ pszName := name, pKeyValue := [] }] },
         some pConfig.pSection.length) ∧
    (pConfig.pSection ++ [{ pszName := name, pKeyValue := [] }])[pConfig.pSection.length]?
      = some { pszName := name, pKeyValue := [] } ∧
    ini_cfg_add_key S k v
      = (0,
         { pszName := S.pszName,
           pKeyValue := S.pKeyValue ++ [{ pszKey := k, pszValue := v }] }) := by
  refine ⟨?_, ?_, ?_⟩
  · simp [ini_cfg_add_section, hname, link_at_tail_eq_append]
  · simp
  · have hnone := (find_key_scan_none_iff k S.pKeyValue).mpr hfresh
    simp [ini_cfg_add_key, hk, hv, ini_cfg_find_key, hnone, link_at_tail_eq_append]

/-- Witness of C10: a document that already has a section `Network`, to which
a second `Network` is added, and a section holding `host`, to which `port` is
added. -/
theorem C10_append_semantics_witness :
    "Network".toList ≠ [] ∧ "port".toList ≠ [] ∧ "8080".toList ≠ [] ∧
    (∀ kv ∈ [({ pszKey := "host".toList, pszValue := "localhost".toList } : KEYVALUE_INI)],
      kv.pszKey ≠ "port".toList) ∧
    ini_cfg_add_section
        { pszPath := "net.conf".toList,
          pSection := [{ pszName := "Network".toList, pKeyValue := [] }] } "Network".toList
      = (0,
         { pszPath := "net.conf".toList,
           pSection := [{ pszName := "Network".toList, pKeyValue := [] },
                        { pszName := "Network".toList, pKeyValue := [] }] },
         some 1) ∧
    ini_cfg_add_key
        { pszName := "Network".toList,
          pKeyValue := [{ pszKey := "host".toList, pszValue := "localhost".toList }] }
        "port".toList "8080".toList
      = (0,
         { pszName := "Network".toList,
           pKeyValue := [{ pszKey := "host".toList, pszValue := "localhost".toList },
                         { pszKey := "port".toList, pszValue := "8080".toList }] }) :=
  have h := C10_append_semantics
    { pszPath := "net.conf".toList,
      pSection := [{ pszName := "Network".toList, pKeyValue := [] }] }
    { pszName := "Network".toList,
      pKeyValue := [{ pszKey := "host".toList, pszValue := "localhost".toList }] }
    "Network".toList "port".toList "8080".toList (by decide) (by decide) (by decide)
    (by decide)
  ⟨by decide, by decide, by decide, by decide, h.1, h.2.2⟩

/-! ## The read loop on a file that ends with a newline -/

theorem fgets_scan_append (room : Nat) (s : List Char) :
    (fgets_scan room s).1 ++ (fgets_scan room s).2.1 = s := by
  induction s generalizing room with
  | nil => cases room <;> simp [fgets_scan]
  | cons c t ih =>
    cases room with
    | zero => simp [fgets_scan]
    | succ k =>
      by_cases hc : c = '\n'
      · simp [fgets_scan, hc]
      · simp [fgets_scan, hc, ih k]

theorem fgets_scan_stores (room : Nat) (c : Char) (t : List Char) :
    (fgets_scan (room + 1) (c :: t)).1 ≠ [] := by
  by_cases hc : c = '\n'
  · simp [fgets_scan, hc]
  · simp [fgets_scan, hc]

theorem fgets_scan_newline_end (room : Nat) (t : List Char) :
    (fgets_scan room (t ++ ['\n'])).2.2 = false ∧
    EndsWithNewline (fgets_scan room (t ++ ['\n'])).2.1 := by
  induction t generalizing room with
  | nil =>
    cases room with
    | zero => exact ⟨rfl, Or.inr ⟨[], rfl⟩⟩
    | succ k => exact ⟨by simp [fgets_scan], Or.inl (by simp [fgets_scan])⟩
  | cons c t ih =>
    cases room with
    | zero => exact ⟨rfl, Or.inr ⟨c :: t, rfl⟩⟩
    | succ k =>
      by_cases hc : c = '\n'
      · refine ⟨by simp [fgets_scan, hc], Or.inr ⟨t, by simp [fgets_scan, hc]⟩⟩
      · have := ih k
        simpa [fgets_scan, hc] using this

theorem fgets_newline_end {unread : List Char} (h : EndsWithNewline unread) :
    (unread = [] ∧ fgets 1024 unread = (none, [], true)) ∨
    (∃ buffer unread1, fgets 1024 unread = (some buffer, unread1, false) ∧
      EndsWithNewline unread1 ∧ unread1.length < unread.length) := by
  rcases h with rfl | ⟨t, rfl⟩
  · exact Or.inl ⟨rfl, rfl⟩
  · right
    have hscan := fgets_scan_newline_end 1023 t
    have happ := fgets_scan_append 1023 (t ++ ['\n'])
    have hne : (fgets_scan 1023 (t ++ ['\n'])).1 ≠ [] := by
      cases t with
      | nil => exact fgets_scan_stores 1022 '\n' []
      | cons c t => exact fgets_scan_stores 1022 c (t ++ ['\n'])
    refine ⟨(fgets_scan 1023 (t ++ ['\n'])).1, (fgets_scan 1023 (t ++ ['\n'])).2.1, ?_,
      hscan.2, ?_⟩
    · simp only [fgets, Nat.add_one_sub_one, hne, if_false, Nat.reduceSub]
      rw [hscan.1]
    · have hlen := congrArg List.length happ
      rw [List.length_append] at hlen
      have : 0 < (fgets_scan 1023 (t ++ ['\n'])).1.length := List.length_pos.mpr hne
      omega

theorem add_section_pointer {pConfig pConfig1 : CONFIG_INI} {pszName : List Char}
    {err : Nat} {pSection1 : Option Nat}
    (h : ini_cfg_add_section pConfig pszName = (err, pConfig1, pSection1)) (herr : err = 0) :
    ∀ p, pSection1 = some p → p < pConfig1.pSection.length := by
  unfold ini_cfg_add_section at h
  split at h
  · simp only [Prod.mk.injEq] at h
    rw [← h.1] at herr
    simp [EINVAL] at herr
  · simp only [Prod.mk.injEq] at h
    obtain ⟨_, h1, h2⟩ := h
    subst h1 h2
    intro p hp
    simp only [Option.some.injEq] at hp
    subst hp
    simp [link_at_tail_eq_append]

theorem read_lines_newline_end (errno : Nat) :
    ∀ (fuel : Nat) (unread : List Char) (pConfig : CONFIG_INI) (pSection : Option Nat),
      EndsWithNewline unread → unread.length < fuel →
      (∀ p, pSection = some p → p < pConfig.pSection.length) →
      ∃ err, read_lines errno fuel unread false pConfig pSection = some (err, none) := by
  intro fuel
  induction fuel with
  | zero => intro unread _ _ _ hlen; omega
  | succ fuel ih =>
    intro unread pConfig pSection hend hlen hptr
    rcases fgets_newline_end hend with ⟨_, hgets⟩ | ⟨buffer, unread1, hgets, hend1, hlen1⟩
    · exact ⟨errno, by simp [read_lines, hgets]⟩
    · have hfuel : unread1.length < fuel := by omega
      simp only [read_lines, hgets, Bool.false_eq_true, if_false]
      split
      · exact ih unread1 pConfig pSection hend1 hfuel hptr
      · split
        · exact ih unread1 pConfig pSection hend1 hfuel hptr
        · split
          · split
            · exact ⟨_, rfl⟩
            · rename_i pszName _
              split
              · exact ⟨_, rfl⟩
              · rename_i herr
                simp only [ne_eq, Decidable.not_not] at herr
                exact ih unread1 _ _ hend1 hfuel
                  (@add_section_pointer pConfig _ pszName _ _ rfl herr)
          · split
            · exact ⟨_, rfl⟩
            · rename_i p
              split
              · exact ⟨_, rfl⟩
              · split
                · rename_i hget
                  have := hptr p rfl
                  simp [List.getElem?_eq_none_iff] at hget
                  omega
                · split
                  · exact ⟨_, rfl⟩
                  · apply ih unread1 _ (some p) hend1 hfuel
                    intro q hq
                    simpa using hptr q hq

theorem fgets_progress (unread : List Char) :
    fgets 1024 unread = (none, [], true) ∨
    ∃ buffer unread1 eof1, fgets 1024 unread = (some buffer, unread1, eof1) ∧
      unread1.length < unread.length := by
  cases unread with
  | nil => exact Or.inl rfl
  | cons c t =>
    right
    have hne : (fgets_scan 1023 (c :: t)).1 ≠ [] := fgets_scan_stores 1022 c t
    have happ := fgets_scan_append 1023 (c :: t)
    refine ⟨(fgets_scan 1023 (c :: t)).1, (fgets_scan 1023 (c :: t)).2.1,
      (fgets_scan 1023 (c :: t)).2.2, ?_, ?_⟩
    · simp only [fgets, Nat.add_one_sub_one, hne, if_false, Nat.reduceSub]
    · have hlen := congrArg List.length happ
      rw [List.length_append] at hlen
      have : 0 < (fgets_scan 1023 (c :: t)).1.length := List.length_pos.mpr hne
      omega

/-- The read loop returns: with more fuel than unread characters, and
`pSection` inside the chain, the model gives a result. -/
theorem read_lines_returns (errno : Nat) :
    ∀ (fuel : Nat) (unread : List Char) (eof : Bool) (pConfig : CONFIG_INI)
      (pSection : Option Nat),
      unread.length < fuel →
      (∀ p, pSection = some p → p < pConfig.pSection.length) →
      ∃ r, read_lines errno fuel unread eof pConfig pSection = some r := by
  intro fuel
  induction fuel with
  | zero => intro unread _ _ _ hlen; omega
  | succ fuel ih =>
    intro unread eof pConfig pSection hlen hptr
    cases eof with
    | true => exact ⟨(0, some pConfig), by simp [read_lines]⟩
    | false =>
      rcases fgets_progress unread with hgets | ⟨buffer, unread1, eof1, hgets, hlen1⟩
      · exact ⟨(errno, none), by simp [read_lines, hgets]⟩
      · have hfuel : unread1.length < fuel := by omega
        simp only [read_lines, hgets, Bool.false_eq_true, if_false]
        split
        · exact ih unread1 eof1 pConfig pSection hfuel hptr
        · split
          · exact ih unread1 eof1 pConfig pSection hfuel hptr
          · split
            · split
              · exact ⟨_, rfl⟩
              · rename_i pszName _
                split
                · exact ⟨_, rfl⟩
                · rename_i herr
                  simp only [ne_eq, Decidable.not_not] at herr
                  exact ih unread1 eof1 _ _ hfuel
                    (@add_section_pointer pConfig _ pszName _ _ rfl herr)
            · split
              · exact ⟨_, rfl⟩
              · rename_i p
                split
                · exact ⟨_, rfl⟩
                · split
                  · rename_i hget
                    have := hptr p rfl
                    simp [List.getElem?_eq_none_iff] at hget
                    omega
                  · split
                    · exact ⟨_, rfl⟩
                    · apply ih unread1 eof1 _ (some p) hfuel
                      intro q hq
                      simpa using hptr q hq

/-- `ini_cfg_read` returns on every path, file and value of `errno`. -/
theorem ini_cfg_read_returns (errno : Nat) (pszPath : List Char) (file : Option (List Char)) :
    ∃ r, ini_cfg_read errno pszPath file = some r := by
  unfold ini_cfg_read
  split
  · exact ⟨_, rfl⟩
  · cases file with
    | none => exact ⟨_, rfl⟩
    | some content =>
      exact read_lines_returns errno _ content false _ none (by omega) (by simp)

theorem ends_newline_append {a b : List Char} (ha : ∃ t, a = t ++ ['\n'])
    (hb : EndsWithNewline b) : ∃ t, a ++ b = t ++ ['\n'] := by
  obtain ⟨t, rfl⟩ := ha
  rcases hb with rfl | ⟨u, rfl⟩
  · exact ⟨t, by simp⟩
  · exact ⟨t ++ ['\n'] ++ u, by simp⟩

theorem save_keyvalues_newline_end (l : List KEYVALUE_INI) :
    EndsWithNewline (save_keyvalues l) := by
  induction l with
  | nil => exact Or.inl rfl
  | cons kv rest ih =>
    right
    have h : save_keyvalues (kv :: rest)
        = (kv.pszKey ++ '=' :: kv.pszValue ++ ['\n']) ++ save_keyvalues rest := by
      simp [save_keyvalues]
    rw [h]
    exact ends_newline_append ⟨_, rfl⟩ ih

theorem save_sections_newline_end (l : List SECTION_INI) :
    EndsWithNewline (save_sections l) := by
  induction l with
  | nil => exact Or.inl rfl
  | cons s rest ih =>
    right
    have h : save_sections (s :: rest)
        = ('\n' :: '[' :: s.pszName ++ [']'] ++ ['\n'])
            ++ (save_keyvalues s.pKeyValue ++ save_sections rest) := by
      simp [save_sections]
    rw [h]
    apply ends_newline_append ⟨_, rfl⟩
    rcases save_keyvalues_newline_end s.pKeyValue with h1 | h1
    · rw [h1]; simpa using ih
    · exact Or.inr (ends_newline_append h1 ih)

/-- Whatever the file holds, when it is empty or ends with a newline
`ini_cfg_read` hands back no document: the last `fgets` fails at the end of
the file and the source leaves through `error`. -/
theorem read_newline_end_no_document (errno : Nat) (pszPath content : List Char)
    (h : EndsWithNewline content) :
    ∃ err, ini_cfg_read errno pszPath (some content) = some (err, none) := by
  unfold ini_cfg_read
  split
  · exact ⟨_, rfl⟩
  · exact read_lines_newline_end errno _ content _ none h (by omega) (by simp)

/-- C1 (the code on what `ini_cfg_save` writes): for every document,
`ini_cfg_read` on the content `ini_cfg_save` leaves at the path returns no
document; for the document without sections (an empty file) and for the
document built by adding the section `Network` and the key `host` to it, whose
file is `\n[Network]\nhost=localhost\n`, the call returns the value of `errno`
and a null document. -/
theorem C1_saved_file_does_not_load (errno : Nat) (pszPath : List Char)
    (pConfig : CONFIG_INI) :
    (∃ err, ini_cfg_read errno pszPath (ini_cfg_save pszPath pConfig).2 = some (err, none)) ∧
    ini_cfg_read errno "net.conf".toList
        (ini_cfg_save "net.conf".toList { pszPath := "net.conf".toList, pSection := [] }).2
      = some (errno, none) ∧
    (ini_cfg_save "net.conf".toList
        { pszPath := "net.conf".toList,
          pSection := [(ini_cfg_add_key { pszName := "Network".toList, pKeyValue := [] }
                          "host".toList "localhost".toList).2] }).2
      = some "\n[Network]\nhost=localhost\n".toList ∧
    ini_cfg_read errno "net.conf".toList (some "\n[Network]\nhost=localhost\n".toList)
      = some (errno, none) := by
  refine ⟨?_, by rfl, by rfl, by rfl⟩
  unfold ini_cfg_save
  split
  · rename_i hpath
    exact ⟨EINVAL, by simp [ini_cfg_read, hpath]⟩
  · exact read_newline_end_no_document errno pszPath _ (save_sections_newline_end _)

/-! ## Evaluations -/

/-- C8 (the code at the failing input): a first lookup of `Network` stores the
pointer to section 0 and the count 1 in the output variables; a second lookup,
of the absent name `Missing`, with the same variables returns 0 and leaves
them as they were, so the call reports one section although none carries the
name. -/
theorem C8_find_sections_stale_result :
    ini_cfg_find_sections
        { pszPath := "net.conf".toList,
          pSection := [{ pszName := "Network".toList, pKeyValue := [] },
                       { pszName := "Route".toList, pKeyValue := [] }] }
        "Network".toList none 0 = (0, some [0], 1) ∧
    ini_cfg_find_sections
        { pszPath := "net.conf".toList,
          pSection := [{ pszName := "Network".toList, pKeyValue := [] },
                       { pszName := "Route".toList, pKeyValue := [] }] }
        "Missing".toList (some [0]) 1 = (0, some [0], 1) := by
  constructor <;> rfl

/-- C9 (the code at the failing input): on a document without sections the
lookup of `Network` returns 0 and hands back whatever the two output variables
held before the call, not a null list and a zero count. -/
theorem C9_find_sections_outputs_untouched (ppSections0 : Option (List Nat))
    (dwNumSections0 : Nat) :
    ini_cfg_find_sections { pszPath := "net.conf".toList, pSection := [] }
        "Network".toList ppSections0 dwNumSections0
      = (0, ppSections0, dwNumSections0) := by
  rfl

/-- C5 (the code at the failing input): deleting `Route` from the chain
`Network`, `Route` releases the second cell and leaves the `pNext` of the first
cell pointing at it, so the chain read from the head pointer runs into released
memory instead of being the one section `Network`. -/
theorem C5_delete_sections_dangling :
    ini_cfg_delete_sections
        (config_mem [{ pszName := "Network".toList, pKeyValue := [] },
                     { pszName := "Route".toList, pKeyValue := [] }]) "Route".toList
      = (0,
         { pSection := some 0,
           cells := [{ pszName := "Network".toList, pKeyValue := [], pNext := some 1,
                       released := false },
                     { pszName := "Route".toList, pKeyValue := [], pNext := none,
                       released := true }] }) ∧
    sections_of_mem
        (ini_cfg_delete_sections
          (config_mem [{ pszName := "Network".toList, pKeyValue := [] },
                       { pszName := "Route".toList, pKeyValue := [] }]) "Route".toList).2
      = none := by
  constructor <;> rfl

/-- C6 (the code at the failing input): deleting `port` from the entries
`host`, `port` releases the second cell and leaves the `pNext` of the first
cell pointing at it, so the chain read from the head pointer runs into released
memory instead of being the one entry `host`. -/
theorem C6_delete_key_dangling :
    ini_cfg_delete_key
        (section_mem
          { pszName := "Network".toList,
            pKeyValue := [{ pszKey := "host".toList, pszValue := "localhost".toList },
                          { pszKey := "port".toList, pszValue := "8080".toList }] })
        "port".toList
      = (0,
         { pszName := "Network".toList,
           pKeyValue := some 0,
           cells := [{ pszKey := "host".toList, pszValue := "localhost".toList,
                       pNext := some 1, released := false },
                     { pszKey := "port".toList, pszValue := "8080".toList,
                       pNext := none, released := true }] }) ∧
    keyvalues_of_mem
        (ini_cfg_delete_key
          (section_mem
            { pszName := "Network".toList,
              pKeyValue := [{ pszKey := "host".toList, pszValue := "localhost".toList },
                            { pszKey := "port".toList, pszValue := "8080".toList }] })
          "port".toList).2
      = none := by
  constructor <;> rfl

/-- C7 (the code at the failing input): the file of the specification's
scenario (`[Network]`, `host=localhost`, `port=8080`, a blank line, `[Network]`,
`timeout=30`) loads as two sections `Network` when its last line has no
newline; with the newline the loop calls `fgets` once more, which fails at the
end of the file, and the call returns the value of `errno` and no document. -/
theorem C7_read_trailing_newline (errno : Nat) :
    ini_cfg_read errno "net.conf".toList
        (some "[Network]\nhost=localhost\nport=8080\n\n[Network]\ntimeout=30".toList)
      = some (0, some
          { pszPath := "net.conf".toList,
            pSection :=
              [{ pszName := "Network".toList,
                 pKeyValue := [{ pszKey := "host".toList, pszValue := "localhost".toList },
                               { pszKey := "port".toList, pszValue := "8080".toList }] },
               { pszName := "Network".toList,
                 pKeyValue := [{ pszKey := "timeout".toList, pszValue := "30".toList }] }] }) ∧
    ini_cfg_read errno "net.conf".toList
        (some "[Network]\nhost=localhost\nport=8080\n\n[Network]\ntimeout=30\n".toList)
      = some (errno, none) := by
  constructor <;> rfl

/-! ## Lookup of sections by name -/

theorem count_sections_eq_filter (name : List Char) (l : List SECTION_INI) :
    count_sections name l = (l.filter (fun s => decide (s.pszName = name))).length := by
  induction l with
  | nil => rfl
  | cons s t ih =>
    by_cases h : s.pszName = name
    · simp [count_sections, h, ih]
    · simp [count_sections, h, ih]

theorem collect_sections_eq_filter (name : List Char) (l : List SECTION_INI) (addr : Nat) :
    collect_sections name l addr
      = ((List.range l.length).filter
          (fun i => decide ((l[i]?).map SECTION_INI.pszName = some name))).map (· + addr) := by
  induction l generalizing addr with
  | nil => rfl
  | cons s t ih =>
    have hshift : ∀ i, (i + 1 + addr) = (i + (addr + 1)) := by intro i; omega
    by_cases h : s.pszName = name
    · simp [collect_sections, h, ih (addr + 1), List.range_succ_eq_map, List.filter_map,
        Function.comp_def, hshift]
    · simp [collect_sections, h, ih (addr + 1), List.range_succ_eq_map, List.filter_map,
        Function.comp_def, hshift]

/-- When at least one section carries the name (and the chain has fewer than
`2^32` cells, `nSections` being a `uint32_t`), `ini_cfg_find_sections` returns 0
and stores the pointers to exactly the sections of that name, in document
order, and their number, whatever the output variables held before. -/
theorem find_sections_matching (pConfig : CONFIG_INI) (pszName : List Char)
    (ppSections0 : Option (List Nat)) (dwNumSections0 : Nat)
    (hname : pszName ≠ [])
    (hmatch : ∃ s ∈ pConfig.pSection, s.pszName = pszName)
    (hsize : pConfig.pSection.length < 4294967296) :
    ini_cfg_find_sections pConfig pszName ppSections0 dwNumSections0
      = (0,
         some ((List.range pConfig.pSection.length).filter
           (fun i => decide ((pConfig.pSection[i]?).map SECTION_INI.pszName = some pszName))),
         (pConfig.pSection.filter (fun s => decide (s.pszName = pszName))).length) := by
  have hcount := count_sections_eq_filter pszName pConfig.pSection
  have hle : (pConfig.pSection.filter (fun s => decide (s.pszName = pszName))).length
      ≤ pConfig.pSection.length := List.length_filter_le _ _
  have hpos : 0 < (pConfig.pSection.filter (fun s => decide (s.pszName = pszName))).length := by
    obtain ⟨s, hs, hn⟩ := hmatch
    exact List.length_pos_of_mem (List.mem_filter.mpr ⟨hs, by simp [hn]⟩)
  have hmod : count_sections pszName pConfig.pSection % 4294967296
      = (pConfig.pSection.filter (fun s => decide (s.pszName = pszName))).length := by
    rw [hcount]; exact Nat.mod_eq_of_lt (by omega)
  unfold ini_cfg_find_sections
  simp only [hname, if_false, hmod]
  rw [if_neg (by omega), collect_sections_eq_filter]
  simp

/-- Witness of `find_sections_matching`: two of three sections are named
`Network`. -/
theorem find_sections_matching_witness :
    ini_cfg_find_sections
        { pszPath := "net.conf".toList,
          pSection := [{ pszName := "Network".toList, pKeyValue := [] },
                       { pszName := "Route".toList, pKeyValue := [] },
                       { pszName := "Network".toList, pKeyValue := [] }] }
        "Network".toList (some [7]) 9
      = (0, some [0, 2], 2) :=
  find_sections_matching
    { pszPath := "net.conf".toList,
      pSection := [{ pszName := "Network".toList, pKeyValue := [] },
                   { pszName := "Route".toList, pKeyValue := [] },
                   { pszName := "Network".toList, pKeyValue := [] }] }
    "Network".toList (some [7]) 9 (by decide)
    ⟨{ pszName := "Network".toList, pKeyValue := [] }, by decide, rfl⟩ (by decide)

/-- The deletion loop changes nothing in a memory none of whose cells is named
`name`. -/
theorem delete_sections_loop_no_match (name : List Char) :
    ∀ (fuel : Nat) (m : CONFIG_MEM) (pCursor : Option Nat),
      (∀ cell ∈ m.cells, cell.pszName ≠ name) →
      delete_sections_loop name fuel m pCursor = m := by
  intro fuel
  induction fuel with
  | zero => intro m pCursor _; rfl
  | succ fuel ih =>
    intro m pCursor hno
    cases pCursor with
    | none => rfl
    | some p =>
      simp only [delete_sections_loop]
      split
      · rfl
      · rename_i cell hcell
        have hmem : cell ∈ m.cells := List.getElem?_mem hcell
        have hne := hno cell hmem
        simp only [hne, decide_False, Bool.false_eq_true, false_and, if_false]
        exact ih m cell.pNext hno

/-! ## Deletion of sections -/

theorem chain_head_nil {α : Type} (addr : Nat) :
    chain_head ([] : List α) addr = none := rfl

theorem chain_head_cons {α : Type} (a : α) (t : List α) (addr : Nat) :
    chain_head (a :: t) addr = some addr := rfl

theorem getElem?_append_length {α : Type} (pre : List α) (c : α) (post : List α) :
    (pre ++ c :: post)[pre.length]? = some c := by
  induction pre with
  | nil => simp
  | cons a t ih => simpa using ih

theorem modify_append_length {α : Type} (f : α → α) (pre : List α) (c : α) (post : List α) :
    (pre ++ c :: post).modify f pre.length = pre ++ f c :: post := by
  induction pre with
  | nil => rfl
  | cons a t ih => simp [ih]

theorem append_cons_assoc {α : Type} (pre : List α) (c : α) (post : List α) :
    pre ++ c :: post = (pre ++ [c]) ++ post := by
  simp

theorem walk_sections_none (cells : List SECTION_CELL) (fuel : Nat) :
    walk_sections cells fuel none = some [] := by
  cases fuel <;> rfl

theorem delete_sections_loop_none (name : List Char) (fuel : Nat) (m : CONFIG_MEM) :
    delete_sections_loop name fuel m none = m := by
  cases fuel <;> rfl

/-- Reading back cells the loop has swept: the chain is intact when no section
of it was named `name`, and runs into a released cell otherwise. -/
theorem walk_swept_sections (name : List Char) :
    ∀ (t : List SECTION_INI) (pre : List SECTION_CELL) (fuel : Nat), t.length ≤ fuel →
      walk_sections (pre ++ swept_section_cells name t pre.length) fuel
          (chain_head t pre.length)
        = if t.all (fun s => decide (s.pszName ≠ name)) then some t else none := by
  intro t
  induction t with
  | nil => intro pre fuel _; simp [chain_head_nil, walk_sections_none]
  | cons s t ih =>
    intro pre fuel hfuel
    cases fuel with
    | zero => simp at hfuel
    | succ fuel =>
      have hfuel1 : t.length ≤ fuel := by simpa using hfuel
      simp only [chain_head_cons, swept_section_cells, walk_sections, getElem?_append_length]
      by_cases hs : s.pszName = name
      · simp [hs]
      · have hrec := ih
          (pre ++ [{ pszName := s.pszName, pKeyValue := s.pKeyValue,
                     pNext := chain_head t (pre.length + 1), released := false }])
          fuel hfuel1
        simp only [List.length_append, List.length_singleton, List.append_assoc,
          List.singleton_append] at hrec
        simp only [hs, if_false, decide_False, Bool.false_eq_true, hrec]
        have hcons : (s :: t).all (fun s => decide (s.pszName ≠ name))
            = t.all (fun s => decide (s.pszName ≠ name)) := by
          rw [List.all_cons]
          simp [hs]
        rw [hcons]
        cases t.all (fun s => decide (s.pszName ≠ name)) <;> rfl

/-- The loop on cells the head pointer does not stand on: it sweeps them and
leaves the head pointer alone. -/
theorem delete_sections_loop_sweep (name : List Char) :
    ∀ (t : List SECTION_INI) (pre : List SECTION_CELL) (k fuel : Nat),
      k < pre.length → t.length ≤ fuel →
      delete_sections_loop name fuel
          { pSection := some k, cells := pre ++ section_cells t pre.length }
          (chain_head t pre.length)
        = { pSection := some k, cells := pre ++ swept_section_cells name t pre.length } := by
  intro t
  induction t with
  | nil =>
    intro pre k fuel _ _
    simp [chain_head_nil, delete_sections_loop_none, section_cells, swept_section_cells]
  | cons s t ih =>
    intro pre k fuel hk hfuel
    cases fuel with
    | zero => simp at hfuel
    | succ fuel =>
      have hfuel1 : t.length ≤ fuel := by simpa using hfuel
      have hne : ¬ (k = pre.length) := by omega
      simp only [chain_head_cons, section_cells, delete_sections_loop, getElem?_append_length,
        Option.some.injEq, hne, and_false, if_false, swept_section_cells]
      by_cases hs : s.pszName = name
      · simp only [hs, decide_True, if_true, release_section, modify_append_length]
        have hrec := ih
          (pre ++ [{ pszName := name, pKeyValue := s.pKeyValue,
                     pNext := none, released := true }])
          k fuel (by simp; omega) hfuel1
        simp only [List.length_append, List.length_singleton, List.append_assoc,
          List.singleton_append] at hrec
        exact hrec
      · simp only [hs, decide_False, Bool.false_eq_true, if_false]
        have hrec := ih
          (pre ++ [{ pszName := s.pszName, pKeyValue := s.pKeyValue,
                     pNext := chain_head t (pre.length + 1), released := false }])
          k fuel (by simp; omega) hfuel1
        simp only [List.length_append, List.length_singleton, List.append_assoc,
          List.singleton_append] at hrec
        exact hrec

theorem swept_section_cells_length (name : List Char) (l : List SECTION_INI) (addr : Nat) :
    (swept_section_cells name l addr).length = l.length := by
  induction l generalizing addr with
  | nil => rfl
  | cons s t ih => simp [swept_section_cells, ih]

theorem section_cells_length (l : List SECTION_INI) (addr : Nat) :
    (section_cells l addr).length = l.length := by
  induction l generalizing addr with
  | nil => rfl
  | cons s t ih => simp [section_cells, ih]

/-- Reading back the cells as laid out gives the chain. -/
theorem walk_section_cells :
    ∀ (t : List SECTION_INI) (pre : List SECTION_CELL) (fuel : Nat), t.length ≤ fuel →
      walk_sections (pre ++ section_cells t pre.length) fuel (chain_head t pre.length)
        = some t := by
  intro t
  induction t with
  | nil => intro pre fuel _; simp [chain_head_nil, walk_sections_none]
  | cons s t ih =>
    intro pre fuel hfuel
    cases fuel with
    | zero => simp at hfuel
    | succ fuel =>
      have hfuel1 : t.length ≤ fuel := by simpa using hfuel
      have hrec := ih
        (pre ++ [{ pszName := s.pszName, pKeyValue := s.pKeyValue,
                   pNext := chain_head t (pre.length + 1), released := false }])
        fuel hfuel1
      simp only [List.length_append, List.length_singleton, List.append_assoc,
        List.singleton_append] at hrec
      simp only [chain_head_cons, section_cells, walk_sections, getElem?_append_length,
        Bool.false_eq_true, if_false, hrec]

theorem sections_of_config_mem (l : List SECTION_INI) :
    sections_of_mem (config_mem l) = some l := by
  have h := walk_section_cells l [] (section_cells l 0).length
    (by rw [section_cells_length])
  simpa [sections_of_mem, config_mem] using h

/-- The whole loop of `ini_cfg_delete_sections` on a chain as laid out: every
cell named `name` is released, and the head pointer ends on the first cell not
named `name`. -/
theorem delete_sections_loop_chain (name : List Char) :
    ∀ (l : List SECTION_INI) (pre : List SECTION_CELL) (fuel : Nat), l.length ≤ fuel →
      delete_sections_loop name fuel
          { pSection := chain_head l pre.length, cells := pre ++ section_cells l pre.length }
          (chain_head l pre.length)
        = { pSection :=
              chain_head (l.dropWhile (fun s => decide (s.pszName = name)))
                (pre.length + (l.takeWhile (fun s => decide (s.pszName = name))).length),
            cells := pre ++ swept_section_cells name l pre.length } := by
  intro l
  induction l with
  | nil =>
    intro pre fuel _
    simp [chain_head_nil, delete_sections_loop_none, section_cells, swept_section_cells]
  | cons s t ih =>
    intro pre fuel hfuel
    cases fuel with
    | zero => simp at hfuel
    | succ fuel =>
      have hfuel1 : t.length ≤ fuel := by simpa using hfuel
      by_cases hs : s.pszName = name
      · have hrec := ih
          (pre ++ [{ pszName := name, pKeyValue := s.pKeyValue,
                     pNext := none, released := true }])
          fuel hfuel1
        simp only [List.length_append, List.length_singleton, List.append_assoc,
          List.singleton_append] at hrec
        simp only [chain_head_cons, section_cells, delete_sections_loop,
          getElem?_append_length, hs, decide_True, and_self, if_true, release_section,
          modify_append_length, swept_section_cells, List.dropWhile_cons,
          List.takeWhile_cons, List.length_cons, hrec]
        congr 2
        omega
      · have hsweep := delete_sections_loop_sweep name t
          (pre ++ [{ pszName := s.pszName, pKeyValue := s.pKeyValue,
                     pNext := chain_head t (pre.length + 1), released := false }])
          pre.length fuel (by simp) hfuel1
        simp only [List.length_append, List.length_singleton, List.append_assoc,
          List.singleton_append] at hsweep
        simp only [chain_head_cons, section_cells, delete_sections_loop,
          getElem?_append_length, hs, decide_False, Bool.false_eq_true, false_and, if_false,
          swept_section_cells, List.dropWhile_cons, List.takeWhile_cons, List.length_nil,
          Nat.add_zero, hsweep]

theorem swept_section_cells_append (name : List Char) (lead rest : List SECTION_INI)
    (addr : Nat) (hlead : ∀ s ∈ lead, s.pszName = name) :
    swept_section_cells name (lead ++ rest) addr
      = swept_section_cells name lead addr
          ++ swept_section_cells name rest (addr + lead.length) := by
  induction lead generalizing addr with
  | nil => simp [swept_section_cells]
  | cons s t ih =>
    have hs : s.pszName = name := hlead s (by simp)
    have ht : ∀ x ∈ t, x.pszName = name := fun x hx => hlead x (by simp [hx])
    have harith : addr + 1 + t.length = addr + (t.length + 1) := by omega
    simp [swept_section_cells, hs, ih (addr + 1) ht, harith]

theorem filter_lead_rest (name : List Char) (l : List SECTION_INI)
    (hrest : (l.dropWhile (fun s => decide (s.pszName = name))).all
      (fun s => decide (s.pszName ≠ name)) = true) :
    l.filter (fun s => decide (s.pszName ≠ name))
      = l.dropWhile (fun s => decide (s.pszName = name)) := by
  induction l with
  | nil => rfl
  | cons s t ih =>
    by_cases hs : s.pszName = name
    · have hd : (s :: t).dropWhile (fun s => decide (s.pszName = name))
          = t.dropWhile (fun s => decide (s.pszName = name)) := by
        simp [List.dropWhile_cons, hs]
      rw [hd] at hrest ⊢
      rw [List.filter_cons_of_neg (by simp [hs])]
      exact ih hrest
    · simp only [List.dropWhile_cons, hs, decide_False, Bool.false_eq_true, if_false] at hrest ⊢
      rw [List.filter_eq_self.mpr]
      intro x hx
      exact List.all_eq_true.mp hrest x hx

theorem delete_sections_mem (l : List SECTION_INI) (name : List Char) (hname : name ≠ []) :
    ini_cfg_delete_sections (config_mem l) name
      = (0,
         { pSection :=
             chain_head (l.dropWhile (fun s => decide (s.pszName = name)))
               (l.takeWhile (fun s => decide (s.pszName = name))).length,
           cells := swept_section_cells name l 0 }) := by
  have h := delete_sections_loop_chain name l [] (section_cells l 0).length
    (by rw [section_cells_length])
  simp only [List.length_nil, List.nil_append, Nat.zero_add] at h
  simp only [ini_cfg_delete_sections, hname, if_false, config_mem, h]

theorem delete_sections_readback (l : List SECTION_INI) (name : List Char) :
    sections_of_mem
        { pSection :=
            chain_head (l.dropWhile (fun s => decide (s.pszName = name)))
              (l.takeWhile (fun s => decide (s.pszName = name))).length,
          cells := swept_section_cells name l 0 }
      = if (l.dropWhile (fun s => decide (s.pszName = name))).all
            (fun s => decide (s.pszName ≠ name))
        then some (l.filter (fun s => decide (s.pszName ≠ name))) else none := by
  have hsplit := List.takeWhile_append_dropWhile (fun s => decide (s.pszName = name)) l
  have hlead : ∀ s ∈ l.takeWhile (fun s => decide (s.pszName = name)), s.pszName = name := by
    intro s hs
    simpa using List.mem_takeWhile_imp hs
  have hcells : swept_section_cells name l 0
      = swept_section_cells name (l.takeWhile (fun s => decide (s.pszName = name))) 0
          ++ swept_section_cells name (l.dropWhile (fun s => decide (s.pszName = name)))
              (l.takeWhile (fun s => decide (s.pszName = name))).length := by
    have := swept_section_cells_append name _ (l.dropWhile (fun s => decide (s.pszName = name)))
      0 hlead
    rw [hsplit] at this
    simpa using this
  have hlen : (l.dropWhile (fun s => decide (s.pszName = name))).length
      ≤ (swept_section_cells name l 0).length := by
    rw [swept_section_cells_length]
    have := congrArg List.length hsplit
    rw [List.length_append] at this
    omega
  have hwalk := walk_swept_sections name (l.dropWhile (fun s => decide (s.pszName = name)))
    (swept_section_cells name (l.takeWhile (fun s => decide (s.pszName = name))) 0)
    (swept_section_cells name l 0).length hlen
  rw [swept_section_cells_length] at hwalk
  rw [← hcells] at hwalk
  simp only [sections_of_mem]
  rw [hwalk]
  by_cases hall : (l.dropWhile (fun s => decide (s.pszName = name))).all
      (fun s => decide (s.pszName ≠ name)) = true
  · rw [if_pos hall, if_pos hall, filter_lead_rest name l hall]
  · rw [if_neg hall, if_neg hall]

/-- What `ini_cfg_delete_sections` leaves of a chain: the call returns 0, and
the chain read from the head pointer afterwards is the old chain without the
sections named `name` when every section named `name` stands before every other
section; when a section named `name` follows one that is not, the head pointer
leads into a released cell. -/
theorem delete_sections_chain (l : List SECTION_INI) (name : List Char) (hname : name ≠ []) :
    (ini_cfg_delete_sections (config_mem l) name).1 = 0 ∧
    sections_of_mem (ini_cfg_delete_sections (config_mem l) name).2
      = if (l.dropWhile (fun s => decide (s.pszName = name))).all
            (fun s => decide (s.pszName ≠ name))
        then some (l.filter (fun s => decide (s.pszName ≠ name))) else none := by
  rw [delete_sections_mem l name hname]
  exact ⟨rfl, delete_sections_readback l name⟩

/-- Witness of `delete_sections_chain`: two leading sections `Network` are
removed and `Route` is kept. -/
theorem delete_sections_chain_witness :
    "Network".toList ≠ [] ∧
    sections_of_mem
        (ini_cfg_delete_sections
          (config_mem [{ pszName := "Network".toList, pKeyValue := [] },
                       { pszName := "Network".toList, pKeyValue := [] },
                       { pszName := "Route".toList, pKeyValue := [] }])
          "Network".toList).2
      = some [{ pszName := "Route".toList, pKeyValue := [] }] :=
  ⟨by decide,
   (delete_sections_chain
      [{ pszName := "Network".toList, pKeyValue := [] },
       { pszName := "Network".toList, pKeyValue := [] },
       { pszName := "Route".toList, pKeyValue := [] }]
      "Network".toList (by decide)).2.trans (by decide)⟩

theorem section_cells_names (l : List SECTION_INI) (addr : Nat) :
    ∀ cell ∈ section_cells l addr, ∃ s ∈ l, cell.pszName = s.pszName := by
  induction l generalizing addr with
  | nil => intro cell hcell; simp [section_cells] at hcell
  | cons s t ih =>
    intro cell hcell
    simp only [section_cells, List.mem_cons] at hcell
    rcases hcell with rfl | hcell
    · exact ⟨s, by simp, rfl⟩
    · obtain ⟨x, hx, hname⟩ := ih (addr + 1) cell hcell
      exact ⟨x, by simp [hx], hname⟩

/-- When no section of the chain is named `name`, `ini_cfg_delete_sections`
returns 0 and leaves the memory, and so the chain, exactly as it was. -/
theorem delete_sections_absent (l : List SECTION_INI) (name : List Char)
    (hname : name ≠ []) (habsent : ∀ s ∈ l, s.pszName ≠ name) :
    ini_cfg_delete_sections (config_mem l) name = (0, config_mem l) ∧
    sections_of_mem (config_mem l) = some l := by
  refine ⟨?_, sections_of_config_mem l⟩
  have hcells : ∀ cell ∈ (config_mem l).cells, cell.pszName ≠ name := by
    intro cell hcell
    obtain ⟨s, hs, hn⟩ := section_cells_names l 0 cell hcell
    rw [hn]
    exact habsent s hs
  simp only [ini_cfg_delete_sections, hname, if_false]
  rw [delete_sections_loop_no_match name _ _ _ hcells]

/-- Witness of `delete_sections_absent`: no section `Missing` among `Network`
and `Route`. -/
theorem delete_sections_absent_witness :
    "Missing".toList ≠ [] ∧
    ini_cfg_delete_sections
        (config_mem [{ pszName := "Network".toList, pKeyValue := [] },
                     { pszName := "Route".toList, pKeyValue := [] }]) "Missing".toList
      = (0, config_mem [{ pszName := "Network".toList, pKeyValue := [] },
                        { pszName := "Route".toList, pKeyValue := [] }]) :=
  ⟨by decide,
   (delete_sections_absent
      [{ pszName := "Network".toList, pKeyValue := [] },
       { pszName := "Route".toList, pKeyValue := [] }]
      "Missing".toList (by decide) (by decide)).1⟩

/-! ## Deletion of entries -/

theorem walk_keyvalues_none (cells : List KEYVALUE_CELL) (fuel : Nat) :
    walk_keyvalues cells fuel none = some [] := by
  cases fuel <;> rfl

theorem delete_key_loop_none (name : List Char) (fuel : Nat) (m : SECTION_MEM) :
    delete_key_loop name fuel m none = m := by
  cases fuel <;> rfl

/-- Reading back cells the loop has swept: the chain is intact when no entry
of it had the key `name`, and runs into a released cell otherwise. -/
theorem walk_swept_keyvalues (name : List Char) :
    ∀ (t : List KEYVALUE_INI) (pre : List KEYVALUE_CELL) (fuel : Nat), t.length ≤ fuel →
      walk_keyvalues (pre ++ swept_keyvalue_cells name t pre.length) fuel
          (chain_head t pre.length)
        = if t.all (fun s => decide (s.pszKey ≠ name)) then some t else none := by
  intro t
  induction t with
  | nil => intro pre fuel _; simp [chain_head_nil, walk_keyvalues_none]
  | cons s t ih =>
    intro pre fuel hfuel
    cases fuel with
    | zero => simp at hfuel
    | succ fuel =>
      have hfuel1 : t.length ≤ fuel := by simpa using hfuel
      simp only [chain_head_cons, swept_keyvalue_cells, walk_keyvalues, getElem?_append_length]
      by_cases hs : s.pszKey = name
      · simp [hs]
      · have hrec := ih
          (pre ++ [{ pszKey := s.pszKey, pszValue := s.pszValue,
                     pNext := chain_head t (pre.length + 1), released := false }])
          fuel hfuel1
        simp only [List.length_append, List.length_singleton, List.append_assoc,
          List.singleton_append] at hrec
        simp only [hs, if_false, decide_False, Bool.false_eq_true, hrec]
        have hcons : (s :: t).all (fun s => decide (s.pszKey ≠ name))
            = t.all (fun s => decide (s.pszKey ≠ name)) := by
          rw [List.all_cons]
          simp [hs]
        rw [hcons]
        cases t.all (fun s => decide (s.pszKey ≠ name)) <;> rfl

/-- The loop on cells the head pointer does not stand on: it sweeps them and
leaves the head pointer alone. -/
theorem delete_key_loop_sweep (secName name : List Char) :
    ∀ (t : List KEYVALUE_INI) (pre : List KEYVALUE_CELL) (k fuel : Nat),
      k < pre.length → t.length ≤ fuel →
      delete_key_loop name fuel
          { pszName := secName, pKeyValue := some k, cells := pre ++ keyvalue_cells t pre.length }
          (chain_head t pre.length)
        = { pszName := secName, pKeyValue := some k, cells := pre ++ swept_keyvalue_cells name t pre.length } := by
  intro t
  induction t with
  | nil =>
    intro pre k fuel _ _
    simp [chain_head_nil, delete_key_loop_none, keyvalue_cells, swept_keyvalue_cells]
  | cons s t ih =>
    intro pre k fuel hk hfuel
    cases fuel with
    | zero => simp at hfuel
    | succ fuel =>
      have hfuel1 : t.length ≤ fuel := by simpa using hfuel
      have hne : ¬ (k = pre.length) := by omega
      simp only [chain_head_cons, keyvalue_cells, delete_key_loop, getElem?_append_length,
        Option.some.injEq, hne, and_false, if_false, swept_keyvalue_cells]
      by_cases hs : s.pszKey = name
      · simp only [hs, decide_True, if_true, release_keyvalue, modify_append_length]
        have hrec := ih
          (pre ++ [{ pszKey := name, pszValue := s.pszValue,
                     pNext := none, released := true }])
          k fuel (by simp; omega) hfuel1
        simp only [List.length_append, List.length_singleton, List.append_assoc,
          List.singleton_append] at hrec
        exact hrec
      · simp only [hs, decide_False, Bool.false_eq_true, if_false]
        have hrec := ih
          (pre ++ [{ pszKey := s.pszKey, pszValue := s.pszValue,
                     pNext := chain_head t (pre.length + 1), released := false }])
          k fuel (by simp; omega) hfuel1
        simp only [List.length_append, List.length_singleton, List.append_assoc,
          List.singleton_append] at hrec
        exact hrec


theorem swept_keyvalue_cells_length (name : List Char) (l : List KEYVALUE_INI) (addr : Nat) :
    (swept_keyvalue_cells name l addr).length = l.length := by
  induction l generalizing addr with
  | nil => rfl
  | cons s t ih => simp [swept_keyvalue_cells, ih]

theorem keyvalue_cells_length (l : List KEYVALUE_INI) (addr : Nat) :
    (keyvalue_cells l addr).length = l.length := by
  induction l generalizing addr with
  | nil => rfl
  | cons s t ih => simp [keyvalue_cells, ih]

/-- Reading back the cells as laid out gives the chain. -/
theorem walk_keyvalue_cells :
    ∀ (t : List KEYVALUE_INI) (pre : List KEYVALUE_CELL) (fuel : Nat), t.length ≤ fuel →
      walk_keyvalues (pre ++ keyvalue_cells t pre.length) fuel (chain_head t pre.length)
        = some t := by
  intro t
  induction t with
  | nil => intro pre fuel _; simp [chain_head_nil, walk_keyvalues_none]
  | cons s t ih =>
    intro pre fuel hfuel
    cases fuel with
    | zero => simp at hfuel
    | succ fuel =>
      have hfuel1 : t.length ≤ fuel := by simpa using hfuel
      have hrec := ih
        (pre ++ [{ pszKey := s.pszKey, pszValue := s.pszValue,
                   pNext := chain_head t (pre.length + 1), released := false }])
        fuel hfuel1
      simp only [List.length_append, List.length_singleton, List.append_assoc,
        List.singleton_append] at hrec
      simp only [chain_head_cons, keyvalue_cells, walk_keyvalues, getElem?_append_length,
        Bool.false_eq_true, if_false, hrec]

theorem keyvalues_of_section_mem (secName : List Char) (l : List KEYVALUE_INI) :
    keyvalues_of_mem (section_mem { pszName := secName, pKeyValue := l }) = some l := by
  have h := walk_keyvalue_cells l [] (keyvalue_cells l 0).length
    (by rw [keyvalue_cells_length])
  simpa [keyvalues_of_mem, section_mem] using h

/-- The whole loop of `ini_cfg_delete_key` on a chain as laid out: every
cell whose key is `name` is released, and the head pointer ends on the first
cell with another key. -/
theorem delete_key_loop_chain (secName name : List Char) :
    ∀ (l : List KEYVALUE_INI) (pre : List KEYVALUE_CELL) (fuel : Nat), l.length ≤ fuel →
      delete_key_loop name fuel
          { pszName := secName, pKeyValue := chain_head l pre.length,
            cells := pre ++ keyvalue_cells l pre.length }
          (chain_head l pre.length)
        = { pszName := secName,
            pKeyValue :=
              chain_head (l.dropWhile (fun s => decide (s.pszKey = name)))
                (pre.length + (l.takeWhile (fun s => decide (s.pszKey = name))).length),
            cells := pre ++ swept_keyvalue_cells name l pre.length } := by
  intro l
  induction l with
  | nil =>
    intro pre fuel _
    simp [chain_head_nil, delete_key_loop_none, keyvalue_cells, swept_keyvalue_cells]
  | cons s t ih =>
    intro pre fuel hfuel
    cases fuel with
    | zero => simp at hfuel
    | succ fuel =>
      have hfuel1 : t.length ≤ fuel := by simpa using hfuel
      by_cases hs : s.pszKey = name
      · have hrec := ih
          (pre ++ [{ pszKey := name, pszValue := s.pszValue,
                     pNext := none, released := true }])
          fuel hfuel1
        simp only [List.length_append, List.length_singleton, List.append_assoc,
          List.singleton_append] at hrec
        simp only [chain_head_cons, keyvalue_cells, delete_key_loop,
          getElem?_append_length, hs, decide_True, and_self, if_true, release_keyvalue,
          modify_append_length, swept_keyvalue_cells, List.dropWhile_cons,
          List.takeWhile_cons, List.length_cons, hrec]
        congr 2
        omega
      · have hsweep := delete_key_loop_sweep secName name t
          (pre ++ [{ pszKey := s.pszKey, pszValue := s.pszValue,
                     pNext := chain_head t (pre.length + 1), released := false }])
          pre.length fuel (by simp) hfuel1
        simp only [List.length_append, List.length_singleton, List.append_assoc,
          List.singleton_append] at hsweep
        simp only [chain_head_cons, keyvalue_cells, delete_key_loop,
          getElem?_append_length, hs, decide_False, Bool.false_eq_true, false_and, if_false,
          swept_keyvalue_cells, List.dropWhile_cons, List.takeWhile_cons, List.length_nil,
          Nat.add_zero, hsweep]

theorem swept_keyvalue_cells_append (name : List Char) (lead rest : List KEYVALUE_INI)
    (addr : Nat) (hlead : ∀ s ∈ lead, s.pszKey = name) :
    swept_keyvalue_cells name (lead ++ rest) addr
      = swept_keyvalue_cells name lead addr
          ++ swept_keyvalue_cells name rest (addr + lead.length) := by
  induction lead generalizing addr with
  | nil => simp [swept_keyvalue_cells]
  | cons s t ih =>
    have hs : s.pszKey = name := hlead s (by simp)
    have ht : ∀ x ∈ t, x.pszKey = name := fun x hx => hlead x (by simp [hx])
    have harith : addr + 1 + t.length = addr + (t.length + 1) := by omega
    simp [swept_keyvalue_cells, hs, ih (addr + 1) ht, harith]

theorem filter_lead_rest_keys (name : List Char) (l : List KEYVALUE_INI)
    (hrest : (l.dropWhile (fun s => decide (s.pszKey = name))).all
      (fun s => decide (s.pszKey ≠ name)) = true) :
    l.filter (fun s => decide (s.pszKey ≠ name))
      = l.dropWhile (fun s => decide (s.pszKey = name)) := by
  induction l with
  | nil => rfl
  | cons s t ih =>
    by_cases hs : s.pszKey = name
    · have hd : (s :: t).dropWhile (fun s => decide (s.pszKey = name))
          = t.dropWhile (fun s => decide (s.pszKey = name)) := by
        simp [List.dropWhile_cons, hs]
      rw [hd] at hrest ⊢
      rw [List.filter_cons_of_neg (by simp [hs])]
      exact ih hrest
    · simp only [List.dropWhile_cons, hs, decide_False, Bool.false_eq_true, if_false] at hrest ⊢
      rw [List.filter_eq_self.mpr]
      intro x hx
      exact List.all_eq_true.mp hrest x hx


theorem delete_key_mem (secName : List Char) (l : List KEYVALUE_INI) (name : List Char)
    (hname : name ≠ []) :
    ini_cfg_delete_key (section_mem { pszName := secName, pKeyValue := l }) name
      = (0,
         { pszName := secName,
           pKeyValue :=
             chain_head (l.dropWhile (fun s => decide (s.pszKey = name)))
               (l.takeWhile (fun s => decide (s.pszKey = name))).length,
           cells := swept_keyvalue_cells name l 0 }) := by
  have h := delete_key_loop_chain secName name l [] (keyvalue_cells l 0).length
    (by rw [keyvalue_cells_length])
  simp only [List.length_nil, List.nil_append, Nat.zero_add] at h
  simp only [ini_cfg_delete_key, hname, if_false, section_mem, h]

theorem delete_key_readback (secName : List Char) (l : List KEYVALUE_INI) (name : List Char) :
    keyvalues_of_mem
        { pszName := secName,
          pKeyValue :=
            chain_head (l.dropWhile (fun s => decide (s.pszKey = name)))
              (l.takeWhile (fun s => decide (s.pszKey = name))).length,
          cells := swept_keyvalue_cells name l 0 }
      = if (l.dropWhile (fun s => decide (s.pszKey = name))).all
            (fun s => decide (s.pszKey ≠ name))
        then some (l.filter (fun s => decide (s.pszKey ≠ name))) else none := by
  have hsplit := List.takeWhile_append_dropWhile (fun s => decide (s.pszKey = name)) l
  have hlead : ∀ s ∈ l.takeWhile (fun s => decide (s.pszKey = name)), s.pszKey = name := by
    intro s hs
    simpa using List.mem_takeWhile_imp hs
  have hcells : swept_keyvalue_cells name l 0
      = swept_keyvalue_cells name (l.takeWhile (fun s => decide (s.pszKey = name))) 0
          ++ swept_keyvalue_cells name (l.dropWhile (fun s => decide (s.pszKey = name)))
              (l.takeWhile (fun s => decide (s.pszKey = name))).length := by
    have := swept_keyvalue_cells_append name _ (l.dropWhile (fun s => decide (s.pszKey = name)))
      0 hlead
    rw [hsplit] at this
    simpa using this
  have hlen : (l.dropWhile (fun s => decide (s.pszKey = name))).length
      ≤ (swept_keyvalue_cells name l 0).length := by
    rw [swept_keyvalue_cells_length]
    have := congrArg List.length hsplit
    rw [List.length_append] at this
    omega
  have hwalk := walk_swept_keyvalues name (l.dropWhile (fun s => decide (s.pszKey = name)))
    (swept_keyvalue_cells name (l.takeWhile (fun s => decide (s.pszKey = name))) 0)
    (swept_keyvalue_cells name l 0).length hlen
  rw [swept_keyvalue_cells_length] at hwalk
  rw [← hcells] at hwalk
  simp only [keyvalues_of_mem]
  rw [hwalk]
  by_cases hall : (l.dropWhile (fun s => decide (s.pszKey = name))).all
      (fun s => decide (s.pszKey ≠ name)) = true
  · rw [if_pos hall, if_pos hall, filter_lead_rest_keys name l hall]
  · rw [if_neg hall, if_neg hall]


/-- What `ini_cfg_delete_key` leaves of a chain: the call returns 0, and the
chain read from the head pointer afterwards is the old chain without the
entries whose key is `name` when every such entry stands before every other
entry; when an entry with the key `name` follows one with another key, the head
pointer leads into a released cell. -/
theorem delete_key_chain (secName : List Char) (l : List KEYVALUE_INI) (name : List Char)
    (hname : name ≠ []) :
    (ini_cfg_delete_key (section_mem { pszName := secName, pKeyValue := l }) name).1 = 0 ∧
    keyvalues_of_mem
        (ini_cfg_delete_key (section_mem { pszName := secName, pKeyValue := l }) name).2
      = if (l.dropWhile (fun s => decide (s.pszKey = name))).all
            (fun s => decide (s.pszKey ≠ name))
        then some (l.filter (fun s => decide (s.pszKey ≠ name))) else none := by
  rw [delete_key_mem secName l name hname]
  exact ⟨rfl, delete_key_readback secName l name⟩

/-- Witness of `delete_key_chain`: the first entry `host` is removed and
`port` is kept. -/
theorem delete_key_chain_witness :
    "host".toList ≠ [] ∧
    keyvalues_of_mem
        (ini_cfg_delete_key
          (section_mem
            { pszName := "Network".toList,
              pKeyValue := [{ pszKey := "host".toList, pszValue := "localhost".toList },
                            { pszKey := "port".toList, pszValue := "8080".toList }] })
          "host".toList).2
      = some [{ pszKey := "port".toList, pszValue := "8080".toList }] :=
  ⟨by decide,
   (delete_key_chain "Network".toList
      [{ pszKey := "host".toList, pszValue := "localhost".toList },
       { pszKey := "port".toList, pszValue := "8080".toList }]
      "host".toList (by decide)).2.trans (by decide)⟩

/-! ## Loading a file line by line -/

theorem fgets_scan_line (line rest : List Char) (hnl : ∀ c ∈ line, c ≠ '\n') :
    ∀ room, line.length < room →
      fgets_scan room (line ++ '\n' :: rest) = (line ++ ['\n'], rest, false) := by
  induction line with
  | nil =>
    intro room hroom
    cases room with
    | zero => omega
    | succ k => simp [fgets_scan]
  | cons c t ih =>
    intro room hroom
    cases room with
    | zero => omega
    | succ k =>
      have hc : c ≠ '\n' := hnl c (by simp)
      have ht := ih (fun x hx => hnl x (by simp [hx])) k (by simpa using hroom)
      simp [fgets_scan, hc, ht]

theorem fgets_scan_last (line : List Char) (hnl : ∀ c ∈ line, c ≠ '\n') :
    ∀ room, line.length < room → fgets_scan room line = (line, [], true) := by
  induction line with
  | nil =>
    intro room hroom
    cases room with
    | zero => omega
    | succ k => simp [fgets_scan]
  | cons c t ih =>
    intro room hroom
    cases room with
    | zero => omega
    | succ k =>
      have hc : c ≠ '\n' := hnl c (by simp)
      have ht := ih (fun x hx => hnl x (by simp [hx])) k (by simpa using hroom)
      simp [fgets_scan, hc, ht]

theorem fgets_line (line rest : List Char) (hnl : ∀ c ∈ line, c ≠ '\n')
    (hlen : line.length ≤ 1022) :
    fgets 1024 (line ++ '\n' :: rest) = (some (line ++ ['\n']), rest, false) := by
  simp [fgets, fgets_scan_line line rest hnl 1023 (by omega)]

theorem fgets_last (line : List Char) (hnl : ∀ c ∈ line, c ≠ '\n')
    (hlen : line.length ≤ 1022) (hne : line ≠ []) :
    fgets 1024 line = (some line, [], true) := by
  simp [fgets, fgets_scan_last line hnl 1023 (by omega), hne]

theorem c_string_of_no_nul (buffer : List Char) (h : ∀ c ∈ buffer, c.toNat ≠ 0) :
    c_string buffer = buffer := by
  unfold c_string
  rw [List.takeWhile_eq_self_iff]
  intro c hc
  simpa using h c hc

theorem section_header_cursor {line name : List Char} (h : IsSectionHeader line name) :
    ∃ tail, line.dropWhile isspace = '[' :: tail ∧
      ini_cfg_parse_section_name ('[' :: tail) = .ok name := by
  obtain ⟨w1, w2, w3, w4, h1, h2, h3, h4, hne, halpha, rfl⟩ := h
  refine ⟨w2 ++ name ++ w3 ++ [']'] ++ w4, ?_, ?_⟩
  · have : w1 ++ ['['] ++ w2 ++ name ++ w3 ++ [']'] ++ w4
        = w1 ++ ('[' :: (w2 ++ name ++ w3 ++ [']'] ++ w4)) := by simp
    rw [this]
    exact dropWhile_append_stop h1 (by simp; decide)
  · apply section_name_complete
    exact ⟨[], w2, w3, w4, by simp, h2, h3, h4, hne, halpha, by simp⟩

theorem key_value_cursor {line key value : List Char} (h : IsKeyValueLine line key value) :
    ∃ c tail, line.dropWhile isspace = c :: tail ∧ c ≠ '#' ∧ c ≠ '[' ∧
      ini_cfg_parse_key_value (c :: tail) = .ok (key, value) := by
  obtain ⟨w1, w2, w3, w4, h1, h2, h3, h4, hk, hkey, hv, hvalue, rfl⟩ := h
  cases key with
  | nil => exact absurd rfl hk
  | cons c t =>
    have hc : isalnum c = true := hkey c (by simp)
    refine ⟨c, t ++ w2 ++ ['='] ++ w3 ++ value ++ w4, ?_, ?_, ?_, ?_⟩
    · have : w1 ++ (c :: t) ++ w2 ++ ['='] ++ w3 ++ value ++ w4
          = w1 ++ (c :: (t ++ w2 ++ ['='] ++ w3 ++ value ++ w4)) := by simp
      rw [this]
      exact dropWhile_append_stop h1 (by simpa using isalnum_not_isspace hc)
    · intro heq; rw [heq] at hc; exact absurd hc (by decide)
    · intro heq; rw [heq] at hc; exact absurd hc (by decide)
    · apply key_value_complete
      exact ⟨[], w2, w3, w4, by simp, h2, h3, h4, hk, hkey, hv, hvalue, by simp⟩

theorem last_section_append (init : List SECTION_INI) (S : SECTION_INI) :
    last_section (init ++ [S]) = some init.length := by
  cases init with
  | nil => rfl
  | cons a t => simp [last_section]

/-- One iteration of the read loop on a buffer the specification reads as one
line. -/
theorem read_lines_body (errno fuel : Nat) (unread buffer unread1 : List Char) (eof1 : Bool)
    (path : List Char) (secs secs1 : List SECTION_INI)
    (hgets : fgets 1024 unread = (some buffer, unread1, eof1))
    (hnul : ∀ c ∈ buffer, c.toNat ≠ 0)
    (hline : LoadsLine secs buffer secs1) :
    read_lines errno (fuel + 1) unread false { pszPath := path, pSection := secs }
        (last_section secs)
      = read_lines errno fuel unread1 eof1 { pszPath := path, pSection := secs1 }
          (last_section secs1) := by
  have hcs := c_string_of_no_nul buffer hnul
  cases hline with
  | blank _ _ hws =>
    have hdrop : buffer.dropWhile isspace = [] := by
      simpa [List.dropWhile_eq_nil_iff] using hws
    simp only [read_lines, hgets, hcs, hdrop, Bool.false_eq_true, if_false]
  | comment _ w rest hws =>
    have hdrop : (w ++ '#' :: rest).dropWhile isspace = '#' :: rest :=
      dropWhile_append_stop hws (by simp; decide)
    simp only [read_lines, hgets, hcs, hdrop, Bool.false_eq_true, if_false, if_true]
  | header _ _ name hhead =>
    obtain ⟨tail, hdrop, hparse⟩ := section_header_cursor hhead
    have hname : name ≠ [] := by
      obtain ⟨_, _, _, _, _, _, _, _, hne, _, _⟩ := hhead
      exact hne
    have hadd : ini_cfg_add_section { pszPath := path, pSection := secs } name
        = (0, { pszPath := path,
                pSection := secs ++ [{ pszName := name, pKeyValue := [] }] },
           some secs.length) := by
      simp [ini_cfg_add_section, hname, link_at_tail_eq_append]
    have hsharp : ('[' : Char) ≠ '#' := by decide
    simp only [read_lines, hgets, hcs, hdrop, Bool.false_eq_true, if_false, hsharp, if_true,
      hparse, hadd, ne_eq, not_true_eq_false, last_section_append]
  | entry init S _ key value hkv hfresh =>
    obtain ⟨c, tail, hdrop, hc1, hc2, hparse⟩ := key_value_cursor hkv
    have hk : key ≠ [] ∧ value ≠ [] := by
      obtain ⟨_, _, _, _, _, _, _, _, hk, _, hv, _, _⟩ := hkv
      exact ⟨hk, hv⟩
    have hnone := (find_key_scan_none_iff key S.pKeyValue).mpr hfresh
    have hadd : ini_cfg_add_key S key value
        = (0, { pszName := S.pszName,
                pKeyValue := S.pKeyValue ++ [{ pszKey := key, pszValue := value }] }) := by
      simp [ini_cfg_add_key, hk.1, hk.2, ini_cfg_find_key, hnone, link_at_tail_eq_append]
    have hget : (init ++ [S])[init.length]? = some S := by simp
    have hset : (init ++ [S]).set init.length
          { pszName := S.pszName,
            pKeyValue := S.pKeyValue ++ [{ pszKey := key, pszValue := value }] }
        = init ++ [{ pszName := S.pszName,
                     pKeyValue := S.pKeyValue ++ [{ pszKey := key, pszValue := value }] }] := by
      simp
    simp only [read_lines, hgets, hcs, hdrop, Bool.false_eq_true, if_false, hc1, hc2,
      last_section_append, hparse, hget, hadd, ne_eq, not_true_eq_false, hset]

theorem loads_line_newline {secs secs1 : List SECTION_INI} {line : List Char}
    (h : LoadsLine secs line secs1) : LoadsLine secs (line ++ ['\n']) secs1 := by
  have hnl : ∀ c ∈ ['\n'], isspace c = true := by decide
  cases h with
  | blank _ _ hws =>
    apply LoadsLine.blank
    intro c hc
    rcases List.mem_append.mp hc with hc | hc
    · exact hws c hc
    · exact hnl c hc
  | comment _ w rest hws =>
    have : w ++ '#' :: rest ++ ['\n'] = w ++ '#' :: (rest ++ ['\n']) := by simp
    rw [this]
    exact LoadsLine.comment _ w _ hws
  | header _ _ name hhead =>
    apply LoadsLine.header
    obtain ⟨w1, w2, w3, w4, h1, h2, h3, h4, hne, halpha, rfl⟩ := hhead
    refine ⟨w1, w2, w3, w4 ++ ['\n'], h1, h2, h3, ?_, hne, halpha, by simp⟩
    intro c hc
    rcases List.mem_append.mp hc with hc | hc
    · exact h4 c hc
    · exact hnl c hc
  | entry init S _ key value hkv hfresh =>
    apply LoadsLine.entry _ _ _ _ _ _ hfresh
    obtain ⟨w1, w2, w3, w4, h1, h2, h3, h4, hk, hkey, hv, hvalue, rfl⟩ := hkv
    refine ⟨w1, w2, w3, w4 ++ ['\n'], h1, h2, h3, ?_, hk, hkey, hv, hvalue, by simp⟩
    intro c hc
    rcases List.mem_append.mp hc with hc | hc
    · exact h4 c hc
    · exact hnl c hc

theorem read_lines_of_lines (errno : Nat) (path last : List Char)
    (hlast : FitsBuffer last) (hne : last ≠ []) :
    ∀ (lines : List (List Char)) (secs secs2 : List SECTION_INI) (fuel : Nat),
      (∀ line ∈ lines, FitsBuffer line) →
      LoadsLines secs (lines ++ [last]) secs2 →
      (file_of_lines lines last).length < fuel →
      read_lines errno fuel (file_of_lines lines last) false
          { pszPath := path, pSection := secs } (last_section secs)
        = some (0, some { pszPath := path, pSection := secs2 }) := by
  intro lines
  induction lines with
  | nil =>
    intro secs secs2 fuel _ hloads hfuel
    cases hloads with
    | step _ secs1 _ _ _ hline hrest =>
      cases hrest
      have hpos : 0 < last.length := List.length_pos.mpr hne
      obtain ⟨fuel, rfl⟩ : ∃ f, fuel = f + 2 :=
        ⟨fuel - 2, by simp [file_of_lines] at hfuel; omega⟩
      rw [file_of_lines,
        read_lines_body errno (fuel + 1) last last [] true path secs secs2
          (fgets_last last hlast.2.1 hlast.1 hne) hlast.2.2 hline]
      simp [read_lines]
  | cons line rest ih =>
    intro secs secs2 fuel hfit hloads hfuel
    cases hloads with
    | step _ secs1 _ _ _ hline hrest =>
      have hl : FitsBuffer line := hfit line (by simp)
      obtain ⟨fuel, rfl⟩ : ∃ f, fuel = f + 1 := ⟨fuel - 1, by omega⟩
      have hnul : ∀ c ∈ line ++ ['\n'], c.toNat ≠ 0 := by
        intro c hc
        rcases List.mem_append.mp hc with hc | hc
        · exact hl.2.2 c hc
        · simp at hc; subst hc; decide
      rw [file_of_lines,
        read_lines_body errno fuel _ (line ++ ['\n']) (file_of_lines rest last) false path
          secs secs1 (fgets_line line _ hl.2.1 hl.1) hnul (loads_line_newline hline)]
      apply ih secs1 secs2 fuel (fun x hx => hfit x (by simp [hx])) hrest
      simp [file_of_lines] at hfuel
      omega

/-- A file whose lines fit the line buffer and hold no NUL, whose last line is
not empty and has no newline after it, and whose lines the specification reads
as blank lines, comments, headers and key-value lines (each key-value line
after a header, no key twice in a section) loads: `ini_cfg_read` returns 0 and
the document with the given path whose sections are the headers in file order,
each with the pairs of the key-value lines that follow it, in file order. -/
theorem read_file_of_lines (errno : Nat) (path : List Char) (lines : List (List Char))
    (last : List Char) (secs : List SECTION_INI)
    (hpath : path ≠ [])
    (hfit : ∀ line ∈ lines ++ [last], FitsBuffer line)
    (hne : last ≠ [])
    (hloads : LoadsLines [] (lines ++ [last]) secs) :
    ini_cfg_read errno path (some (file_of_lines lines last))
      = some (0, some { pszPath := path, pSection := secs }) := by
  simp only [ini_cfg_read, hpath, if_false]
  exact read_lines_of_lines errno path last (hfit last (by simp)) hne lines [] secs _
    (fun line hline => hfit line (by simp [hline])) hloads (by omega)

/-- Witness of `read_file_of_lines`: the file `[Network]`, `host=localhost`,
`port=8080`, a blank line, `[Network]`, `timeout=30`, the last line without a
newline, loads as two sections `Network`, the first with `host` and `port` and
the second with `timeout`. -/
theorem read_file_of_lines_witness :
    file_of_lines
        ["[Network]".toList, "host=localhost".toList, "port=8080".toList, [],
         "[Network]".toList] "timeout=30".toList
      = "[Network]\nhost=localhost\nport=8080\n\n[Network]\ntimeout=30".toList ∧
    ini_cfg_read 0 "net.conf".toList
        (some (file_of_lines
          ["[Network]".toList, "host=localhost".toList, "port=8080".toList, [],
           "[Network]".toList] "timeout=30".toList))
      = some (0, some
          { pszPath := "net.conf".toList,
            pSection :=
              [{ pszName := "Network".toList,
                 pKeyValue := [{ pszKey := "host".toList, pszValue := "localhost".toList },
                               { pszKey := "port".toList, pszValue := "8080".toList }] },
               { pszName := "Network".toList,
                 pKeyValue := [{ pszKey := "timeout".toList, pszValue := "30".toList }] }] }) := by
  refine ⟨by decide, ?_⟩
  have hheader : IsSectionHeader "[Network]".toList "Network".toList :=
    ⟨[], [], [], [], by decide, by decide, by decide, by decide, by decide, by decide,
      by decide⟩
  have hhost : IsKeyValueLine "host=localhost".toList "host".toList "localhost".toList :=
    ⟨[], [], [], [], by decide, by decide, by decide, by decide, by decide, by decide,
      by decide, by decide, by decide⟩
  have hport : IsKeyValueLine "port=8080".toList "port".toList "8080".toList :=
    ⟨[], [], [], [], by decide, by decide, by decide, by decide, by decide, by decide,
      by decide, by decide, by decide⟩
  have htimeout : IsKeyValueLine "timeout=30".toList "timeout".toList "30".toList :=
    ⟨[], [], [], [], by decide, by decide, by decide, by decide, by decide, by decide,
      by decide, by decide, by decide⟩
  apply read_file_of_lines 0 "net.conf".toList _ _ _ (by decide)
  · intro line hline
    simp only [List.cons_append, List.nil_append, List.mem_cons, List.mem_singleton,
      List.not_mem_nil, or_false] at hline
    rcases hline with rfl | rfl | rfl | rfl | rfl | rfl <;>
      exact ⟨by decide, by decide, by decide⟩
  · decide
  · exact
      LoadsLines.step _ _ _ _ _ (LoadsLine.header [] _ _ hheader) <|
      LoadsLines.step _ _ _ _ _
        (LoadsLine.entry [] { pszName := "Network".toList, pKeyValue := [] } _ _ _ hhost
          (by decide)) <|
      LoadsLines.step _ _ _ _ _
        (LoadsLine.entry []
          { pszName := "Network".toList,
            pKeyValue := [{ pszKey := "host".toList, pszValue := "localhost".toList }] }
          _ _ _ hport (by decide)) <|
      LoadsLines.step _ _ _ _ _ (LoadsLine.blank _ [] (by decide)) <|
      LoadsLines.step _ _ _ _ _
        (LoadsLine.header
          [{ pszName := "Network".toList,
             pKeyValue := [{ pszKey := "host".toList, pszValue := "localhost".toList },
                           { pszKey := "port".toList, pszValue := "8080".toList }] }]
          _ _ hheader) <|
      LoadsLines.step _ _ _ _ _
        (LoadsLine.entry
          [{ pszName := "Network".toList,
             pKeyValue := [{ pszKey := "host".toList, pszValue := "localhost".toList },
                           { pszKey := "port".toList, pszValue := "8080".toList }] }]
          { pszName := "Network".toList, pKeyValue := [] } _ _ _ htimeout (by decide)) <|
      LoadsLines.done _

/-! ## Setting a value -/

theorem store_value_scan_split (k v : List Char) (pre post : List KEYVALUE_INI)
    (kv : KEYVALUE_INI) (hkv : kv.pszKey = k) (hpre : ∀ x ∈ pre, x.pszKey ≠ k) :
    store_value_scan k v (pre ++ kv :: post)
      = pre ++ { pszKey := k, pszValue := v } :: post := by
  induction pre with
  | nil => simp [store_value_scan, hkv]
  | cons a t ih =>
    have ha : a.pszKey ≠ k := hpre a (by simp)
    simp [store_value_scan, ha, ih (fun x hx => hpre x (by simp [hx]))]

theorem find_key_scan_split (k : List Char) (pre post : List KEYVALUE_INI)
    (kv : KEYVALUE_INI) (hkv : kv.pszKey = k) (hpre : ∀ x ∈ pre, x.pszKey ≠ k) :
    find_key_scan k (pre ++ kv :: post) = some kv := by
  induction pre with
  | nil => simp [find_key_scan, hkv]
  | cons a t ih =>
    have ha : a.pszKey ≠ k := hpre a (by simp)
    simp [find_key_scan, ha, ih (fun x hx => hpre x (by simp [hx]))]

/-- C11: with a non-empty key and value, `ini_cfg_set_value` returns `ENOENT`
and leaves the section as it was when no entry has the key; when the entry
`(k, old)` stands after the entries `pre`, none of which has the key, and
before the entries `post`, the call returns 0, the section keeps its name, its
entries are `pre`, then `(k, value)`, then `post` (same position, same number,
every other entry as it was), and `ini_cfg_find_key` returns `(k, value)`. -/
theorem C11_set_value (S : SECTION_INI) (k value : List Char)
    (hk : k ≠ []) (hvalue : value ≠ []) :
    ((∀ kv ∈ S.pKeyValue, kv.pszKey ≠ k) → ini_cfg_set_value S k value = (ENOENT, S)) ∧
    (∀ (pre post : List KEYVALUE_INI) (old : List Char),
      S.pKeyValue = pre ++ { pszKey := k, pszValue := old } :: post →
      (∀ x ∈ pre, x.pszKey ≠ k) →
      ini_cfg_set_value S k value
        = (0, { pszName := S.pszName,
                pKeyValue := pre ++ { pszKey := k, pszValue := value } :: post }) ∧
      (pre ++ { pszKey := k, pszValue := value } :: post).length = S.pKeyValue.length ∧
      ini_cfg_find_key (ini_cfg_set_value S k value).2 k
        = some { pszKey := k, pszValue := value }) := by
  constructor
  · intro habsent
    have hnone := (find_key_scan_none_iff k S.pKeyValue).mpr habsent
    simp [ini_cfg_set_value, hk, hvalue, ini_cfg_find_key, hnone]
  · intro pre post old hsplit hpre
    have hfind : find_key_scan k S.pKeyValue = some { pszKey := k, pszValue := old } := by
      rw [hsplit]; exact find_key_scan_split k pre post _ rfl hpre
    have hstore : store_value_scan k value S.pKeyValue
        = pre ++ { pszKey := k, pszValue := value } :: post := by
      rw [hsplit]; exact store_value_scan_split k value pre post _ rfl hpre
    have hres : ini_cfg_set_value S k value
        = (0, { pszName := S.pszName,
                pKeyValue := pre ++ { pszKey := k, pszValue := value } :: post }) := by
      simp [ini_cfg_set_value, hk, hvalue, ini_cfg_find_key, hfind, hstore]
    refine ⟨hres, by rw [hsplit]; simp, ?_⟩
    rw [hres]
    simp only [ini_cfg_find_key, hk, if_false]
    exact find_key_scan_split k pre post { pszKey := k, pszValue := value } rfl hpre

/-- Witness of C11: in the section `Network` with `host`, `port`, `mtu` the
value of `port` is set to `9090`; `timeout` is absent. -/
theorem C11_set_value_witness :
    "port".toList ≠ [] ∧ "9090".toList ≠ [] ∧
    ini_cfg_set_value
        { pszName := "Network".toList,
          pKeyValue := [{ pszKey := "host".toList, pszValue := "localhost".toList },
                        { pszKey := "port".toList, pszValue := "8080".toList },
                        { pszKey := "mtu".toList, pszValue := "1500".toList }] }
        "port".toList "9090".toList
      = (0, { pszName := "Network".toList,
              pKeyValue := [{ pszKey := "host".toList, pszValue := "localhost".toList },
                            { pszKey := "port".toList, pszValue := "9090".toList },
                            { pszKey := "mtu".toList, pszValue := "1500".toList }] }) :=
  ⟨by decide, by decide,
   ((C11_set_value
      { pszName := "Network".toList,
        pKeyValue := [{ pszKey := "host".toList, pszValue := "localhost".toList },
                      { pszKey := "port".toList, pszValue := "8080".toList },
                      { pszKey := "mtu".toList, pszValue := "1500".toList }] }
      "port".toList "9090".toList (by decide) (by decide)).2
      [{ pszKey := "host".toList, pszValue := "localhost".toList }]
      [{ pszKey := "mtu".toList, pszValue := "1500".toList }]
      "8080".toList rfl (by decide)).1⟩

/-! ## Failed calls of the mutation API -/

theorem add_section_alloc_served (pConfig : CONFIG_INI) (pszName : List Char) :
    ini_cfg_add_section_alloc (fun _ => 0) pConfig pszName
      = ini_cfg_add_section pConfig pszName := by
  simp [ini_cfg_add_section_alloc, ini_cfg_add_section]

theorem add_key_alloc_served (pSection : SECTION_INI) (pszKey pszValue : List Char) :
    ini_cfg_add_key_alloc (fun _ => 0) pSection pszKey pszValue
      = ini_cfg_add_key pSection pszKey pszValue := by
  simp [ini_cfg_add_key_alloc, ini_cfg_add_key]

theorem set_value_alloc_served (pSection : SECTION_INI) (pszKey pszValue : List Char) :
    ini_cfg_set_value_alloc (fun _ => 0) pSection pszKey pszValue
      = ini_cfg_set_value pSection pszKey pszValue := by
  simp [ini_cfg_set_value_alloc, ini_cfg_set_value]

/-- C12: whatever the allocator answers, whenever `ini_cfg_add_section`,
`ini_cfg_add_key`, `ini_cfg_set_value`, `ini_cfg_delete_key` or
`ini_cfg_delete_sections` returns a non-zero code, the document (for the calls
on a section: the section) it leaves is the one it was given. -/
theorem C12_failed_call_changes_nothing (alloc : Nat → Nat) (pConfig : CONFIG_INI)
    (S : SECTION_INI) (configMem : CONFIG_MEM) (sectionMem : SECTION_MEM)
    (name key value : List Char) :
    ((ini_cfg_add_section_alloc alloc pConfig name).1 ≠ 0 →
      (ini_cfg_add_section_alloc alloc pConfig name).2.1 = pConfig) ∧
    ((ini_cfg_add_key_alloc alloc S key value).1 ≠ 0 →
      (ini_cfg_add_key_alloc alloc S key value).2 = S) ∧
    ((ini_cfg_set_value_alloc alloc S key value).1 ≠ 0 →
      (ini_cfg_set_value_alloc alloc S key value).2 = S) ∧
    ((ini_cfg_delete_key sectionMem key).1 ≠ 0 →
      (ini_cfg_delete_key sectionMem key).2 = sectionMem) ∧
    ((ini_cfg_delete_sections configMem name).1 ≠ 0 →
      (ini_cfg_delete_sections configMem name).2 = configMem) := by
  refine ⟨?_, ?_, ?_, ?_, ?_⟩
  · unfold ini_cfg_add_section_alloc
    intro h
    split
    · rfl
    · split
      · rfl
      · split
        · rfl
        · rename_i h1 h2 h3
          simp [h1, h2, h3] at h
  · unfold ini_cfg_add_key_alloc
    intro h
    split
    · rfl
    · split
      · rfl
      · split
        · rfl
        · split
          · rfl
          · split
            · rfl
            · rename_i h1 h2 h3 h4 h5
              simp [h1, h2, h3, h4, h5] at h
  · unfold ini_cfg_set_value_alloc
    intro h
    split
    · rfl
    · split
      · rfl
      · split
        · rfl
        · rename_i h1 h2 h3
          simp [h1, h2, h3] at h
  · unfold ini_cfg_delete_key
    intro h
    split
    · rfl
    · rename_i h1
      simp [h1] at h
  · unfold ini_cfg_delete_sections
    intro h
    split
    · rfl
    · rename_i h1
      simp [h1] at h

/-- Witness of C12: the second allocation request of `ini_cfg_add_section`
fails with `ENOMEM`; `ini_cfg_add_key` meets the key `host` again;
`ini_cfg_set_value` does not find `port`; both deletions are given an empty
name. -/
theorem C12_failed_call_changes_nothing_witness :
    ini_cfg_add_section_alloc (fun i => if i = 1 then ENOMEM else 0)
        { pszPath := "net.conf".toList,
          pSection := [{ pszName := "Network".toList, pKeyValue := [] }] } "Route".toList
      = (ENOMEM,
         { pszPath := "net.conf".toList,
           pSection := [{ pszName := "Network".toList, pKeyValue := [] }] }, none) ∧
    (ini_cfg_add_key_alloc (fun i => if i = 1 then ENOMEM else 0)
        { pszName := "Network".toList,
          pKeyValue := [{ pszKey := "host".toList, pszValue := "localhost".toList }] }
        "host".toList "example".toList).1 ≠ 0 ∧
    (ini_cfg_add_key_alloc (fun i => if i = 1 then ENOMEM else 0)
        { pszName := "Network".toList,
          pKeyValue := [{ pszKey := "host".toList, pszValue := "localhost".toList }] }
        "host".toList "example".toList).2
      = { pszName := "Network".toList,
          pKeyValue := [{ pszKey := "host".toList, pszValue := "localhost".toList }] } :=
  have h := C12_failed_call_changes_nothing (fun i => if i = 1 then ENOMEM else 0)
    { pszPath := "net.conf".toList,
      pSection := [{ pszName := "Network".toList, pKeyValue := [] }] }
    { pszName := "Network".toList,
      pKeyValue := [{ pszKey := "host".toList, pszValue := "localhost".toList }] }
    (config_mem []) (section_mem { pszName := "Network".toList, pKeyValue := [] })
    "Route".toList "host".toList "example".toList
  ⟨by decide, by decide, h.2.1 (by decide)⟩

/-! ## The bytes of a saved file -/

theorem save_keyvalues_eq (l : List KEYVALUE_INI) :
    save_keyvalues l
      = (l.map (fun kv =>
          kv.pszKey ++ "=".toList ++ kv.pszValue ++ "\n".toList)).flatten := by
  induction l with
  | nil => rfl
  | cons kv rest ih => simp [save_keyvalues, ih]

theorem save_sections_eq (l : List SECTION_INI) : save_sections l = saved_bytes l := by
  induction l with
  | nil => rfl
  | cons s rest ih =>
    simp only [saved_bytes] at ih
    simp [save_sections, saved_bytes, ih, save_keyvalues_eq]

/-- C14: the content `ini_cfg_save` leaves at a non-empty path is, for each
section in document order, `\n[name]\n` followed by `key=value\n` for each of
its entries in order, and nothing else; a document without sections gives an
empty file, and the first byte written for any other document is the newline
that makes the blank line before the first header. -/
theorem C14_saved_bytes (pszPath : List Char) (pConfig : CONFIG_INI) :
    ini_cfg_save pszPath pConfig
      = (if pszPath = [] then (EINVAL, none)
         else (0, some (saved_bytes pConfig.pSection))) ∧
    saved_bytes [] = [] ∧
    saved_bytes
        [{ pszName := "Network".toList,
           pKeyValue := [{ pszKey := "host".toList, pszValue := "localhost".toList },
                         { pszKey := "port".toList, pszValue := "8080".toList }] },
         { pszName := "Route".toList, pKeyValue := [] }]
      = "\n[Network]\nhost=localhost\nport=8080\n\n[Route]\n".toList := by
  refine ⟨?_, rfl, by decide⟩
  unfold ini_cfg_save
  rw [save_sections_eq]

/-! ## What a load hands back -/

theorem add_section_success {pConfig : CONFIG_INI} {pszName : List Char}
    (h : (ini_cfg_add_section pConfig pszName).1 = 0) :
    (ini_cfg_add_section pConfig pszName).2.1
      = { pszPath := pConfig.pszPath,
          pSection := pConfig.pSection ++ [{ pszName := pszName, pKeyValue := [] }] } := by
  unfold ini_cfg_add_section at h ⊢
  split at h
  · simp [EINVAL] at h
  · rename_i hne
    simp [hne, link_at_tail_eq_append]

theorem valid_section_of_header {line name : List Char} (h : IsSectionHeader line name) :
    ValidSection { pszName := name, pKeyValue := [] } := by
  obtain ⟨_, _, _, _, _, _, _, _, hne, halpha, _⟩ := h
  exact ⟨hne, halpha, by simp, by simp⟩

theorem valid_section_add_key {S : SECTION_INI} {line key value : List Char}
    (hS : ValidSection S) (hkv : IsKeyValueLine line key value)
    (hfresh : find_key_scan key S.pKeyValue = none) :
    ValidSection
      { pszName := S.pszName,
        pKeyValue := S.pKeyValue ++ [{ pszKey := key, pszValue := value }] } := by
  obtain ⟨_, _, _, _, _, _, _, _, hk, hkey, hv, hvalue, _⟩ := hkv
  obtain ⟨h1, h2, h3, h4⟩ := hS
  refine ⟨h1, h2, ?_, ?_⟩
  · intro kv hmem
    rcases List.mem_append.mp hmem with hmem | hmem
    · exact h3 kv hmem
    · simp only [List.mem_singleton] at hmem
      subst hmem
      exact ⟨hk, hkey, hv, hvalue⟩
  · have hnot := (find_key_scan_none_iff key S.pKeyValue).mp hfresh
    simp only [List.map_append, List.map_cons, List.map_nil]
    rw [List.nodup_append]
    refine ⟨h4, by simp, ?_⟩
    intro a ha hb
    simp only [List.mem_singleton] at hb
    subst hb
    obtain ⟨kv, hkvmem, hkveq⟩ := List.mem_map.mp ha
    exact hnot kv hkvmem hkveq

/-- What the read loop hands back: no document, or the code 0 with a document
that keeps the path and whose sections are valid when those it started from
are. -/
theorem read_lines_result (errno : Nat) :
    ∀ (fuel : Nat) (unread : List Char) (eof : Bool) (pConfig : CONFIG_INI)
      (pSection : Option Nat) (r : Nat × Option CONFIG_INI),
      (∀ s ∈ pConfig.pSection, ValidSection s) →
      read_lines errno fuel unread eof pConfig pSection = some r →
      r.2 = none ∨
        (r.1 = 0 ∧ ∃ doc, r.2 = some doc ∧ doc.pszPath = pConfig.pszPath ∧
          ∀ s ∈ doc.pSection, ValidSection s) := by
  intro fuel
  induction fuel with
  | zero => intro _ _ _ _ _ _ h; simp [read_lines] at h
  | succ fuel ih =>
    intro unread eof pConfig pSection r hvalid h
    simp only [read_lines] at h
    split at h
    · simp only [Option.some.injEq] at h
      subst h
      exact Or.inr ⟨rfl, pConfig, rfl, rfl, hvalid⟩
    · split at h
      · simp only [Option.some.injEq] at h
        subst h
        exact Or.inl rfl
      · split at h
        · exact ih _ _ _ _ _ hvalid h
        · split at h
          · exact ih _ _ _ _ _ hvalid h
          · split at h
            · split at h
              · simp only [Option.some.injEq] at h
                subst h
                exact Or.inl rfl
              · rename_i pszName hparse
                split at h
                · simp only [Option.some.injEq] at h
                  subst h
                  exact Or.inl rfl
                · rename_i herr
                  simp only [ne_eq, Decidable.not_not] at herr
                  have hcfg := @add_section_success pConfig pszName herr
                  have hnew : ∀ s ∈ (ini_cfg_add_section pConfig pszName).2.1.pSection,
                      ValidSection s := by
                    rw [hcfg]
                    intro s hs
                    rcases List.mem_append.mp hs with hs | hs
                    · exact hvalid s hs
                    · simp only [List.mem_singleton] at hs
                      subst hs
                      exact valid_section_of_header (section_name_sound hparse)
                  have hres := ih _ _ _ _ _ hnew h
                  rw [hcfg] at hres
                  exact hres
            · split at h
              · simp only [Option.some.injEq] at h
                subst h
                exact Or.inl rfl
              · rename_i p
                split at h
                · simp only [Option.some.injEq] at h
                  subst h
                  exact Or.inl rfl
                · rename_i pszKey pszValue hparse
                  split at h
                  · cases h
                  · rename_i section1 hget
                    split at h
                    · simp only [Option.some.injEq] at h
                      subst h
                      exact Or.inl rfl
                    · rename_i herr
                      simp only [ne_eq, Decidable.not_not] at herr
                      obtain ⟨_, _, hfresh, hS1⟩ := add_key_success herr
                      have hsec : ValidSection section1 :=
                        hvalid section1 (List.getElem?_mem hget)
                      have hnew : ∀ s ∈ (pConfig.pSection.set p
                          (ini_cfg_add_key section1 pszKey pszValue).2), ValidSection s := by
                        intro s hs
                        rcases List.mem_or_eq_of_mem_set hs with hs | hs
                        · exact hvalid s hs
                        · rw [hs, hS1]
                          exact valid_section_add_key hsec (key_value_sound hparse) hfresh
                      exact ih _ _
                        { pszPath := pConfig.pszPath,
                          pSection := pConfig.pSection.set p
                            (ini_cfg_add_key section1 pszKey pszValue).2 } _ _ hnew h

theorem read_lines_alloc_served (errno : Nat) :
    ∀ (fuel n : Nat) (unread : List Char) (eof : Bool) (pConfig : CONFIG_INI)
      (pSection : Option Nat),
      read_lines_alloc errno (fun _ => 0) fuel n unread eof pConfig pSection
        = read_lines errno fuel unread eof pConfig pSection := by
  intro fuel
  induction fuel with
  | zero => intro _ _ _ _ _; rfl
  | succ fuel ih =>
    intro n unread eof pConfig pSection
    simp only [read_lines_alloc, read_lines, ih, ne_eq, not_true_eq_false, if_false,
      add_section_alloc_served, add_key_alloc_served]

/-- With an allocator that serves every request the two embeddings of
`ini_cfg_read` agree. -/
theorem ini_cfg_read_alloc_served (errno : Nat) (pszPath : List Char)
    (file : Option (List Char)) :
    ini_cfg_read_alloc errno (fun _ => 0) pszPath file = ini_cfg_read errno pszPath file := by
  simp only [ini_cfg_read_alloc, ini_cfg_read, read_lines_alloc_served, ne_eq,
    not_true_eq_false, if_false]

theorem add_section_alloc_pointer (alloc : Nat → Nat) (pConfig : CONFIG_INI)
    (pszName : List Char)
    (herr : (ini_cfg_add_section_alloc alloc pConfig pszName).1 = 0) :
    ∀ p, (ini_cfg_add_section_alloc alloc pConfig pszName).2.2 = some p →
      p < (ini_cfg_add_section_alloc alloc pConfig pszName).2.1.pSection.length := by
  unfold ini_cfg_add_section_alloc at herr ⊢
  split
  · rename_i h; simp [h, EINVAL] at herr
  · split
    · rename_i h1 h2; simp [h1, h2] at herr
    · split
      · rename_i h1 h2 h3; simp [h1, h2, h3] at herr
      · intro p hp
        simp only [Option.some.injEq] at hp
        subst hp
        simp [link_at_tail_eq_append]

/-- The loop with an allocator that may fail returns, and what it returns is
the code 0 or a null document. -/
theorem read_lines_alloc_result (errno : Nat) (alloc : Nat → Nat) :
    ∀ (fuel n : Nat) (unread : List Char) (eof : Bool) (pConfig : CONFIG_INI)
      (pSection : Option Nat),
      unread.length < fuel →
      (∀ p, pSection = some p → p < pConfig.pSection.length) →
      ∃ r, read_lines_alloc errno alloc fuel n unread eof pConfig pSection = some r ∧
        (r.1 = 0 ∨ r.2 = none) := by
  intro fuel
  induction fuel with
  | zero => intro _ unread _ _ _ hlen; omega
  | succ fuel ih =>
    intro n unread eof pConfig pSection hlen hptr
    cases eof with
    | true => exact ⟨(0, some pConfig), by simp [read_lines_alloc], Or.inl rfl⟩
    | false =>
      rcases fgets_progress unread with hgets | ⟨buffer, unread1, eof1, hgets, hlen1⟩
      · exact ⟨(errno, none), by simp [read_lines_alloc, hgets], Or.inr rfl⟩
      · have hfuel : unread1.length < fuel := by omega
        simp only [read_lines_alloc, hgets, Bool.false_eq_true, if_false]
        split
        · exact ih _ unread1 eof1 pConfig pSection hfuel hptr
        · split
          · exact ih _ unread1 eof1 pConfig pSection hfuel hptr
          · split
            · split
              · exact ⟨_, rfl, Or.inr rfl⟩
              · rename_i pszName _
                split
                · exact ⟨_, rfl, Or.inr rfl⟩
                · split
                  · exact ⟨_, rfl, Or.inr rfl⟩
                  · rename_i herr
                    simp only [ne_eq, Decidable.not_not] at herr
                    exact ih _ unread1 eof1 _ _ hfuel
                      (add_section_alloc_pointer _ pConfig pszName herr)
            · split
              · exact ⟨_, rfl, Or.inr rfl⟩
              · rename_i p
                split
                · exact ⟨_, rfl, Or.inr rfl⟩
                · split
                  · exact ⟨_, rfl, Or.inr rfl⟩
                  · split
                    · exact ⟨_, rfl, Or.inr rfl⟩
                    · split
                      · rename_i hget
                        have := hptr p rfl
                        simp [List.getElem?_eq_none_iff] at hget
                        omega
                      · split
                        · exact ⟨_, rfl, Or.inr rfl⟩
                        · apply ih _ unread1 eof1 _ (some p) hfuel
                          intro q hq
                          simpa using hptr q hq

/-- C17: whatever the allocator answers, `ini_cfg_read` returns, and whenever
the code it returns is not 0 the document it hands back is null: a failed
open, a null `fgets`, a line either recognizer refuses, a key-value line before
any header, a repeated key and a refused allocation all leave through `error`.
The same holds of the embedding in which every allocation is served. -/
theorem C17_failed_load_gives_no_document (errno : Nat) (alloc : Nat → Nat)
    (pszPath : List Char) (file : Option (List Char)) :
    (∃ err doc, ini_cfg_read_alloc errno alloc pszPath file = some (err, doc) ∧
      (err = 0 ∨ doc = none)) ∧
    (∃ err doc, ini_cfg_read errno pszPath file = some (err, doc) ∧
      (err = 0 ∨ doc = none)) := by
  have hgen : ∀ a : Nat → Nat, ∃ err doc,
      ini_cfg_read_alloc errno a pszPath file = some (err, doc) ∧ (err = 0 ∨ doc = none) := by
    intro a
    unfold ini_cfg_read_alloc
    split
    · exact ⟨_, _, rfl, Or.inr rfl⟩
    · split
      · exact ⟨_, _, rfl, Or.inr rfl⟩
      · split
        · exact ⟨_, _, rfl, Or.inr rfl⟩
        · split
          · exact ⟨_, _, rfl, Or.inr rfl⟩
          · rename_i content _ _
            obtain ⟨r, hr, hres⟩ := read_lines_alloc_result errno a (content.length + 1) 2
              content false { pszPath := pszPath, pSection := [] } none (by omega) (by simp)
            exact ⟨r.1, r.2, hr, hres⟩
  refine ⟨hgen alloc, ?_⟩
  have h := hgen (fun _ => 0)
  rw [ini_cfg_read_alloc_served] at h
  exact h

/-- C20: a document `ini_cfg_read` hands back comes with the code 0, and each
of its sections has a non-empty alphabetic name, entries with a non-empty
alphanumeric key and a non-empty value without whitespace, and no key twice;
the file `[Network]`, `host=a`, `host=b` fails to load with `EEXIST`. -/
theorem C20_loaded_document_valid (errno : Nat) (pszPath : List Char)
    (file : Option (List Char)) (err : Nat) (doc : CONFIG_INI)
    (h : ini_cfg_read errno pszPath file = some (err, some doc)) :
    err = 0 ∧ (∀ s ∈ doc.pSection, ValidSection s) ∧
    ini_cfg_read errno "net.conf".toList (some "[Network]\nhost=a\nhost=b".toList)
      = some (EEXIST, none) := by
  refine ⟨?_, ?_, by rfl⟩
  all_goals
    unfold ini_cfg_read at h
    split at h
    · simp at h
    · split at h
      · simp at h
      · rcases read_lines_result errno _ _ _ _ _ _ (by simp) h with h1 | ⟨h1, d, h2, _, h3⟩
        · simp at h1
        · simp only [Option.some.injEq] at h2
          subst h2
          first | exact h1 | exact h3

/-- Witness of C20: the file `[Network]`, `host=localhost`, `port=8080` loads
and its section is valid. -/
theorem C20_loaded_document_valid_witness :
    ini_cfg_read 0 "net.conf".toList (some "[Network]\nhost=localhost\nport=8080".toList)
      = some (0, some
          { pszPath := "net.conf".toList,
            pSection :=
              [{ pszName := "Network".toList,
                 pKeyValue := [{ pszKey := "host".toList, pszValue := "localhost".toList },
                               { pszKey := "port".toList, pszValue := "8080".toList }] }] }) ∧
    ValidSection
      { pszName := "Network".toList,
        pKeyValue := [{ pszKey := "host".toList, pszValue := "localhost".toList },
                      { pszKey := "port".toList, pszValue := "8080".toList }] } :=
  ⟨by rfl,
   (C20_loaded_document_valid 0 "net.conf".toList
      (some "[Network]\nhost=localhost\nport=8080".toList) 0
      { pszPath := "net.conf".toList,
        pSection :=
          [{ pszName := "Network".toList,
             pKeyValue := [{ pszKey := "host".toList, pszValue := "localhost".toList },
                           { pszKey := "port".toList, pszValue := "8080".toList }] }] }
      (by rfl)).2.1 _ (by simp)⟩

/-! ## The first line that is not skipped -/

/-- The loop over the leading lines of a file, each ended by a newline and
read as the specification reads it, comes to the rest of the file with the
sections those lines load. -/
theorem read_lines_prefix (errno : Nat) (path tail : List Char) :
    ∀ (lines : List (List Char)) (secs secs2 : List SECTION_INI) (fuel : Nat),
      (∀ line ∈ lines, FitsBuffer line) →
      LoadsLines secs lines secs2 →
      read_lines errno (fuel + lines.length) (file_of_lines lines tail) false
          { pszPath := path, pSection := secs } (last_section secs)
        = read_lines errno fuel tail false
            { pszPath := path, pSection := secs2 } (last_section secs2) := by
  intro lines
  induction lines with
  | nil =>
    intro secs secs2 fuel _ hloads
    cases hloads
    rfl
  | cons line rest ih =>
    intro secs secs2 fuel hfit hloads
    cases hloads with
    | step _ secs1 _ _ _ hline hrest =>
      have hl : FitsBuffer line := hfit line (by simp)
      have hnul : ∀ c ∈ line ++ ['\n'], c.toNat ≠ 0 := by
        intro c hc
        rcases List.mem_append.mp hc with hc | hc
        · exact hl.2.2 c hc
        · simp at hc; subst hc; decide
      have hfuel : fuel + (line :: rest).length = (fuel + rest.length) + 1 := by
        simp; omega
      rw [hfuel, file_of_lines,
        read_lines_body errno (fuel + rest.length) _ (line ++ ['\n'])
          (file_of_lines rest tail) false path secs secs1
          (fgets_line line _ hl.2.1 hl.1) hnul (loads_line_newline hline)]
      exact ih secs1 secs2 fuel (fun x hx => hfit x (by simp [hx])) hrest

theorem file_of_lines_length (lines : List (List Char)) (tail : List Char) :
    lines.length + tail.length ≤ (file_of_lines lines tail).length := by
  induction lines with
  | nil => simp [file_of_lines]
  | cons line rest ih => simp [file_of_lines]; omega

/-- The loop does not depend on the fuel once it has enough of it. -/
theorem read_lines_fuel (errno : Nat) :
    ∀ (fuel : Nat) (unread : List Char) (eof : Bool) (pConfig : CONFIG_INI)
      (pSection : Option Nat) (r : Nat × Option CONFIG_INI) (more : Nat),
      read_lines errno fuel unread eof pConfig pSection = some r →
      read_lines errno (fuel + more) unread eof pConfig pSection = some r := by
  intro fuel
  induction fuel with
  | zero => intro _ _ _ _ _ _ h; simp [read_lines] at h
  | succ fuel ih =>
    intro unread eof pConfig pSection r more h
    have hfuel : fuel + 1 + more = (fuel + more) + 1 := by omega
    rw [hfuel]
    simp only [read_lines] at h ⊢
    split
    · rename_i heof
      simpa [heof] using h
    · rename_i heof
      simp only [heof, if_false] at h
      split
      · rename_i hgets
        simpa [hgets] using h
      · rename_i buffer unread1 eof1 hgets
        simp only [hgets] at h
        split
        · rename_i hdrop
          simp only [hdrop] at h
          exact ih _ _ _ _ _ _ h
        · rename_i c rest hdrop
          simp only [hdrop] at h
          split
          · rename_i hc
            simp only [hc, if_true] at h
            exact ih _ _ _ _ _ _ h
          · rename_i hc
            simp only [hc, if_false] at h
            split
            · rename_i hc2
              simp only [hc2, if_true] at h ⊢
              split
              · rename_i err hparse
                simpa [hparse] using h
              · rename_i pszName hparse
                simp only [hparse] at h
                split
                · rename_i herr
                  simpa [herr] using h
                · rename_i herr
                  simp only [herr, if_false] at h
                  exact ih _ _ _ _ _ _ h
            · rename_i hc2
              simp only [hc2, if_false] at h
              split
              · simpa using h
              · rename_i p
                simp only at h
                split
                · rename_i err hparse
                  simpa [hparse] using h
                · rename_i pszKey pszValue hparse
                  simp only [hparse] at h
                  split
                  · rename_i hget
                    simp [hget] at h
                  · rename_i section1 hget
                    simp only [hget] at h
                    split
                    · rename_i herr
                      simpa [herr] using h
                    · rename_i herr
                      simp only [herr, if_false] at h
                      exact ih _ _ _ _ _ _ h

theorem suffix_after_non_space {A l w4 w : List Char} {X : List Char} {d : Char}
    (hA : A = X ++ [d]) (hd : isspace d = false)
    (hw : ∀ c ∈ w, isspace c = true)
    (h : l ++ w = A ++ w4) : ∃ w4a, l = A ++ w4a ∧ w4 = w4a ++ w := by
  rcases List.append_eq_append_iff.mp h with ⟨a1, hA1, hw1⟩ | ⟨c1, hl1, hw41⟩
  · -- `A = l ++ a1`, `w = a1 ++ w4`: `a1` is whitespace and ends `A`, so it is empty
    rcases List.eq_nil_or_concat a1 with rfl | ⟨L, b, rfl⟩
    · exact ⟨[], by simpa using hA1.symm, by simpa using hw1.symm⟩
    · exfalso
      have hb : isspace b = true := hw b (by rw [hw1]; simp)
      have h2 : X ++ [d] = (l ++ L) ++ [b] := by
        rw [← hA, hA1]; simp
      have h3 : [d] = [b] := List.append_inj_right' h2 rfl
      simp only [List.cons.injEq, and_true] at h3
      rw [h3, hb] at hd
      cases hd
  · exact ⟨c1, hl1, hw41⟩

theorem section_header_strip {l w name : List Char} (hw : ∀ c ∈ w, isspace c = true)
    (h : IsSectionHeader (l ++ w) name) : IsSectionHeader l name := by
  obtain ⟨w1, w2, w3, w4, h1, h2, h3, h4, hne, halpha, heq⟩ := h
  have hclose : isspace ']' = false := by decide
  obtain ⟨w4a, hl, hw4⟩ := suffix_after_non_space
    (rfl : w1 ++ ['['] ++ w2 ++ name ++ w3 ++ [']'] = (w1 ++ ['['] ++ w2 ++ name ++ w3) ++ [']'])
    hclose hw heq
  exact ⟨w1, w2, w3, w4a, h1, h2, h3,
    fun c hc => h4 c (by rw [hw4]; exact List.mem_append_left _ hc), hne, halpha, hl⟩

theorem key_value_strip {l w key value : List Char} (hw : ∀ c ∈ w, isspace c = true)
    (h : IsKeyValueLine (l ++ w) key value) : IsKeyValueLine l key value := by
  obtain ⟨w1, w2, w3, w4, h1, h2, h3, h4, hk, hkey, hv, hvalue, heq⟩ := h
  rcases List.eq_nil_or_concat value with hnil | ⟨V, d, hVd⟩
  · exact absurd hnil hv
  · have hVd2 : value = V ++ [d] := by simpa using hVd
    have hd : isspace d = false := hvalue d (by rw [hVd2]; simp)
    have hA : w1 ++ key ++ w2 ++ ['='] ++ w3 ++ value
        = (w1 ++ key ++ w2 ++ ['='] ++ w3 ++ V) ++ [d] := by
      rw [hVd2]; simp
    obtain ⟨w4a, hl, hw4⟩ := suffix_after_non_space hA hd hw heq
    exact ⟨w1, w2, w3, w4a, h1, h2, h3,
      fun c hc => h4 c (by rw [hw4]; exact List.mem_append_left _ hc),
      hk, hkey, hv, hvalue, hl⟩

theorem section_header_prepend {w l name : List Char} (hw : ∀ c ∈ w, isspace c = true)
    (h : IsSectionHeader l name) : IsSectionHeader (w ++ l) name := by
  obtain ⟨w1, w2, w3, w4, h1, h2, h3, h4, hne, halpha, rfl⟩ := h
  refine ⟨w ++ w1, w2, w3, w4, ?_, h2, h3, h4, hne, halpha, by simp⟩
  intro c hc
  rcases List.mem_append.mp hc with hc | hc
  · exact hw c hc
  · exact h1 c hc

theorem key_value_prepend {w l key value : List Char} (hw : ∀ c ∈ w, isspace c = true)
    (h : IsKeyValueLine l key value) : IsKeyValueLine (w ++ l) key value := by
  obtain ⟨w1, w2, w3, w4, h1, h2, h3, h4, hk, hkey, hv, hvalue, rfl⟩ := h
  refine ⟨w ++ w1, w2, w3, w4, ?_, h2, h3, h4, hk, hkey, hv, hvalue, by simp⟩
  intro c hc
  rcases List.mem_append.mp hc with hc | hc
  · exact hw c hc
  · exact h1 c hc

/-- The cursor the loop gets on a line that is neither blank nor a comment. -/
theorem cursor_of_line {l : List Char} (h : ¬ IsBlankOrComment l) :
    ∃ c rest, l.dropWhile isspace = c :: rest ∧ c ≠ '#' := by
  have hsplit := List.takeWhile_append_dropWhile isspace l
  cases hdrop : l.dropWhile isspace with
  | nil =>
    exfalso
    apply h
    left
    exact dropWhile_eq_nil_all hdrop
  | cons c rest =>
    refine ⟨c, rest, rfl, ?_⟩
    intro hc
    apply h
    right
    refine ⟨l.takeWhile isspace, rest, fun x hx => List.mem_takeWhile_imp hx, ?_⟩
    rw [← hc, ← hdrop, hsplit]

/-- What `fgets` stores for a first line that fits the buffer: the line, with
its newline when it has one. -/
theorem fgets_first_line (l tail : List Char) (hfit : FitsBuffer l) (hne : l ≠ [])
    (htail : tail = [] ∨ ∃ r, tail = '\n' :: r) :
    ∃ w unread1 eof1, fgets 1024 (l ++ tail) = (some (l ++ w), unread1, eof1) ∧
      (∀ c ∈ w, isspace c = true) ∧ (∀ c ∈ l ++ w, c.toNat ≠ 0) := by
  rcases htail with rfl | ⟨r, rfl⟩
  · refine ⟨[], [], true, ?_, by simp, by simpa using hfit.2.2⟩
    simpa using fgets_last l hfit.2.1 hfit.1 hne
  · refine ⟨['\n'], r, false, fgets_line l r hfit.2.1 hfit.1, by decide, ?_⟩
    intro c hc
    rcases List.mem_append.mp hc with hc | hc
    · exact hfit.2.2 c hc
    · simp at hc; subst hc; decide

theorem dropWhile_append_cursor {l w rest : List Char} {c : Char}
    (h : l.dropWhile isspace = c :: rest) :
    (l ++ w).dropWhile isspace = c :: (rest ++ w) := by
  rw [List.dropWhile_append, h]
  simp

theorem not_blank_ne_nil {l : List Char} (h : ¬ IsBlankOrComment l) : l ≠ [] := by
  intro hnil
  apply h
  left
  rw [hnil]
  simp

/-- A key-value line met while no section has been added: the loop fails with
`EBADMSG`. -/
theorem read_lines_structural (errno fuel : Nat) (l tail : List Char) (pConfig : CONFIG_INI)
    (hfit : FitsBuffer l) (hline : ¬ IsBlankOrComment l)
    (htail : tail = [] ∨ ∃ r, tail = '\n' :: r)
    (hopen : (l.dropWhile isspace).head? ≠ some '[') :
    read_lines errno (fuel + 1) (l ++ tail) false pConfig none = some (EBADMSG, none) := by
  obtain ⟨c, rest, hdrop, hc⟩ := cursor_of_line hline
  obtain ⟨w, unread1, eof1, hgets, _, hnul⟩ :=
    fgets_first_line l tail hfit (not_blank_ne_nil hline) htail
  have hc2 : c ≠ '[' := by
    intro h; apply hopen; rw [hdrop, h]; rfl
  simp only [read_lines, hgets, c_string_of_no_nul _ hnul, dropWhile_append_cursor hdrop,
    Bool.false_eq_true, if_false, hc, hc2]

/-- A line that opens with `[` and is not a header: the loop fails with
`EBADMSG`. -/
theorem read_lines_bad_header (errno fuel : Nat) (l tail : List Char) (pConfig : CONFIG_INI)
    (pSection : Option Nat)
    (hfit : FitsBuffer l) (hline : ¬ IsBlankOrComment l)
    (htail : tail = [] ∨ ∃ r, tail = '\n' :: r)
    (hopen : (l.dropWhile isspace).head? = some '[')
    (hbad : ∀ name, ¬ IsSectionHeader l name) :
    read_lines errno (fuel + 1) (l ++ tail) false pConfig pSection
      = some (EBADMSG, none) := by
  obtain ⟨c, rest, hdrop, hc⟩ := cursor_of_line hline
  obtain ⟨w, unread1, eof1, hgets, hw, hnul⟩ :=
    fgets_first_line l tail hfit (not_blank_ne_nil hline) htail
  have hc2 : c = '[' := by
    rw [hdrop] at hopen
    simpa using hopen
  have hsharp : ('[' : Char) ≠ '#' := by decide
  have hcur : (l ++ w).dropWhile isspace = c :: (rest ++ w) := dropWhile_append_cursor hdrop
  have hparse : ini_cfg_parse_section_name (c :: (rest ++ w)) = .error EBADMSG := by
    cases hres : ini_cfg_parse_section_name (c :: (rest ++ w)) with
    | error err => rw [section_name_error_code hres]
    | ok name =>
      exfalso
      have h1 := section_name_sound hres
      have h2 : IsSectionHeader (l ++ w) name := by
        have := section_header_prepend
          (fun x hx => List.mem_takeWhile_imp hx : ∀ x ∈ (l ++ w).takeWhile isspace, _) h1
        rw [← hcur, List.takeWhile_append_dropWhile] at this
        exact this
      exact hbad name (section_header_strip hw h2)
  subst hc2
  simp only [read_lines, hgets, c_string_of_no_nul _ hnul, hcur, Bool.false_eq_true, if_false,
    hsharp, if_true, hparse]

/-- A line met after a header that neither opens with `[` nor is a key-value
line: the loop fails with `EBADMSG`. -/
theorem read_lines_bad_key_value (errno fuel : Nat) (l tail : List Char)
    (pConfig : CONFIG_INI) (p : Nat)
    (hfit : FitsBuffer l) (hline : ¬ IsBlankOrComment l)
    (htail : tail = [] ∨ ∃ r, tail = '\n' :: r)
    (hopen : (l.dropWhile isspace).head? ≠ some '[')
    (hbad : ∀ key value, ¬ IsKeyValueLine l key value) :
    read_lines errno (fuel + 1) (l ++ tail) false pConfig (some p)
      = some (EBADMSG, none) := by
  obtain ⟨c, rest, hdrop, hc⟩ := cursor_of_line hline
  obtain ⟨w, unread1, eof1, hgets, hw, hnul⟩ :=
    fgets_first_line l tail hfit (not_blank_ne_nil hline) htail
  have hc2 : c ≠ '[' := by
    intro h; apply hopen; rw [hdrop, h]; rfl
  have hcur : (l ++ w).dropWhile isspace = c :: (rest ++ w) := dropWhile_append_cursor hdrop
  have hparse : ini_cfg_parse_key_value (c :: (rest ++ w)) = .error EBADMSG := by
    cases hres : ini_cfg_parse_key_value (c :: (rest ++ w)) with
    | error err => rw [key_value_error_code hres]
    | ok kv =>
      exfalso
      have h1 : IsKeyValueLine (c :: (rest ++ w)) kv.1 kv.2 := key_value_sound hres
      have h2 : IsKeyValueLine (l ++ w) kv.1 kv.2 := by
        have := key_value_prepend
          (fun x hx => List.mem_takeWhile_imp hx : ∀ x ∈ (l ++ w).takeWhile isspace, _) h1
        rw [← hcur, List.takeWhile_append_dropWhile] at this
        exact this
      exact hbad kv.1 kv.2 (key_value_strip hw h2)
  simp only [read_lines, hgets, c_string_of_no_nul _ hnul, hcur, Bool.false_eq_true, if_false,
    hc, hc2, hparse]

theorem loads_blank_lines (secs : List SECTION_INI) :
    ∀ (pre : List (List Char)), (∀ line ∈ pre, IsBlankOrComment line) →
      LoadsLines secs pre secs := by
  intro pre
  induction pre with
  | nil => intro _; exact LoadsLines.done secs
  | cons line rest ih =>
    intro h
    refine LoadsLines.step secs secs secs line rest ?_ (ih (fun x hx => h x (by simp [hx])))
    rcases h line (by simp) with hb | ⟨w, r, hw, rfl⟩
    · exact LoadsLine.blank _ _ hb
    · exact LoadsLine.comment _ _ _ hw

/-- `ini_cfg_read` on a file whose leading lines load: the loop comes to the
rest of the file with their sections and enough fuel. -/
theorem read_after_prefix (errno : Nat) (path tail : List Char) (lines : List (List Char))
    (secs : List SECTION_INI) (hpath : path ≠ [])
    (hfit : ∀ line ∈ lines, FitsBuffer line) (hloads : LoadsLines [] lines secs) :
    ∃ fuel, tail.length ≤ fuel ∧
      ini_cfg_read errno path (some (file_of_lines lines tail))
        = read_lines errno (fuel + 1) tail false
            { pszPath := path, pSection := secs } (last_section secs) := by
  have hlen := file_of_lines_length lines tail
  refine ⟨(file_of_lines lines tail).length - lines.length, by omega, ?_⟩
  have hfuel : (file_of_lines lines tail).length + 1
      = ((file_of_lines lines tail).length - lines.length + 1) + lines.length := by omega
  simp only [ini_cfg_read, hpath, if_false]
  rw [hfuel]
  exact read_lines_prefix errno path tail lines [] secs _ hfit hloads

/-- C13, as amended: when the lines before it fit the line buffer, hold no NUL
and are blank lines or comments, and the first line that is neither (itself
fitting the buffer and free of NUL) is not a section header, `ini_cfg_read`
fails with `EBADMSG` and hands back a null document, whatever follows that
line. -/
theorem C13_first_line_not_header (errno : Nat) (path : List Char)
    (pre : List (List Char)) (l tail : List Char)
    (hpath : path ≠ [])
    (hpre : ∀ line ∈ pre, FitsBuffer line ∧ IsBlankOrComment line)
    (hfit : FitsBuffer l) (hline : ¬ IsBlankOrComment l)
    (hnot : ∀ name, ¬ IsSectionHeader l name)
    (htail : tail = [] ∨ ∃ r, tail = '\n' :: r) :
    ini_cfg_read errno path (some (file_of_lines pre (l ++ tail)))
      = some (EBADMSG, none) := by
  obtain ⟨fuel, _, hread⟩ := read_after_prefix errno path (l ++ tail) pre [] hpath
    (fun line h => (hpre line h).1) (loads_blank_lines [] pre (fun line h => (hpre line h).2))
  rw [hread]
  by_cases hopen : (l.dropWhile isspace).head? = some '['
  · exact read_lines_bad_header errno fuel l tail _ _ hfit hline htail hopen hnot
  · exact read_lines_structural errno fuel l tail _ hfit hline htail hopen

theorem not_blank_or_comment_of_first {c : Char} {rest : List Char}
    (hc : isspace c = false) (hsharp : c ≠ '#') : ¬ IsBlankOrComment (c :: rest) := by
  rintro (hb | ⟨w, r, hw, heq⟩)
  · have := hb c (by simp)
    rw [hc] at this
    cases this
  · cases w with
    | nil =>
      simp only [List.nil_append, List.cons.injEq] at heq
      exact hsharp heq.1
    | cons a t =>
      simp only [List.cons_append, List.cons.injEq] at heq
      have := hw a (by simp)
      rw [← heq.1, hc] at this
      cases this

theorem not_header_without_bracket {l : List Char} (h : '[' ∉ l) (name : List Char) :
    ¬ IsSectionHeader l name := by
  rintro ⟨w1, w2, w3, w4, _, _, _, _, _, _, rfl⟩
  apply h
  simp

/-- Witness of C13: after a comment and a blank line the file goes on with
`key=value` and only then with a header. -/
theorem C13_first_line_not_header_witness :
    file_of_lines ["# network".toList, []] ("key=value".toList ++ "\n[Network]\n".toList)
      = "# network\n\nkey=value\n[Network]\n".toList ∧
    ini_cfg_read 0 "net.conf".toList (some "# network\n\nkey=value\n[Network]\n".toList)
      = some (EBADMSG, none) := by
  refine ⟨by decide, ?_⟩
  have h := C13_first_line_not_header 0 "net.conf".toList ["# network".toList, []]
    "key=value".toList "\n[Network]\n".toList (by decide)
    (by
      intro line hline
      simp only [List.mem_cons, List.mem_singleton, List.not_mem_nil, or_false] at hline
      rcases hline with rfl | rfl
      · exact ⟨⟨by decide, by decide, by decide⟩, Or.inr ⟨[], " network".toList, by simp, rfl⟩⟩
      · exact ⟨⟨by decide, by decide, by decide⟩, Or.inl (by simp)⟩)
    ⟨by decide, by decide, by decide⟩
    (not_blank_or_comment_of_first (by decide) (by decide))
    (not_header_without_bracket (by decide))
    (Or.inr ⟨"[Network]\n".toList, rfl⟩)
  exact h

/-! ## Lines that do not fit the line buffer -/

theorem fgets_scan_full (rest : List Char) :
    ∀ (chunk : List Char) (room : Nat), chunk.length = room → (∀ c ∈ chunk, c ≠ '\n') →
      fgets_scan room (chunk ++ rest) = (chunk, rest, false) := by
  intro chunk
  induction chunk with
  | nil =>
    intro room hlen _
    simp only [List.length_nil] at hlen
    subst hlen
    simp [fgets_scan]
  | cons c t ih =>
    intro room hlen hnl
    cases room with
    | zero => simp at hlen
    | succ k =>
      have hc : c ≠ '\n' := hnl c (by simp)
      have ht := ih k (by simpa using hlen) (fun x hx => hnl x (by simp [hx]))
      simp [fgets_scan, hc, ht]

/-- `fgets` on a line of 1023 characters or more: it stores the first 1023 and
leaves the rest of the line unread. -/
theorem fgets_full (chunk rest : List Char) (hlen : chunk.length = 1023)
    (hnl : ∀ c ∈ chunk, c ≠ '\n') :
    fgets 1024 (chunk ++ rest) = (some chunk, rest, false) := by
  have hne : chunk ≠ [] := by
    intro h; rw [h] at hlen; simp at hlen
  simp [fgets, fgets_scan_full rest chunk 1023 hlen hnl, hne]

/-- The first 1023 characters of a line, when they read as a blank line or a
comment, are skipped as a line of their own: the file loads as what follows
them does. -/
theorem read_skips_chunk (errno : Nat) (path chunk rest : List Char)
    (hlen : chunk.length = 1023) (hnl : ∀ c ∈ chunk, c ≠ '\n')
    (hnul : ∀ c ∈ chunk, c.toNat ≠ 0) (hskip : IsBlankOrComment chunk) :
    ini_cfg_read errno path (some (chunk ++ rest))
      = ini_cfg_read errno path (some rest) := by
  unfold ini_cfg_read
  split
  · rfl
  · have hline : LoadsLine [] chunk [] := by
      rcases hskip with hb | ⟨w, r, hw, rfl⟩
      · exact LoadsLine.blank _ _ hb
      · exact LoadsLine.comment _ _ _ hw
    have hfuel : (chunk ++ rest).length + 1 = (rest.length + 1 + 1022) + 1 := by
      simp [hlen]; omega
    simp only []
    rw [hfuel, ← last_section.eq_1,
      read_lines_body errno _ (chunk ++ rest) chunk rest false path [] []
        (fgets_full chunk rest hlen hnl) hnul hline]
    obtain ⟨r, hr⟩ := read_lines_returns errno (rest.length + 1) rest false
      { pszPath := path, pSection := [] } none (by omega) (by simp)
    rw [last_section.eq_1, hr]
    exact read_lines_fuel errno _ _ _ _ _ r 1022 hr

theorem mem_replicate_ne {n : Nat} {a b : Char} (hab : a ≠ b) :
    ∀ c ∈ List.replicate n a, c ≠ b := by
  intro c hc
  rw [List.eq_of_mem_replicate hc]
  exact hab

/-- Counterexample to C13: the first line is a comment of 1026 characters, `#`
followed by 1022 times `x` and by `[S]`; the second line, `k=v`, is the first
one that is neither blank nor a comment, and it is not a header.  The load
succeeds all the same, with a section `S` holding `k=v`, because the comment
is read in two pieces and the second piece is `[S]`. -/
theorem C13_counterexample :
    ('#' :: List.replicate 1022 'x' ++ "[S]".toList).length = 1026 ∧
    IsBlankOrComment ('#' :: List.replicate 1022 'x' ++ "[S]".toList) ∧
    ¬ IsBlankOrComment "k=v".toList ∧
    (∀ name, ¬ IsSectionHeader "k=v".toList name) ∧
    ini_cfg_read 0 "net.conf".toList
        (some (file_of_lines ['#' :: List.replicate 1022 'x' ++ "[S]".toList] "k=v".toList))
      = some (0, some
          { pszPath := "net.conf".toList,
            pSection := [{ pszName := "S".toList,
                           pKeyValue := [{ pszKey := "k".toList,
                                           pszValue := "v".toList }] }] }) := by
  have hnone : ∀ c ∈ ([] : List Char), isspace c = true := fun c hc => nomatch hc
  refine ⟨by rw [List.length_append, List.length_cons, List.length_replicate]; rfl,
    Or.inr ⟨[], List.replicate 1022 'x' ++ "[S]".toList, hnone, rfl⟩,
    not_blank_or_comment_of_first (by decide) (by decide),
    not_header_without_bracket (by decide), ?_⟩
  have hfile : file_of_lines ['#' :: List.replicate 1022 'x' ++ "[S]".toList] "k=v".toList
      = ('#' :: List.replicate 1022 'x') ++ "[S]\nk=v".toList := by
    show (('#' :: List.replicate 1022 'x') ++ "[S]".toList) ++ '\n' :: "k=v".toList = _
    rw [List.append_assoc]
    rfl
  rw [hfile, read_skips_chunk 0 "net.conf".toList ('#' :: List.replicate 1022 'x')
    "[S]\nk=v".toList (by rw [List.length_cons, List.length_replicate])
    (by
      intro c hc
      rcases List.mem_cons.mp hc with rfl | hc
      · decide
      · exact mem_replicate_ne (by decide) c hc)
    (by
      intro c hc
      rcases List.mem_cons.mp hc with rfl | hc
      · decide
      · rw [List.eq_of_mem_replicate hc]; decide)
    (Or.inr ⟨[], List.replicate 1022 'x', hnone, rfl⟩)]
  rfl

/-- Counterexample to C16: a file whose first line has 1026 characters, 1023
spaces followed by `[S]`, loads: the call returns 0 and the document with the
section `S` and its entry `k=v`, the line having been read in two pieces. -/
theorem C16_counterexample :
    (List.replicate 1023 ' ' ++ "[S]".toList).length = 1026 ∧
    ini_cfg_read 0 "net.conf".toList
        (some (file_of_lines [List.replicate 1023 ' ' ++ "[S]".toList] "k=v".toList))
      = some (0, some
          { pszPath := "net.conf".toList,
            pSection := [{ pszName := "S".toList,
                           pKeyValue := [{ pszKey := "k".toList,
                                           pszValue := "v".toList }] }] }) := by
  refine ⟨by rw [List.length_append, List.length_replicate]; rfl, ?_⟩
  have hfile : file_of_lines [List.replicate 1023 ' ' ++ "[S]".toList] "k=v".toList
      = List.replicate 1023 ' ' ++ "[S]\nk=v".toList := by
    show (List.replicate 1023 ' ' ++ "[S]".toList) ++ '\n' :: "k=v".toList = _
    rw [List.append_assoc]
    rfl
  rw [hfile, read_skips_chunk 0 "net.conf".toList (List.replicate 1023 ' ')
    "[S]\nk=v".toList (List.length_replicate _ _) (mem_replicate_ne (by decide))
    (by intro c hc; rw [List.eq_of_mem_replicate hc]; decide)
    (Or.inl (by intro c hc; rw [List.eq_of_mem_replicate hc]; decide))]
  rfl

/-- C16, as amended: a line of more than 1023 characters is not refused for
its length.  `fgets` stores its first 1023 characters and leaves the rest
unread, to be read as the next line; when those 1023 characters hold no NUL and
read as a blank line or a comment, `ini_cfg_read` returns for the file what it
returns for the file without them. -/
theorem C16_long_line_is_split (errno : Nat) (path chunk rest : List Char)
    (hlen : chunk.length = 1023) (hnl : ∀ c ∈ chunk, c ≠ '\n') :
    fgets 1024 (chunk ++ rest) = (some chunk, rest, false) ∧
    ((∀ c ∈ chunk, c.toNat ≠ 0) → IsBlankOrComment chunk →
      ini_cfg_read errno path (some (chunk ++ rest))
        = ini_cfg_read errno path (some rest)) :=
  ⟨fgets_full chunk rest hlen hnl,
   fun hnul hskip => read_skips_chunk errno path chunk rest hlen hnl hnul hskip⟩

/-- Witness of C16: 1023 spaces in front of `k=v extra`; the file fails as
`k=v extra` alone does, with `EBADMSG`. -/
theorem C16_long_line_is_split_witness :
    (List.replicate 1023 ' ').length = 1023 ∧
    ini_cfg_read 0 "net.conf".toList (some (List.replicate 1023 ' ' ++ "k=v extra".toList))
      = some (EBADMSG, none) := by
  refine ⟨List.length_replicate _ _, ?_⟩
  rw [(C16_long_line_is_split 0 "net.conf".toList (List.replicate 1023 ' ')
      "k=v extra".toList (List.length_replicate _ _) (mem_replicate_ne (by decide))).2
    (by intro c hc; rw [List.eq_of_mem_replicate hc]; decide)
    (Or.inl (by intro c hc; rw [List.eq_of_mem_replicate hc]; decide))]
  rfl

/-! ## The code of a refused line -/

/-- Counterexample to C19: the file `k=v`, a key-value line before any header,
and the file `[S]`, `k v`, whose second line violates the key-value grammar,
fail with one and the same code. -/
theorem C19_counterexample :
    ini_cfg_read 0 "net.conf".toList (some "k=v".toList) = some (EBADMSG, none) ∧
    ini_cfg_read 0 "net.conf".toList (some "[S]\nk v".toList) = some (EBADMSG, none) ∧
    ini_cfg_read 0 "net.conf".toList (some "[1S]".toList) = some (EBADMSG, none) := by
  refine ⟨by rfl, by rfl, by rfl⟩

/-- C19, as amended: after leading lines that load, a line `l` that is neither
blank nor a comment makes `ini_cfg_read` fail with `EBADMSG` and a null
document in each of three cases: no header has been read and `l` does not open
with `[` (a key-value line before every section); `l` opens with `[` and is
not a header; a header has been read and `l` neither opens with `[` nor is a
key-value line.  The code is the same in all three. -/
theorem C19_one_code_for_both (errno : Nat) (path : List Char) (lines : List (List Char))
    (secs : List SECTION_INI) (l tail : List Char)
    (hpath : path ≠ [])
    (hlines : ∀ line ∈ lines, FitsBuffer line) (hloads : LoadsLines [] lines secs)
    (hfit : FitsBuffer l) (hline : ¬ IsBlankOrComment l)
    (htail : tail = [] ∨ ∃ r, tail = '\n' :: r) :
    (secs = [] → (l.dropWhile isspace).head? ≠ some '[' →
      ini_cfg_read errno path (some (file_of_lines lines (l ++ tail)))
        = some (EBADMSG, none)) ∧
    ((l.dropWhile isspace).head? = some '[' → (∀ name, ¬ IsSectionHeader l name) →
      ini_cfg_read errno path (some (file_of_lines lines (l ++ tail)))
        = some (EBADMSG, none)) ∧
    (secs ≠ [] → (l.dropWhile isspace).head? ≠ some '[' →
      (∀ key value, ¬ IsKeyValueLine l key value) →
      ini_cfg_read errno path (some (file_of_lines lines (l ++ tail)))
        = some (EBADMSG, none)) := by
  obtain ⟨fuel, _, hread⟩ := read_after_prefix errno path (l ++ tail) lines secs hpath
    hlines hloads
  rw [hread]
  refine ⟨?_, ?_, ?_⟩
  · intro hsecs hopen
    subst hsecs
    exact read_lines_structural errno fuel l tail _ hfit hline htail hopen
  · intro hopen hbad
    exact read_lines_bad_header errno fuel l tail _ _ hfit hline htail hopen hbad
  · intro hsecs hopen hbad
    cases secs with
    | nil => exact absurd rfl hsecs
    | cons s rest =>
      exact read_lines_bad_key_value errno fuel l tail _ _ hfit hline htail hopen hbad

theorem not_key_value_without_equals {l : List Char} (h : '=' ∉ l) (key value : List Char) :
    ¬ IsKeyValueLine l key value := by
  rintro ⟨w1, w2, w3, w4, _, _, _, _, _, _, _, _, rfl⟩
  apply h
  simp

/-- Witness of C19: after the header `[S]` the line `k v` is no key-value
line; the load fails with `EBADMSG`, the code the file `k=v` alone fails
with. -/
theorem C19_one_code_for_both_witness :
    ini_cfg_read 0 "net.conf".toList (some (file_of_lines ["[S]".toList] "k v".toList))
      = some (EBADMSG, none) ∧
    ini_cfg_read 0 "net.conf".toList (some (file_of_lines [] "k=v".toList))
      = some (EBADMSG, none) := by
  have hheader : IsSectionHeader "[S]".toList "S".toList :=
    ⟨[], [], [], [], by decide, by decide, by decide, by decide, by decide, by decide,
      by decide⟩
  have h1 := (C19_one_code_for_both 0 "net.conf".toList ["[S]".toList]
    [{ pszName := "S".toList, pKeyValue := [] }] "k v".toList [] (by decide)
    (by
      intro line hline
      simp only [List.mem_singleton] at hline
      subst hline
      exact ⟨by decide, by decide, by decide⟩)
    (LoadsLines.step _ _ _ _ _ (LoadsLine.header [] _ _ hheader) (LoadsLines.done _))
    ⟨by decide, by decide, by decide⟩
    (not_blank_or_comment_of_first (by decide) (by decide))
    (Or.inl rfl)).2.2 (by decide) (by decide) (not_key_value_without_equals (by decide))
  have h2 := (C19_one_code_for_both 0 "net.conf".toList [] [] "k=v".toList [] (by decide)
    (by intro line hline; cases hline)
    (LoadsLines.done _)
    ⟨by decide, by decide, by decide⟩
    (not_blank_or_comment_of_first (by decide) (by decide))
    (Or.inl rfl)).1 rfl (by decide)
  simp only [List.append_nil] at h1 h2
  exact ⟨h1, h2⟩

/-! ## The last `fgets` -/

/-- A file whose lines all end with a newline, fit the buffer and load: the
loop reads them, calls `fgets` once more, and leaves with the value of `errno`
and a null document. -/
theorem read_file_ending_with_newline (errno : Nat) (path : List Char)
    (lines : List (List Char)) (secs : List SECTION_INI) (hpath : path ≠ [])
    (hfit : ∀ line ∈ lines, FitsBuffer line) (hloads : LoadsLines [] lines secs) :
    ini_cfg_read errno path (some (file_of_lines lines [])) = some (errno, none) := by
  obtain ⟨fuel, _, hread⟩ := read_after_prefix errno path [] lines secs hpath hfit hloads
  rw [hread]
  rfl

/-- C18 (the code at the failing input): with `errno` at 0, the file
`[Network]`, `host=localhost` with a newline after its last line, and the
empty file, make `ini_cfg_read` return 0 with a null document. -/
theorem C18_success_without_document :
    ini_cfg_read 0 "net.conf".toList (some "[Network]\nhost=localhost\n".toList)
      = some (0, none) ∧
    ini_cfg_read 0 "net.conf".toList (some []) = some (0, none) := by
  constructor <;> rfl

/-- C15 (the code at the failing input): the file `[S]`, `k=v` loads; with an
empty line after its last line, that is with a newline at its end, or with a
comment line and its newline after the last line, it does not: the call returns
the value of `errno` and a null document. -/
theorem C15_blank_line_after_last_line (errno : Nat) :
    ini_cfg_read errno "net.conf".toList (some "[S]\nk=v".toList)
      = some (0, some
          { pszPath := "net.conf".toList,
            pSection := [{ pszName := "S".toList,
                           pKeyValue := [{ pszKey := "k".toList,
                                           pszValue := "v".toList }] }] }) ∧
    ini_cfg_read errno "net.conf".toList (some "[S]\nk=v\n".toList) = some (errno, none) ∧
    ini_cfg_read errno "net.conf".toList (some "[S]\nk=v\n# end\n".toList)
      = some (errno, none) := by
  refine ⟨by rfl, by rfl, by rfl⟩

/-! ## Blank lines and comments between lines -/

/-- Two streams whose next buffer is the same and on whose rests the loop
agrees: the loop agrees on them. -/
theorem read_lines_congr (errno f f' : Nat) (u u' b u1 u1' : List Char) (e1 e1' : Bool)
    (hg : fgets 1024 u = (some b, u1, e1)) (hg' : fgets 1024 u' = (some b, u1', e1'))
    (hrec : ∀ cfg ps, read_lines errno f u1 e1 cfg ps = read_lines errno f' u1' e1' cfg ps)
    (cfg : CONFIG_INI) (ps : Option Nat) :
    read_lines errno (f + 1) u false cfg ps = read_lines errno (f' + 1) u' false cfg ps := by
  simp only [read_lines, hg, hg', hrec]

/-- A blank line or comment that fits the buffer is skipped, whatever has been
loaded. -/
theorem read_lines_skip (errno fuel : Nat) (b rest : List Char) (cfg : CONFIG_INI)
    (ps : Option Nat) (hfit : FitsBuffer b) (hskip : IsBlankOrComment b) :
    read_lines errno (fuel + 1) (b ++ '\n' :: rest) false cfg ps
      = read_lines errno fuel rest false cfg ps := by
  have hnul : ∀ c ∈ b ++ ['\n'], c.toNat ≠ 0 := by
    intro c hc
    rcases List.mem_append.mp hc with hc | hc
    · exact hfit.2.2 c hc
    · simp at hc; subst hc; decide
  have hgets := fgets_line b rest hfit.2.1 hfit.1
  have hcs := c_string_of_no_nul _ hnul
  rcases hskip with hb | ⟨w, r, hw, rfl⟩
  · have hdrop : (b ++ ['\n']).dropWhile isspace = [] := by
      rw [List.dropWhile_eq_nil_iff]
      intro c hc
      rcases List.mem_append.mp hc with hc | hc
      · exact hb c hc
      · simp at hc; subst hc; decide
    simp only [read_lines, hgets, hcs, hdrop, Bool.false_eq_true, if_false]
  · have hdrop : (w ++ '#' :: r ++ ['\n']).dropWhile isspace = '#' :: (r ++ ['\n']) := by
      have : w ++ '#' :: r ++ ['\n'] = w ++ ('#' :: (r ++ ['\n'])) := by simp
      rw [this]
      exact dropWhile_append_stop hw (by simp; decide)
    simp only [read_lines, hgets, hcs, hdrop, Bool.false_eq_true, if_false, if_true]

theorem read_lines_after_lines (errno : Nat) (X X' : List Char) (f f' : Nat)
    (hrec : ∀ cfg ps, read_lines errno f X false cfg ps = read_lines errno f' X' false cfg ps) :
    ∀ (pre : List (List Char)), (∀ line ∈ pre, FitsBuffer line) →
      ∀ cfg ps,
        read_lines errno (f + pre.length) (file_of_lines pre X) false cfg ps
          = read_lines errno (f' + pre.length) (file_of_lines pre X') false cfg ps := by
  intro pre
  induction pre with
  | nil => intro _ cfg ps; exact hrec cfg ps
  | cons line rest ih =>
    intro hfit cfg ps
    have hl : FitsBuffer line := hfit line (by simp)
    have h1 : f + (line :: rest).length = (f + rest.length) + 1 := by simp; omega
    have h2 : f' + (line :: rest).length = (f' + rest.length) + 1 := by simp; omega
    rw [h1, h2]
    simp only [file_of_lines]
    exact read_lines_congr errno _ _ _ _ (line ++ ['\n']) _ _ false false
      (fgets_line line _ hl.2.1 hl.1) (fgets_line line _ hl.2.1 hl.1)
      (ih (fun x hx => hfit x (by simp [hx]))) cfg ps

theorem file_of_lines_append (pre : List (List Char)) (b X : List Char) :
    file_of_lines (pre ++ [b]) X = file_of_lines pre (b ++ '\n' :: X) := by
  induction pre with
  | nil => rfl
  | cons line rest ih => simp [file_of_lines, ih]

/-- Inserting, after lines that fit the buffer, a blank line or a comment that
fits the buffer, with its newline, leaves what `ini_cfg_read` returns as it
was: the same code and the same document. -/
theorem read_insert_skipped_line (errno : Nat) (path : List Char) (pre : List (List Char))
    (b X : List Char) (hpre : ∀ line ∈ pre, FitsBuffer line) (hfit : FitsBuffer b)
    (hskip : IsBlankOrComment b) :
    ini_cfg_read errno path (some (file_of_lines (pre ++ [b]) X))
      = ini_cfg_read errno path (some (file_of_lines pre X)) := by
  rw [file_of_lines_append]
  unfold ini_cfg_read
  split
  · rfl
  · simp only []
    have hlen1 := file_of_lines_length pre X
    have hlen2 := file_of_lines_length pre (b ++ '\n' :: X)
    -- the loop on the shorter file, with its own fuel
    obtain ⟨r, hr⟩ := read_lines_returns errno ((file_of_lines pre X).length + 1)
      (file_of_lines pre X) false { pszPath := path, pSection := [] } none (by omega)
      (by simp)
    have hf : (file_of_lines pre X).length + 1
        = ((file_of_lines pre X).length + 1 - pre.length) + pre.length := by omega
    have hagree := read_lines_after_lines errno X (b ++ '\n' :: X)
      ((file_of_lines pre X).length + 1 - pre.length)
      ((file_of_lines pre X).length + 1 - pre.length + 1)
      (fun cfg ps => (read_lines_skip errno _ b X cfg ps hfit hskip).symm)
      pre hpre { pszPath := path, pSection := [] } none
    rw [← hf] at hagree
    rw [hr] at hagree
    have hmore := read_lines_fuel errno _ _ _ _ _ r
      ((file_of_lines pre (b ++ '\n' :: X)).length + 1
        - ((file_of_lines pre X).length + 1 - pre.length + 1 + pre.length)) hagree.symm
    have hlen3 : (file_of_lines pre (b ++ '\n' :: X)).length
        = (file_of_lines pre X).length + b.length + 1 := by
      clear hagree hmore hr hf hlen1 hlen2
      induction pre with
      | nil => simp [file_of_lines]; omega
      | cons line rest ih =>
        simp only [file_of_lines, List.length_append, List.length_cons]
        rw [ih (fun x hx => hpre x (by simp [hx]))]
        omega
    have hfuel : (file_of_lines pre X).length + 1 - pre.length + 1 + pre.length
        + ((file_of_lines pre (b ++ '\n' :: X)).length + 1
          - ((file_of_lines pre X).length + 1 - pre.length + 1 + pre.length))
        = (file_of_lines pre (b ++ '\n' :: X)).length + 1 := by omega
    rw [hfuel] at hmore
    rw [hmore, hr]

/-! ## Whitespace around a line -/

theorem section_header_append {l w name : List Char} (hw : ∀ c ∈ w, isspace c = true)
    (h : IsSectionHeader l name) : IsSectionHeader (l ++ w) name := by
  obtain ⟨w1, w2, w3, w4, h1, h2, h3, h4, hne, halpha, rfl⟩ := h
  refine ⟨w1, w2, w3, w4 ++ w, h1, h2, h3, ?_, hne, halpha, by simp⟩
  intro c hc
  rcases List.mem_append.mp hc with hc | hc
  · exact h4 c hc
  · exact hw c hc

theorem key_value_append {l w key value : List Char} (hw : ∀ c ∈ w, isspace c = true)
    (h : IsKeyValueLine l key value) : IsKeyValueLine (l ++ w) key value := by
  obtain ⟨w1, w2, w3, w4, h1, h2, h3, h4, hk, hkey, hv, hvalue, rfl⟩ := h
  refine ⟨w1, w2, w3, w4 ++ w, h1, h2, h3, ?_, hk, hkey, hv, hvalue, by simp⟩
  intro c hc
  rcases List.mem_append.mp hc with hc | hc
  · exact h4 c hc
  · exact hw c hc

theorem parse_section_name_congr {A B : List Char}
    (h : ∀ name, IsSectionHeader A name ↔ IsSectionHeader B name) :
    ini_cfg_parse_section_name A = ini_cfg_parse_section_name B := by
  cases hA : ini_cfg_parse_section_name A with
  | ok name =>
    exact (section_name_complete ((h name).mp (section_name_sound hA))).symm
  | error err =>
    cases hB : ini_cfg_parse_section_name B with
    | ok name =>
      have := section_name_complete ((h name).mpr (section_name_sound hB))
      rw [hA] at this
      cases this
    | error err2 =>
      rw [section_name_error_code hA, section_name_error_code hB]

theorem parse_key_value_congr {A B : List Char}
    (h : ∀ key value, IsKeyValueLine A key value ↔ IsKeyValueLine B key value) :
    ini_cfg_parse_key_value A = ini_cfg_parse_key_value B := by
  cases hA : ini_cfg_parse_key_value A with
  | ok kv =>
    exact (key_value_complete ((h kv.1 kv.2).mp (key_value_sound hA))).symm
  | error err =>
    cases hB : ini_cfg_parse_key_value B with
    | ok kv =>
      have := key_value_complete ((h kv.1 kv.2).mpr (key_value_sound hB))
      rw [hA] at this
      cases this
    | error err2 =>
      rw [key_value_error_code hA, key_value_error_code hB]

/-- Whitespace after a line does not change what the header recognizer
returns. -/
theorem parse_section_name_trailing (x w : List Char) (hw : ∀ c ∈ w, isspace c = true) :
    ini_cfg_parse_section_name (x ++ w) = ini_cfg_parse_section_name x :=
  parse_section_name_congr
    (fun _ => ⟨section_header_strip hw, section_header_append hw⟩)

/-- Whitespace after a line does not change what the key-value recognizer
returns. -/
theorem parse_key_value_trailing (x w : List Char) (hw : ∀ c ∈ w, isspace c = true) :
    ini_cfg_parse_key_value (x ++ w) = ini_cfg_parse_key_value x :=
  parse_key_value_congr
    (fun _ _ => ⟨key_value_strip hw, key_value_append hw⟩)

/-- Two buffers with the same cursor up to whitespace at its end: the loop
handles them alike. -/
theorem read_lines_same_cursor (errno f f' : Nat) (u u' b b' u1 u1' : List Char)
    (e1 e1' : Bool) (cur t t' : List Char)
    (hg : fgets 1024 u = (some b, u1, e1)) (hg' : fgets 1024 u' = (some b', u1', e1'))
    (hb : (c_string b).dropWhile isspace = cur ++ t)
    (hb' : (c_string b').dropWhile isspace = cur ++ t')
    (ht : ∀ c ∈ t, isspace c = true) (ht' : ∀ c ∈ t', isspace c = true)
    (hcur : cur ≠ [])
    (hrec : ∀ cfg ps, read_lines errno f u1 e1 cfg ps = read_lines errno f' u1' e1' cfg ps)
    (cfg : CONFIG_INI) (ps : Option Nat) :
    read_lines errno (f + 1) u false cfg ps = read_lines errno (f' + 1) u' false cfg ps := by
  cases cur with
  | nil => exact absurd rfl hcur
  | cons c r =>
    have hs : ini_cfg_parse_section_name (c :: r ++ t)
        = ini_cfg_parse_section_name (c :: r ++ t') := by
      rw [parse_section_name_trailing _ t ht, parse_section_name_trailing _ t' ht']
    have hk : ini_cfg_parse_key_value (c :: r ++ t)
        = ini_cfg_parse_key_value (c :: r ++ t') := by
      rw [parse_key_value_trailing _ t ht, parse_key_value_trailing _ t' ht']
    simp only [List.cons_append] at hb hb' hs hk
    simp only [read_lines, hg, hg', hb, hb', hs, hk, hrec]

/-- A line that is not all whitespace: whitespace, then a character that is
not whitespace, then the rest. -/
theorem split_at_cursor {l rest : List Char} {c : Char}
    (h : l.dropWhile isspace = c :: rest) :
    ∃ v, (∀ x ∈ v, isspace x = true) ∧ isspace c = false ∧ l = v ++ c :: rest := by
  refine ⟨l.takeWhile isspace, ?_, ?_, ?_⟩
  · intro x hx
    exact List.mem_takeWhile_imp hx
  · have := List.head_dropWhile_not isspace l
      (by rw [h]; exact List.cons_ne_nil _ _)
    simpa [h] using this
  · have := List.takeWhile_append_dropWhile isspace l
    rw [h] at this
    exact this.symm

/-- Two streams on which the loop agrees with some fuel: `ini_cfg_read` returns
the same on both. -/
theorem read_of_loop_agree (errno : Nat) (path U U' : List Char) (f f' : Nat)
    (hf : U.length < f)
    (h : read_lines errno f U false { pszPath := path, pSection := [] } none
      = read_lines errno f' U' false { pszPath := path, pSection := [] } none) :
    ini_cfg_read errno path (some U) = ini_cfg_read errno path (some U') := by
  unfold ini_cfg_read
  split
  · rfl
  · simp only []
    obtain ⟨r, hr⟩ := read_lines_returns errno (U.length + 1) U false
      { pszPath := path, pSection := [] } none (by omega) (by simp)
    obtain ⟨r', hr'⟩ := read_lines_returns errno (U'.length + 1) U' false
      { pszPath := path, pSection := [] } none (by omega) (by simp)
    have h1 := read_lines_fuel errno _ _ _ _ _ r (f - (U.length + 1)) hr
    have e1 : U.length + 1 + (f - (U.length + 1)) = f := by omega
    rw [e1, h] at h1
    have h2 := read_lines_fuel errno _ _ _ _ _ r (U'.length + 1) h1
    have h3 := read_lines_fuel errno _ _ _ _ _ r' f' hr'
    have e2 : U'.length + 1 + f' = f' + (U'.length + 1) := by omega
    rw [e2, h2] at h3
    rw [hr, hr', ← Option.some.inj h3]

/-- Whitespace before and after a line ended by a newline, the padded line
still fitting the buffer: the loop handles both alike. -/
theorem read_lines_padded (errno fuel : Nat) (w l w' rest : List Char)
    (hw : ∀ c ∈ w, isspace c = true) (hw' : ∀ c ∈ w', isspace c = true)
    (hfit : FitsBuffer (w ++ l ++ w')) (cfg : CONFIG_INI) (ps : Option Nat) :
    read_lines errno (fuel + 1) ((w ++ l ++ w') ++ '\n' :: rest) false cfg ps
      = read_lines errno (fuel + 1) (l ++ '\n' :: rest) false cfg ps := by
  have hfitl : FitsBuffer l := by
    refine ⟨?_, fun c hc => hfit.2.1 c (by simp [hc]), fun c hc => hfit.2.2 c (by simp [hc])⟩
    have := hfit.1
    simp only [List.length_append] at this
    omega
  by_cases hskip : IsBlankOrComment l
  · have hskip' : IsBlankOrComment (w ++ l ++ w') := by
      rcases hskip with hb | ⟨v, r, hv, rfl⟩
      · left
        intro c hc
        rcases List.mem_append.mp hc with hc | hc
        · rcases List.mem_append.mp hc with hc | hc
          · exact hw c hc
          · exact hb c hc
        · exact hw' c hc
      · right
        refine ⟨w ++ v, r ++ w', ?_, by simp⟩
        intro c hc
        rcases List.mem_append.mp hc with hc | hc
        · exact hw c hc
        · exact hv c hc
    rw [read_lines_skip errno fuel _ rest cfg ps hfit hskip',
      read_lines_skip errno fuel _ rest cfg ps hfitl hskip]
  · obtain ⟨c, r, hcur, _⟩ := cursor_of_line hskip
    obtain ⟨v, hv, hc, rfl⟩ := split_at_cursor hcur
    have hnul : ∀ x ∈ (w ++ (v ++ c :: r) ++ w') ++ ['\n'], x.toNat ≠ 0 := by
      intro x hx
      rcases List.mem_append.mp hx with hx | hx
      · exact hfit.2.2 x hx
      · simp at hx; subst hx; decide
    have hnull : ∀ x ∈ (v ++ c :: r) ++ ['\n'], x.toNat ≠ 0 := by
      intro x hx
      rcases List.mem_append.mp hx with hx | hx
      · exact hfitl.2.2 x hx
      · simp at hx; subst hx; decide
    have hnlspace : ∀ x ∈ ['\n'], isspace x = true := by
      intro x hx
      simp at hx; subst hx; decide
    refine read_lines_same_cursor errno fuel fuel _ _ _ _ rest rest false false
      (c :: r) (w' ++ ['\n']) ['\n']
      (fgets_line _ rest hfit.2.1 hfit.1) (fgets_line _ rest hfitl.2.1 hfitl.1)
      ?_ ?_ ?_ hnlspace (List.cons_ne_nil _ _) (fun _ _ => rfl) cfg ps
    · rw [c_string_of_no_nul _ hnul]
      have : w ++ (v ++ c :: r) ++ w' ++ ['\n'] = (w ++ v) ++ (c :: r ++ (w' ++ ['\n'])) := by
        simp
      rw [this]
      apply dropWhile_append_stop
      · intro x hx
        rcases List.mem_append.mp hx with hx | hx
        · exact hw x hx
        · exact hv x hx
      · intro x hx
        simp at hx; subst hx; exact hc
    · rw [c_string_of_no_nul _ hnull]
      have : v ++ c :: r ++ ['\n'] = v ++ (c :: r ++ ['\n']) := by simp
      rw [this]
      apply dropWhile_append_stop hv
      intro x hx
      simp at hx; subst hx; exact hc
    · intro x hx
      rcases List.mem_append.mp hx with hx | hx
      · exact hw' x hx
      · exact hnlspace x hx

/-- Whitespace added before and after a line that is ended by a newline, after
lines that fit the buffer and with the padded line still fitting it, leaves
what `ini_cfg_read` returns as it was: the same code and the same document. -/
theorem read_padded_line (errno : Nat) (path : List Char) (pre : List (List Char))
    (w l w' X : List Char) (hpre : ∀ line ∈ pre, FitsBuffer line)
    (hw : ∀ c ∈ w, isspace c = true) (hw' : ∀ c ∈ w', isspace c = true)
    (hfit : FitsBuffer (w ++ l ++ w')) :
    ini_cfg_read errno path (some (file_of_lines (pre ++ [w ++ l ++ w']) X))
      = ini_cfg_read errno path (some (file_of_lines (pre ++ [l]) X)) := by
  rw [file_of_lines_append, file_of_lines_append]
  exact read_of_loop_agree errno path _ _
    ((file_of_lines pre ((w ++ l ++ w') ++ '\n' :: X)).length + 1 + pre.length)
    ((file_of_lines pre ((w ++ l ++ w') ++ '\n' :: X)).length + 1 + pre.length)
    (by omega)
    (read_lines_after_lines errno _ _ _ _
      (fun cfg ps => read_lines_padded errno _ w l w' X hw hw' hfit cfg ps)
      pre hpre _ _)

/-- The padded line of a concrete file: `  host=localhost ` for
`host=localhost`, in the file `[Network]`, `host=localhost`, `port=8080`. -/
theorem read_padded_line_example :
    ini_cfg_read 0 "net.conf".toList
        (some "[Network]\n  host=localhost \nport=8080".toList)
      = ini_cfg_read 0 "net.conf".toList
        (some "[Network]\nhost=localhost\nport=8080".toList) :=
  read_padded_line 0 "net.conf".toList ["[Network]".toList] "  ".toList
    "host=localhost".toList " ".toList "port=8080".toList
    (by intro line h; simp at h; subst h; refine ⟨by decide, by decide, by decide⟩)
    (by decide) (by decide) ⟨by decide, by decide, by decide⟩

/-- The inserted comment of a concrete file. -/
theorem read_insert_skipped_line_example :
    ini_cfg_read 0 "net.conf".toList
        (some "[Network]\n# the host\nhost=localhost".toList)
      = ini_cfg_read 0 "net.conf".toList
        (some "[Network]\nhost=localhost".toList) :=
  read_insert_skipped_line 0 "net.conf".toList ["[Network]".toList] "# the host".toList
    "host=localhost".toList
    (by intro line h; simp at h; subst h; refine ⟨by decide, by decide, by decide⟩)
    ⟨by decide, by decide, by decide⟩
    (Or.inr ⟨[], " the host".toList, by decide, rfl⟩)

end IniParser
